import Mathlib

/-!
# Verification of `data_converter.py`

A shallow embedding of the data-format converter (`src/python/data_converter.py`)
and of the behaviour of the library calls it delegates to (`json.dumps`/`json.loads`
with `indent=2`, PyYAML 6 `yaml.dump`/`yaml.safe_load`/`yaml.load(Loader)`, and
`xmltodict.parse`/`xmltodict.unparse`), together with proofs of the spec's claims
about it.

Machine integers do not occur (Python integers are unbounded), so `Int` is exact.
Python `float` values are out of scope: the canonical `Number` is modelled as an
integer throughout, which is noted on every claim this touches.
-/

namespace DataConverter

/-- The canonical in-memory value model: the structures producible by
`json.loads`, `yaml.safe_load` / `yaml.load` and `xmltodict.parse`, and consumable
by the writers.  `pyobj` stands for a native Python object constructed by the
extended (unsafe) YAML loader from a `!!python/...` tag: it records the resolved
tag and the parsed argument node. -/
inductive Value where
  | null : Value
  | bool (b : Bool) : Value
  | int (n : Int) : Value
  | str (s : String) : Value
  | seq (items : List Value) : Value
  | map (pairs : List (String × Value)) : Value
  | pyobj (tag : String) (arg : Value) : Value
deriving Repr

mutual

/-- Structural (order-sensitive) equality test on values. -/
def Value.beq : Value → Value → Bool
  | .null, .null => true
  | .bool a, .bool b => a == b
  | .int a, .int b => a == b
  | .str a, .str b => a == b
  | .seq a, .seq b => Value.beqList a b
  | .map a, .map b => Value.beqPairs a b
  | .pyobj t a, .pyobj u b => t == u && Value.beq a b
  | _, _ => false

def Value.beqList : List Value → List Value → Bool
  | [], [] => true
  | a :: as, b :: bs => Value.beq a b && Value.beqList as bs
  | _, _ => false

def Value.beqPairs : List (String × Value) → List (String × Value) → Bool
  | [], [] => true
  | (k, a) :: as, (l, b) :: bs => k == l && Value.beq a b && Value.beqPairs as bs
  | _, _ => false

end

instance : BEq Value := ⟨Value.beq⟩

mutual

theorem Value.beq_iff : ∀ a b : Value, Value.beq a b = true ↔ a = b
  | .null, b => by cases b <;> simp [Value.beq]
  | .bool x, b => by cases b <;> simp [Value.beq]
  | .int x, b => by cases b <;> simp [Value.beq]
  | .str x, b => by cases b <;> simp [Value.beq]
  | .seq xs, b => by
      cases b <;> simp [Value.beq]
      exact Value.beqList_iff xs _
  | .map xs, b => by
      cases b <;> simp [Value.beq]
      exact Value.beqPairs_iff xs _
  | .pyobj t a, b => by
      cases b with
      | null => simp [Value.beq]
      | bool => simp [Value.beq]
      | int => simp [Value.beq]
      | str => simp [Value.beq]
      | seq => simp [Value.beq]
      | map => simp [Value.beq]
      | pyobj u c =>
          simp only [Value.beq, Bool.and_eq_true, beq_iff_eq, Value.beq_iff a c,
            Value.pyobj.injEq]

theorem Value.beqList_iff : ∀ a b : List Value, Value.beqList a b = true ↔ a = b
  | [], b => by cases b <;> simp [Value.beqList]
  | x :: xs, b => by
      cases b with
      | nil => simp [Value.beqList]
      | cons y ys =>
          simp [Value.beqList, Value.beq_iff x y, Value.beqList_iff xs ys]

theorem Value.beqPairs_iff :
    ∀ a b : List (String × Value), Value.beqPairs a b = true ↔ a = b
  | [], b => by cases b <;> simp [Value.beqPairs]
  | (k, x) :: xs, b => by
      cases b with
      | nil => simp [Value.beqPairs]
      | cons y ys =>
          obtain ⟨l, v⟩ := y
          simp only [Value.beqPairs, Bool.and_eq_true, beq_iff_eq, Value.beq_iff x v,
            Value.beqPairs_iff xs ys, List.cons.injEq, Prod.mk.injEq, and_assoc]

end

instance : DecidableEq Value := fun a b =>
  decidable_of_iff (Value.beq a b = true) (Value.beq_iff a b)

instance {ε α : Type} [DecidableEq ε] [DecidableEq α] : DecidableEq (Except ε α) := by
  intro a b
  cases a <;> cases b
  case error.error e f => exact decidable_of_iff (e = f) (by simp)
  case ok.ok x y => exact decidable_of_iff (x = y) (by simp)
  all_goals exact isFalse (by intro h; cases h)

/-! ## Python string primitives

`str.rstrip()` (no argument) strips trailing whitespace; `str.rstrip("\n")`
strips trailing newlines; `str.split("\n")` splits on every newline keeping
empty pieces; `"\n".join` interleaves.  We model these on `List Char`, with
`String` wrappers.  Python's no-argument strip uses `str.isspace`; the model
covers the ASCII whitespace characters (space, tab, newline, carriage return,
vertical tab, form feed); non-ASCII Unicode whitespace is not modelled. -/

/-- Characters stripped by Python's no-argument `str.strip` / `str.rstrip`
(ASCII portion). -/
def pyIsSpace (c : Char) : Bool :=
  c = ' ' || c = '\t' || c = '\n' || c = '\r' || c = '\x0b' || c = '\x0c'

/-- Drop trailing characters satisfying `p` (Python `rstrip`). -/
def rstripBy (p : Char → Bool) (l : List Char) : List Char :=
  (l.reverse.dropWhile p).reverse

/-- Python `s.rstrip()`. -/
def pyRstrip (s : String) : String := ⟨rstripBy pyIsSpace s.data⟩

/-- Python `s.lstrip()`. -/
def pyLstrip (s : String) : String := ⟨s.data.dropWhile pyIsSpace⟩

/-- Python `s.strip()`. -/
def pyStrip (s : String) : String := ⟨rstripBy pyIsSpace (s.data.dropWhile pyIsSpace)⟩

/-- Split a character list at every occurrence of `sep`, keeping empty pieces
(Python `s.split(sep)` for a one-character separator). -/
def splitOnChar (sep : Char) : List Char → List (List Char)
  | [] => [[]]
  | c :: t =>
      if c = sep then [] :: splitOnChar sep t
      else
        match splitOnChar sep t with
        | [] => [[c]]
        | h :: r => (c :: h) :: r

/-- Join character lists with `sep` between them (Python `sep.join`). -/
def joinChar (sep : Char) : List (List Char) → List Char
  | [] => []
  | [l] => l
  | l :: r => l ++ sep :: joinChar sep r

theorem splitOnChar_ne_nil (sep : Char) (l : List Char) : splitOnChar sep l ≠ [] := by
  cases l with
  | nil => simp [splitOnChar]
  | cons c t =>
      simp only [splitOnChar]
      split
      · simp
      · cases h : splitOnChar sep t <;> simp

theorem join_splitOnChar (sep : Char) (l : List Char) :
    joinChar sep (splitOnChar sep l) = l := by
  induction l with
  | nil => simp [splitOnChar, joinChar]
  | cons c t ih =>
      simp only [splitOnChar]
      split
      · subst c
        cases h : splitOnChar sep t with
        | nil => exact absurd h (splitOnChar_ne_nil sep t)
        | cons h' r => rw [h] at ih; simp [joinChar, ih]
      · cases h : splitOnChar sep t with
        | nil => exact absurd h (splitOnChar_ne_nil sep t)
        | cons h' r =>
            rw [h] at ih
            cases r with
            | nil => simp [joinChar] at ih ⊢; exact ih
            | cons _ _ => simp [joinChar] at ih ⊢; exact ih

/-- No piece produced by `splitOnChar sep` contains `sep`. -/
theorem splitOnChar_pieces_no_sep (sep : Char) (l : List Char) :
    ∀ p ∈ splitOnChar sep l, sep ∉ p := by
  induction l with
  | nil => simp [splitOnChar]
  | cons c t ih =>
      simp only [splitOnChar]
      split
      · intro p hp
        rcases List.mem_cons.1 hp with h | h
        · subst h; simp
        · exact ih p h
      · rename_i hc
        cases h : splitOnChar sep t with
        | nil => exact absurd h (splitOnChar_ne_nil sep t)
        | cons h' r =>
            intro p hp
            rcases List.mem_cons.1 hp with hh | hh
            · subst hh
              intro hmem
              rcases List.mem_cons.1 hmem with h1 | h1
              · exact hc h1.symm
              · have := ih h' (by rw [h]; exact List.mem_cons_self _ _)
                exact this h1
            · exact ih p (by rw [h]; exact List.mem_cons.2 (Or.inr hh))

/-- Splitting a separator-free list yields the single piece. -/
theorem splitOnChar_of_no_sep (sep : Char) (p : List Char) (hp : sep ∉ p) :
    splitOnChar sep p = [p] := by
  induction p with
  | nil => simp [splitOnChar]
  | cons c t iht =>
      have hc : c ≠ sep := fun h => hp (h ▸ List.mem_cons_self _ _)
      have ht : sep ∉ t := fun h => hp (List.mem_cons.2 (Or.inr h))
      simp only [splitOnChar, if_neg (fun h => hc h)]
      rw [iht ht]

/-- Splitting a separator-free prefix followed by the separator prepends the
prefix as a piece. -/
theorem splitOnChar_append_sep (sep : Char) (p l : List Char) (hp : sep ∉ p) :
    splitOnChar sep (p ++ sep :: l) = p :: splitOnChar sep l := by
  induction p with
  | nil => simp [splitOnChar]
  | cons c t iht =>
      have hc : c ≠ sep := fun h => hp (h ▸ List.mem_cons_self _ _)
      have ht : sep ∉ t := fun h => hp (List.mem_cons.2 (Or.inr h))
      simp only [List.cons_append, splitOnChar, if_neg (fun h => hc h), List.append_eq]
      rw [iht ht]

/-- Splitting an honest join recovers the pieces, provided no piece contains
the separator. -/
theorem splitOnChar_join (sep : Char) (ps : List (List Char)) (hne : ps ≠ [])
    (hno : ∀ p ∈ ps, sep ∉ p) :
    splitOnChar sep (joinChar sep ps) = ps := by
  induction ps with
  | nil => exact absurd rfl hne
  | cons p rest ih =>
      cases rest with
      | nil => exact splitOnChar_of_no_sep sep p (hno p (List.mem_cons_self _ _))
      | cons q rest' =>
          have hjoin : joinChar sep (p :: q :: rest') = p ++ sep :: joinChar sep (q :: rest') := rfl
          rw [hjoin, splitOnChar_append_sep sep p _ (hno p (List.mem_cons_self _ _)),
            ih (by simp) (fun r hr => hno r (List.mem_cons.2 (Or.inr hr)))]

end DataConverter

namespace DataConverter

/-! ### Facts about `rstripBy` -/

theorem dropWhile_length_le (p : Char → Bool) (l : List Char) :
    (l.dropWhile p).length ≤ l.length := by
  induction l with
  | nil => simp
  | cons c t ih =>
      by_cases h : p c
      · simp only [List.dropWhile_cons, h, if_pos]
        simp only [List.length_cons]
        omega
      · simp [List.dropWhile_cons, h]

theorem dropWhile_idem (p : Char → Bool) (l : List Char) :
    (l.dropWhile p).dropWhile p = l.dropWhile p := by
  induction l with
  | nil => rfl
  | cons c t ih =>
      by_cases h : p c
      · simp [List.dropWhile_cons, h, ih]
      · simp [List.dropWhile_cons, h]

theorem rstripBy_idem (p : Char → Bool) (l : List Char) :
    rstripBy p (rstripBy p l) = rstripBy p l := by
  simp [rstripBy, dropWhile_idem]

theorem rstripBy_append_last (p : Char → Bool) (l : List Char) (c : Char) :
    rstripBy p (l ++ [c]) = if p c then rstripBy p l else l ++ [c] := by
  simp only [rstripBy, List.reverse_append, List.reverse_cons, List.reverse_nil,
    List.nil_append, List.cons_append, List.dropWhile_cons]
  split <;> simp

theorem rstripBy_append_last_of_not (p : Char → Bool) (l : List Char) (c : Char)
    (h : p c = false) : rstripBy p (l ++ [c]) = l ++ [c] := by
  rw [rstripBy_append_last]; simp [h]

/-- A nonempty fixed point of `rstripBy p` ends in a character failing `p`. -/
theorem rstripBy_fixed_decomp (p : Char → Bool) (l : List Char)
    (hfix : rstripBy p l = l) (hne : l ≠ []) :
    ∃ l₀ c, l = l₀ ++ [c] ∧ p c = false := by
  obtain ⟨l₀, c, rfl⟩ : ∃ l₀ c, l = l₀ ++ [c] := by
    cases h : l.reverse with
    | nil => exact absurd (by simpa using congrArg List.reverse h) hne
    | cons c t =>
        refine ⟨t.reverse, c, ?_⟩
        have := congrArg List.reverse h
        simpa using this
  refine ⟨l₀, c, rfl, ?_⟩
  by_contra hpc
  have hpc' : p c = true := by revert hpc; cases p c <;> simp
  rw [rstripBy_append_last, if_pos hpc'] at hfix
  have hlen := congrArg List.length hfix
  have : (rstripBy p l₀).length ≤ l₀.length := by
    simpa [rstripBy] using dropWhile_length_le p l₀.reverse
  simp at hlen
  omega

/-! ### `clean_data_for_yaml` (src/python/data_converter.py lines 99-115)

The string branch performs
`"\n".join(line.rstrip() for line in data.rstrip("\n").split("\n")).rstrip()`. -/

/-- `line.rstrip()` on character lists. -/
def rstripWs (l : List Char) : List Char := rstripBy pyIsSpace l

/-- `data.rstrip("\n")` on character lists. -/
def rstripNl (l : List Char) : List Char := rstripBy (fun c => c = '\n') l

/-- The string normalisation performed by `clean_data_for_yaml` on `str` data. -/
def cleanChars (l : List Char) : List Char :=
  rstripWs (joinChar '\n' (((splitOnChar '\n' (rstripNl l))).map rstripWs))

/-- String wrapper for `cleanChars`. -/
def cleanString (s : String) : String := ⟨cleanChars s.data⟩

/-- The normalisation recipe exactly as the spec words it ("stripping trailing
newlines and trailing whitespace per line, then rejoining"), i.e. without the
final whole-string `rstrip()` that the code also applies.  Modelled from the
spec for comparison against `cleanChars`. -/
def specNormalizeChars (l : List Char) : List Char :=
  joinChar '\n' (((splitOnChar '\n' (rstripNl l))).map rstripWs)

/-- String wrapper for `specNormalizeChars`. -/
def specNormalizeString (s : String) : String := ⟨specNormalizeChars s.data⟩

mutual

/-- `clean_data_for_yaml` from the source: recursively rebuilds mappings and
sequences (in the embedding plain and ordered mappings coincide, so the
`OrderedDict` → `dict` coercion is the identity on the model), normalises
`str` data via `cleanChars`, and returns any other data unchanged. -/
def clean_data_for_yaml : Value → Value
  | .map ps => .map (cleanPairs ps)
  | .seq xs => .seq (cleanList xs)
  | .str s => .str (cleanString s)
  | .null => .null
  | .bool b => .bool b
  | .int n => .int n
  | .pyobj t a => .pyobj t a

def cleanList : List Value → List Value
  | [] => []
  | v :: vs => clean_data_for_yaml v :: cleanList vs

def cleanPairs : List (String × Value) → List (String × Value)
  | [] => []
  | (k, v) :: ps => (k, clean_data_for_yaml v) :: cleanPairs ps

end

end DataConverter

namespace DataConverter

/-! ### Idempotence of the string normalisation -/

theorem mem_of_mem_dropWhile {α : Type} (p : α → Bool) (l : List α) (a : α)
    (h : a ∈ l.dropWhile p) : a ∈ l := by
  induction l with
  | nil => simp at h
  | cons c t ih =>
      by_cases hc : p c
      · simp only [List.dropWhile_cons, hc, if_pos] at h
        exact List.mem_cons.2 (Or.inr (ih h))
      · simp only [List.dropWhile_cons, hc] at h
        simpa using h

theorem head_dropWhile_not {α : Type} (p : α → Bool) (l : List α) (a : α)
    (t : List α) (h : l.dropWhile p = a :: t) : p a = false := by
  induction l with
  | nil => simp at h
  | cons c ct ih =>
      by_cases hc : p c
      · simp only [List.dropWhile_cons, hc, if_pos] at h
        exact ih h
      · rw [List.dropWhile_cons, if_neg hc] at h
        injection h with h1 _
        rw [← h1]
        simpa using hc

theorem mem_rstripBy (p : Char → Bool) (l : List Char) (a : Char)
    (h : a ∈ rstripBy p l) : a ∈ l := by
  simp only [rstripBy, List.mem_reverse] at h
  have := mem_of_mem_dropWhile p l.reverse a h
  simpa using this

/-- Drop trailing empty pieces (what the final whole-string `rstrip()` does to
the list of already-stripped lines). -/
def dropTrailNils (ps : List (List Char)) : List (List Char) :=
  (ps.reverse.dropWhile (fun q => q.isEmpty)).reverse

theorem dropTrailNils_append_nil (ps : List (List Char)) :
    dropTrailNils (ps ++ [[]]) = dropTrailNils ps := by
  simp [dropTrailNils, List.dropWhile_cons]

theorem dropTrailNils_append_ne (ps : List (List Char)) (p : List Char) (hp : p ≠ []) :
    dropTrailNils (ps ++ [p]) = ps ++ [p] := by
  have hie : p.isEmpty = false := by
    cases p with
    | nil => exact absurd rfl hp
    | cons a l => rfl
  simp [dropTrailNils, List.dropWhile_cons, hie]

theorem mem_dropTrailNils (ps : List (List Char)) (q : List Char)
    (h : q ∈ dropTrailNils ps) : q ∈ ps := by
  simp only [dropTrailNils, List.mem_reverse] at h
  have := mem_of_mem_dropWhile _ ps.reverse q h
  simpa using this

theorem dropTrailNils_decomp (ps : List (List Char)) (hne : dropTrailNils ps ≠ []) :
    ∃ qs₀ q, dropTrailNils ps = qs₀ ++ [q] ∧ q ≠ [] ∧ q ∈ ps := by
  cases h : ps.reverse.dropWhile (fun q => q.isEmpty) with
  | nil => exact absurd (by simp [dropTrailNils, h]) hne
  | cons q t =>
      refine ⟨t.reverse, q, by simp [dropTrailNils, h], ?_, ?_⟩
      · have hie := head_dropWhile_not _ ps.reverse q t h
        intro hq
        rw [hq] at hie
        simp at hie
      · have hmem : q ∈ ps.reverse :=
          mem_of_mem_dropWhile _ ps.reverse q (by rw [h]; exact List.mem_cons_self _ _)
        simpa using hmem

theorem joinChar_append_last (c : Char) (ps : List (List Char)) (p : List Char) :
    joinChar c (ps ++ [p]) = if ps = [] then p else joinChar c ps ++ c :: p := by
  induction ps with
  | nil => simp [joinChar]
  | cons q qs ih =>
      cases qs with
      | nil => simp [joinChar]
      | cons r rs =>
          have h1 : joinChar c ((q :: r :: rs) ++ [p]) = q ++ c :: joinChar c ((r :: rs) ++ [p]) := rfl
          have h2 : joinChar c (q :: r :: rs) = q ++ c :: joinChar c (r :: rs) := rfl
          rw [h1, ih, h2]
          simp

/-- `rstrip()` after joining already-stripped lines drops exactly the trailing
empty lines. -/
theorem rstripWs_joinChar (ps : List (List Char))
    (hstr : ∀ p ∈ ps, rstripWs p = p) :
    rstripWs (joinChar '\n' ps) = joinChar '\n' (dropTrailNils ps) := by
  induction ps using List.reverseRecOn with
  | nil => simp [joinChar, dropTrailNils, rstripWs, rstripBy]
  | append_singleton ps p ih =>
      have hstr' : ∀ q ∈ ps, rstripWs q = q := fun q hq => hstr q (by simp [hq])
      have hp : rstripWs p = p := hstr p (by simp)
      rw [joinChar_append_last]
      by_cases hps : ps = []
      · subst hps
        simp only [if_pos rfl]
        by_cases hpe : p = []
        · subst hpe
          simp [dropTrailNils, joinChar, rstripWs, rstripBy]
        · rw [dropTrailNils_append_ne [] p hpe]
          obtain ⟨p₀, ch, hdec, hch⟩ := rstripBy_fixed_decomp pyIsSpace p hp hpe
          rw [hdec]
          simp only [List.nil_append, joinChar]
          exact rstripBy_append_last_of_not pyIsSpace p₀ ch hch
      · rw [if_neg hps]
        by_cases hpe : p = []
        · subst hpe
          rw [dropTrailNils_append_nil, ← ih hstr']
          show rstripBy pyIsSpace (joinChar '\n' ps ++ '\n' :: []) =
            rstripBy pyIsSpace (joinChar '\n' ps)
          have harr : joinChar '\n' ps ++ '\n' :: [] = joinChar '\n' ps ++ ['\n'] := rfl
          rw [harr, rstripBy_append_last]
          simp [pyIsSpace]
        · rw [dropTrailNils_append_ne ps p hpe, joinChar_append_last, if_neg hps]
          obtain ⟨p₀, ch, hdec, hch⟩ := rstripBy_fixed_decomp pyIsSpace p hp hpe
          rw [hdec]
          have : joinChar '\n' ps ++ '\n' :: (p₀ ++ [ch]) =
              (joinChar '\n' ps ++ '\n' :: p₀) ++ [ch] := by simp
          rw [this]
          exact rstripBy_append_last_of_not pyIsSpace _ ch hch

theorem cleanChars_idem (l : List Char) : cleanChars (cleanChars l) = cleanChars l := by
  have hstr : ∀ p ∈ (splitOnChar '\n' (rstripNl l)).map rstripWs, rstripWs p = p := by
    intro p hp
    obtain ⟨q, _, rfl⟩ := List.mem_map.1 hp
    exact rstripBy_idem _ q
  have hnonl : ∀ p ∈ (splitOnChar '\n' (rstripNl l)).map rstripWs, '\n' ∉ p := by
    intro p hp
    obtain ⟨q, hq, rfl⟩ := List.mem_map.1 hp
    intro hmem
    exact splitOnChar_pieces_no_sep '\n' (rstripNl l) q hq (mem_rstripBy _ _ _ hmem)
  have hA : cleanChars l =
      joinChar '\n' (dropTrailNils ((splitOnChar '\n' (rstripNl l)).map rstripWs)) :=
    rstripWs_joinChar _ hstr
  set ps := (splitOnChar '\n' (rstripNl l)).map rstripWs with hps
  cases hqs : dropTrailNils ps with
  | nil =>
      rw [hA, hqs]
      simp only [joinChar]
      rfl
  | cons q rest =>
      obtain ⟨qs₀, p, hdec, hpne, hpmem⟩ :=
        dropTrailNils_decomp ps (by rw [hqs]; simp)
      obtain ⟨p₀, ch, hpdec, hch⟩ :=
        rstripBy_fixed_decomp pyIsSpace p (hstr p hpmem) hpne
      -- the full cleaned string ends in the non-whitespace character ch
      obtain ⟨X, hX⟩ : ∃ X, cleanChars l = X ++ [ch] := by
        rw [hA, hdec, joinChar_append_last]
        by_cases h0 : qs₀ = []
        · exact ⟨p₀, by rw [if_pos h0, hpdec]⟩
        · exact ⟨joinChar '\n' qs₀ ++ '\n' :: p₀, by rw [if_neg h0, hpdec]; simp⟩
      have hchnl : (ch = '\n') = False := by
        by_contra h
        simp only [eq_iff_iff, iff_false] at h
        push_neg at h
        rw [h] at hch
        simp [pyIsSpace] at hch
      -- second clean: the rstrip("\n") pass is the identity
      have h1 : rstripNl (cleanChars l) = cleanChars l := by
        rw [hX]
        refine rstripBy_append_last_of_not _ X ch ?_
        simp [hchnl]
      -- splitting recovers the retained lines
      have h2 : splitOnChar '\n' (cleanChars l) = dropTrailNils ps := by
        rw [hA]
        refine splitOnChar_join '\n' _ (by rw [hqs]; simp) ?_
        intro r hr
        exact hnonl r (mem_dropTrailNils ps r hr)
      -- each retained line is already stripped
      have h3 : (dropTrailNils ps).map rstripWs = dropTrailNils ps := by
        refine List.map_congr_left ?_ |>.trans (List.map_id _)
        intro r hr
        exact hstr r (mem_dropTrailNils ps r hr)
      -- and the final rstrip() is the identity
      have h4 : rstripWs (cleanChars l) = cleanChars l := by
        rw [hX]
        exact rstripBy_append_last_of_not _ X ch hch
      show rstripWs (joinChar '\n' ((splitOnChar '\n' (rstripNl (cleanChars l))).map rstripWs)) = cleanChars l
      rw [h1, h2, h3, ← hA, h4]

theorem cleanString_idem (s : String) : cleanString (cleanString s) = cleanString s := by
  simp only [cleanString]
  exact congrArg String.mk (cleanChars_idem s.data)

end DataConverter

namespace DataConverter

mutual

theorem clean_data_for_yaml_idem :
    ∀ v, clean_data_for_yaml (clean_data_for_yaml v) = clean_data_for_yaml v
  | .null => by simp [clean_data_for_yaml]
  | .bool b => by simp [clean_data_for_yaml]
  | .int n => by simp [clean_data_for_yaml]
  | .pyobj t a => by simp [clean_data_for_yaml]
  | .str s => by simp [clean_data_for_yaml, cleanString_idem s]
  | .seq xs => by simp [clean_data_for_yaml, cleanList_idem xs]
  | .map ps => by simp [clean_data_for_yaml, cleanPairs_idem ps]

theorem cleanList_idem : ∀ xs, cleanList (cleanList xs) = cleanList xs
  | [] => by simp [cleanList]
  | v :: vs => by simp [cleanList, clean_data_for_yaml_idem v, cleanList_idem vs]

theorem cleanPairs_idem : ∀ ps, cleanPairs (cleanPairs ps) = cleanPairs ps
  | [] => by simp [cleanPairs]
  | (k, v) :: ps => by simp [cleanPairs, clean_data_for_yaml_idem v, cleanPairs_idem ps]

end

theorem cleanList_eq_map (xs : List Value) : cleanList xs = xs.map clean_data_for_yaml := by
  induction xs with
  | nil => simp [cleanList]
  | cons v vs ih => simp [cleanList, ih]

theorem cleanPairs_eq_map (ps : List (String × Value)) :
    cleanPairs ps = ps.map (fun kv => (kv.1, clean_data_for_yaml kv.2)) := by
  induction ps with
  | nil => simp [cleanPairs]
  | cons kv ps ih => obtain ⟨k, v⟩ := kv; simp [cleanPairs, ih]

/-! ## `parse_mode` (src/python/data_converter.py lines 118-154) -/

/-- The directive separator (`MODE_SEPARATOR = "2"`). -/
def MODE_SEPARATOR : Char := '2'

/-- `EXPECTED_PARTS = 2`. -/
def EXPECTED_PARTS : Nat := 2

/-- The supported format tokens, in source order. -/
def supported_formats : List String := ["xml", "json", "yaml"]

/-- `parse_mode` from the source.  The Python code checks
`len(parts) != EXPECTED_PARTS` and then destructures `from_fmt, to_fmt = parts`;
the two-element match with a catch-all branch is the same dispatch. -/
def parse_mode (mode : String) : Except String (String × String) :=
  if mode.data.contains MODE_SEPARATOR = false then
    .error ("Invalid mode format: " ++ mode ++ ". Expected format: 'from2to' (e.g., 'xml2json')")
  else
    match (splitOnChar MODE_SEPARATOR mode.data).map String.mk with
    | [from_fmt, to_fmt] =>
        if from_fmt ∈ supported_formats then
          if to_fmt ∈ supported_formats then
            if from_fmt = to_fmt then
              .error ("Source and target formats are the same: " ++ from_fmt)
            else
              .ok (from_fmt, to_fmt)
          else
            .error ("Unsupported target format: " ++ to_fmt ++ ". Supported: xml, json, yaml")
        else
          .error ("Unsupported source format: " ++ from_fmt ++ ". Supported: xml, json, yaml")
    | _ =>
        .error ("Invalid mode format: " ++ mode ++ ". Expected exactly one '2' separator")

/-- When the directive splits into exactly two parts, `parse_mode` reduces to
the membership/identity cascade, in source order: source-format check first,
then target-format, then identity. -/
theorem parse_mode_of_two (mode fromf tof : String)
    (h : (splitOnChar MODE_SEPARATOR mode.data).map String.mk = [fromf, tof]) :
    parse_mode mode =
      if fromf ∈ supported_formats then
        if tof ∈ supported_formats then
          if fromf = tof then
            .error ("Source and target formats are the same: " ++ fromf)
          else
            .ok (fromf, tof)
        else
          .error ("Unsupported target format: " ++ tof ++ ". Supported: xml, json, yaml")
      else
        .error ("Unsupported source format: " ++ fromf ++ ". Supported: xml, json, yaml") := by
  have hmem : MODE_SEPARATOR ∈ mode.data := by
    by_contra hno
    rw [splitOnChar_of_no_sep _ _ hno] at h
    simp at h
  have hcon : mode.data.contains MODE_SEPARATOR = true := by
    exact List.elem_eq_true_of_mem hmem
  unfold parse_mode
  rw [hcon, h]
  simp

end DataConverter

namespace DataConverter

/-- **C4**: the mode resolver maps `"xml2json"` to `("xml", "json")`; fails for
`"xmljson"` with the invalid-directive error (no separator); fails for
`"xml2xml"` with the identity-conversion error; and fails for `"xml2csv"` with
the unsupported-format error — each error message carrying the offending token
(the whole mode string, the repeated format, and the unknown format
respectively). -/
theorem claim_C4_directive_validation :
    parse_mode "xml2json" = .ok ("xml", "json") ∧
    parse_mode "xmljson" =
      .error "Invalid mode format: xmljson. Expected format: 'from2to' (e.g., 'xml2json')" ∧
    parse_mode "xml2xml" = .error "Source and target formats are the same: xml" ∧
    parse_mode "xml2csv" = .error "Unsupported target format: csv. Supported: xml, json, yaml" :=
  ⟨rfl, rfl, rfl, rfl⟩

/-- **C9**: a directive with exactly one separator but an empty source or target
part fails with the unsupported-format error naming the (empty) part, not the
invalid-mode-format error; and the checks run in source order: source-format
membership, then target-format membership, then identity. -/
theorem claim_C9_empty_part_order :
    parse_mode "2json" = .error "Unsupported source format: . Supported: xml, json, yaml" ∧
    parse_mode "xml2" = .error "Unsupported target format: . Supported: xml, json, yaml" ∧
    parse_mode "2" = .error "Unsupported source format: . Supported: xml, json, yaml" ∧
    (∀ mode fromf tof : String,
      (splitOnChar MODE_SEPARATOR mode.data).map String.mk = [fromf, tof] →
      fromf ∉ supported_formats →
      parse_mode mode =
        .error ("Unsupported source format: " ++ fromf ++ ". Supported: xml, json, yaml")) ∧
    (∀ mode fromf tof : String,
      (splitOnChar MODE_SEPARATOR mode.data).map String.mk = [fromf, tof] →
      fromf ∈ supported_formats →
      tof ∉ supported_formats →
      parse_mode mode =
        .error ("Unsupported target format: " ++ tof ++ ". Supported: xml, json, yaml")) ∧
    (∀ mode fromf : String,
      (splitOnChar MODE_SEPARATOR mode.data).map String.mk = [fromf, fromf] →
      fromf ∈ supported_formats →
      parse_mode mode = .error ("Source and target formats are the same: " ++ fromf)) := by
  refine ⟨rfl, rfl, rfl, ?_, ?_, ?_⟩
  · intro mode fromf tof h hfrom
    rw [parse_mode_of_two mode fromf tof h, if_neg hfrom]
  · intro mode fromf tof h hfrom htof
    rw [parse_mode_of_two mode fromf tof h, if_pos hfrom, if_neg htof]
  · intro mode fromf h hfrom
    rw [parse_mode_of_two mode fromf fromf h, if_pos hfrom, if_pos hfrom, if_pos rfl]

/-- Witness for C9: concrete instantiation of the source-before-target clause at
the directive `"csv2json"`. -/
theorem claim_C9_witness :
    parse_mode "csv2json" =
      .error ("Unsupported source format: " ++ "csv" ++ ". Supported: xml, json, yaml") :=
  claim_C9_empty_part_order.2.2.2.1 "csv2json" "csv" "json" (by rfl) (by decide)

/-- **C6** counterexample: the claim describes the string normalisation as
"stripping trailing newlines and trailing whitespace per line, then rejoining",
but the code additionally applies a final whole-string `rstrip()`.  On
`"a\n \n \n"` the described recipe yields `"a\n\n"` whereas
`clean_data_for_yaml` yields `"a"`. -/
theorem claim_C6_counterexample :
    clean_data_for_yaml (.str "a\n \n \n") = .str "a" ∧
    specNormalizeString "a\n \n \n" = "a\n\n" ∧
    ("a" : String) ≠ "a\n\n" := by
  refine ⟨?_, by decide, by decide⟩
  simp [clean_data_for_yaml]
  decide

/-- **C6** (amended): `clean_data_for_yaml` returns a new value (purity is
intrinsic: the Python body only builds new dicts/lists/strings via
comprehensions and `join`), is idempotent, rebuilds every (ordered or plain)
mapping node as a plain mapping and every sequence node, and normalises every
string by stripping trailing newlines, stripping trailing whitespace per line,
rejoining, and finally stripping trailing whitespace from the whole result. -/
theorem claim_C6_clean_pure_idempotent :
    (∀ v, clean_data_for_yaml (clean_data_for_yaml v) = clean_data_for_yaml v) ∧
    (∀ ps, clean_data_for_yaml (.map ps) =
      .map (ps.map (fun kv => (kv.1, clean_data_for_yaml kv.2)))) ∧
    (∀ xs, clean_data_for_yaml (.seq xs) = .seq (xs.map clean_data_for_yaml)) ∧
    (∀ s, clean_data_for_yaml (.str s) = .str (cleanString s)) ∧
    (∀ s, cleanString s = pyRstrip (specNormalizeString s)) := by
  refine ⟨clean_data_for_yaml_idem, ?_, ?_, ?_, fun s => rfl⟩
  · intro ps
    simp [clean_data_for_yaml, cleanPairs_eq_map]
  · intro xs
    simp [clean_data_for_yaml, cleanList_eq_map]
  · intro s
    simp [clean_data_for_yaml]

end DataConverter

namespace DataConverter

/-! ## Decimal integer representation (`str(int)` in Python) -/

/-- Digit character for `d < 10`. -/
def digitChar (d : Nat) : Char := Char.ofNat (48 + d)

/-- Reversed decimal digits of `n` (with `fuel ≥ n` steps available). -/
def natDigitsRev : Nat → Nat → List Char
  | 0, _ => []
  | fuel + 1, n =>
      if n = 0 then [] else digitChar (n % 10) :: natDigitsRev fuel (n / 10)

/-- Decimal representation of a natural number, as Python `str` renders it. -/
def natRepr (n : Nat) : List Char :=
  if n = 0 then ['0'] else (natDigitsRev (n + 1) n).reverse

/-- Decimal representation of an integer, as Python `str` renders it. -/
def intRepr (i : Int) : List Char :=
  if i < 0 then '-' :: natRepr i.natAbs else natRepr i.natAbs

/-! ## `json.dumps(data, indent=2)` -/

/-- `n` spaces. -/
def spacesL (n : Nat) : List Char := List.replicate n ' '

/-- Lower-case hex digit. -/
def hexDigitL (d : Nat) : Char :=
  if d < 10 then Char.ofNat (48 + d) else Char.ofNat (87 + d)

/-- `\uXXXX` escape for `n < 0x10000`. -/
def uEscape (n : Nat) : List Char :=
  ['\\', 'u', hexDigitL (n / 4096 % 16), hexDigitL (n / 256 % 16),
   hexDigitL (n / 16 % 16), hexDigitL (n % 16)]

/-- Escape of one character in a JSON string literal, after CPython's
`json.encoder.py_encode_basestring_ascii` (default `ensure_ascii=True`):
`"` and `\` and the five control shorthands, `\uXXXX` for other characters
outside printable ASCII `0x20..0x7e`, surrogate pairs above `0xffff`. -/
def jsonEscapeChar (c : Char) : List Char :=
  if c = '"' then ['\\', '"']
  else if c = '\\' then ['\\', '\\']
  else if c = '\n' then ['\\', 'n']
  else if c = '\t' then ['\\', 't']
  else if c = '\r' then ['\\', 'r']
  else if c = '\x08' then ['\\', 'b']
  else if c = '\x0c' then ['\\', 'f']
  else if c.toNat < 0x20 ∨ 0x7f ≤ c.toNat then
    if c.toNat < 0x10000 then uEscape c.toNat
    else
      uEscape (0xd800 + (c.toNat - 0x10000) / 0x400) ++
        uEscape (0xdc00 + (c.toNat - 0x10000) % 0x400)
  else [c]

/-- Body of a JSON string literal. -/
def jsonEscapeList (s : List Char) : List Char := (s.map jsonEscapeChar).flatten

/-- A complete JSON string literal, quotes included. -/
def jsonQuote (s : String) : List Char := '"' :: jsonEscapeList s.data ++ ['"']

mutual

/-- `json.dumps(v, indent=2)` at nesting level `lvl`: members/elements are
placed on their own lines indented `2 * (lvl + 1)` spaces, separated by `",\n"`,
with the key separator `": "`; empty containers render as `{}` / `[]`.
Returns `none` where `json.dumps` raises `TypeError` (non-serialisable native
object). -/
def jsonDumpVal : Value → Nat → Option (List Char)
  | .null, _ => some "null".data
  | .bool true, _ => some "true".data
  | .bool false, _ => some "false".data
  | .int n, _ => some (intRepr n)
  | .str s, _ => some (jsonQuote s)
  | .pyobj _ _, _ => none
  | .seq [], _ => some "[]".data
  | .seq (x :: xs), lvl =>
      match jsonDumpElems (x :: xs) (lvl + 1) with
      | none => none
      | some body => some ('[' :: '\n' :: body ++ '\n' :: spacesL (2 * lvl) ++ [']'])
  | .map [], _ => some "{}".data
  | .map (p :: ps), lvl =>
      match jsonDumpMembers (p :: ps) (lvl + 1) with
      | none => none
      | some body => some ('{' :: '\n' :: body ++ '\n' :: spacesL (2 * lvl) ++ ['}'])

def jsonDumpElems : List Value → Nat → Option (List Char)
  | [], _ => some []
  | [x], lvl =>
      match jsonDumpVal x lvl with
      | none => none
      | some d => some (spacesL (2 * lvl) ++ d)
  | x :: y :: rest, lvl =>
      match jsonDumpVal x lvl, jsonDumpElems (y :: rest) lvl with
      | some d, some r => some (spacesL (2 * lvl) ++ d ++ ',' :: '\n' :: r)
      | _, _ => none

def jsonDumpMembers : List (String × Value) → Nat → Option (List Char)
  | [], _ => some []
  | [(k, v)], lvl =>
      match jsonDumpVal v lvl with
      | none => none
      | some d => some (spacesL (2 * lvl) ++ jsonQuote k ++ ':' :: ' ' :: d)
  | (k, v) :: m :: rest, lvl =>
      match jsonDumpVal v lvl, jsonDumpMembers (m :: rest) lvl with
      | some d, some r => some (spacesL (2 * lvl) ++ jsonQuote k ++ ':' :: ' ' :: d ++ ',' :: '\n' :: r)
      | _, _ => none

end

/-- `json.dumps(data, indent=2)`; `none` models the `TypeError` raised on
non-serialisable data. -/
def json_dumps (v : Value) : Option String :=
  (jsonDumpVal v 0).map (fun l => String.mk l)

end DataConverter

namespace DataConverter

/-! ## `json.loads` -/

/-- Failure classes of CPython's `json.loads` (plus the model boundaries:
non-integer numbers and lone-surrogate escapes, which CPython accepts but the
model does not represent). -/
inductive JsonErrKind where
  | expectingValue
  | expectingPropertyName
  | expectingColonDelimiter
  | expectingCommaDelimiter
  | unterminatedString
  | invalidControlCharacter
  | invalidEscape
  | invalidUXXXXEscape
  | extraData
  | floatUnsupportedModel
deriving Repr, DecidableEq

/-- The message text CPython attaches to each failure class. -/
def JsonErrKind.msg : JsonErrKind → String
  | .expectingValue => "Expecting value"
  | .expectingPropertyName => "Expecting property name enclosed in double quotes"
  | .expectingColonDelimiter => "Expecting ':' delimiter"
  | .expectingCommaDelimiter => "Expecting ',' delimiter"
  | .unterminatedString => "Unterminated string starting at"
  | .invalidControlCharacter => "Invalid control character at"
  | .invalidEscape => "Invalid \\escape"
  | .invalidUXXXXEscape => "Invalid \\uXXXX escape"
  | .extraData => "Extra data"
  | .floatUnsupportedModel => "non-integer number outside model"

/-- `json.JSONDecodeError`: failure class with 0-based character offset and
1-based line and column, as the exception carries them. -/
structure JsonError where
  kind : JsonErrKind
  pos : Nat
  lineno : Nat
  colno : Nat
deriving Repr, DecidableEq

/-- `str(json.JSONDecodeError)`: message with the positional diagnostic. -/
def JsonError.detail (e : JsonError) : String :=
  e.kind.msg ++ ": line " ++ toString e.lineno ++ " column " ++ toString e.colno ++
    " (char " ++ toString e.pos ++ ")"

/-- Build the error record from the remaining-input length at the failure. -/
def mkJsonError (cs : List Char) (k : JsonErrKind) (rem : Nat) : JsonError :=
  let pos := cs.length - rem
  let pre := cs.take pos
  let lineno := 1 + pre.countP (fun c => c = '\n')
  let colno := (pre.reverse.takeWhile (fun c => !(c = '\n'))).length + 1
  ⟨k, pos, lineno, colno⟩

/-- JSON whitespace (`json.decoder.WHITESPACE_STR`). -/
def jsonWsChar (c : Char) : Bool := c = ' ' || c = '\t' || c = '\n' || c = '\r'

def skipWsJ (cs : List Char) : List Char := cs.dropWhile jsonWsChar

def hexVal (c : Char) : Option Nat :=
  if 48 ≤ c.toNat ∧ c.toNat ≤ 57 then some (c.toNat - 48)
  else if 97 ≤ c.toNat ∧ c.toNat ≤ 102 then some (c.toNat - 87)
  else if 65 ≤ c.toNat ∧ c.toNat ≤ 70 then some (c.toNat - 55)
  else none

def hex4 (a b c d : Char) : Option Nat :=
  match hexVal a, hexVal b, hexVal c, hexVal d with
  | some x, some y, some z, some w => some (4096 * x + 256 * y + 16 * z + w)
  | _, _, _, _ => none

/-- Scan the body of a JSON string literal (CPython `py_scanstring`); `cs`
starts just after the opening quote and `start` is the remaining-input length
at the opening quote (for the unterminated-string diagnostic).  Surrogate-pair
escapes combine into one scalar; a lone surrogate escape, which CPython keeps
as a lone surrogate code unit, has no `Char` representation and is reported as
`invalidUXXXXEscape` (model boundary). -/
def jsonParseStringBody (start : Nat) : Nat → List Char →
    Except (JsonErrKind × Nat) (List Char × List Char)
  | 0, _ => .error (.unterminatedString, start)
  | fuel + 1, cs =>
      match cs with
      | [] => .error (.unterminatedString, start)
      | c :: t =>
          if c = '"' then .ok ([], t)
          else if c = '\\' then
            match t with
            | [] => .error (.unterminatedString, start)
            | e :: t2 =>
                if e = 'u' then
                  match t2 with
                  | h1 :: h2 :: h3 :: h4 :: r =>
                      (match hex4 h1 h2 h3 h4 with
                      | none => .error (.invalidUXXXXEscape, r.length + 4)
                      | some n =>
                          if 0xd800 ≤ n ∧ n ≤ 0xdbff then
                            match r with
                            | b2 :: u2 :: g1 :: g2 :: g3 :: g4 :: r2 =>
                                if b2 = '\\' ∧ u2 = 'u' then
                                  (match hex4 g1 g2 g3 g4 with
                                  | some m =>
                                      if 0xdc00 ≤ m ∧ m ≤ 0xdfff then
                                        (match jsonParseStringBody start fuel r2 with
                                        | .ok (content, rest) =>
                                            .ok (Char.ofNat (0x10000 + (n - 0xd800) * 0x400 +
                                              (m - 0xdc00)) :: content, rest)
                                        | .error err => .error err)
                                      else .error (.invalidUXXXXEscape, r2.length + 4)
                                  | none => .error (.invalidUXXXXEscape, r2.length + 4))
                                else .error (.invalidUXXXXEscape, r.length + 4)
                            | _ => .error (.invalidUXXXXEscape, r.length + 4)
                          else if 0xdc00 ≤ n ∧ n ≤ 0xdfff then
                            .error (.invalidUXXXXEscape, r.length + 4)
                          else
                            match jsonParseStringBody start fuel r with
                            | .ok (content, rest) => .ok (Char.ofNat n :: content, rest)
                            | .error err => .error err)
                  | _ => .error (.invalidUXXXXEscape, t2.length)
                else
                  match
                    (if e = '"' then some '"' else if e = '\\' then some '\\'
                     else if e = '/' then some '/' else if e = 'b' then some '\x08'
                     else if e = 'f' then some '\x0c' else if e = 'n' then some '\n'
                     else if e = 'r' then some '\r' else if e = 't' then some '\t'
                     else none : Option Char) with
                  | none => .error (.invalidEscape, t2.length + 2)
                  | some d =>
                      match jsonParseStringBody start fuel t2 with
                      | .ok (content, rest) => .ok (d :: content, rest)
                      | .error err => .error err
          else if c.toNat < 0x20 then .error (.invalidControlCharacter, t.length + 1)
          else
            match jsonParseStringBody start fuel t with
            | .ok (content, rest) => .ok (c :: content, rest)
            | .error err => .error err

def isDigit (c : Char) : Bool := 48 ≤ c.toNat && c.toNat ≤ 57

def spanDigits : List Char → (List Char × List Char)
  | [] => ([], [])
  | c :: t =>
      if isDigit c then
        match spanDigits t with
        | (ds, rest) => (c :: ds, rest)
      else ([], c :: t)

def digitsToNat (acc : Nat) : List Char → Nat
  | [] => acc
  | c :: t => digitsToNat (acc * 10 + (c.toNat - 48)) t

/-- After the integer part of a number: CPython's `NUMBER_RE` also matches
`(\.\d+)?([eE][-+]?\d+)?`; those build floats, which are outside the model. -/
def jsonNumberTail (neg : Bool) (n : Nat) (rest : List Char) (errPos : Nat) :
    Except (JsonErrKind × Nat) (Value × List Char) :=
  let intVal : Value := .int (if neg then -(n : Int) else (n : Int))
  match rest with
  | [] => .ok (intVal, rest)
  | c :: t =>
      if c = '.' then
        (match t with
         | d :: _ =>
             if isDigit d then .error (.floatUnsupportedModel, errPos) else .ok (intVal, rest)
         | [] => .ok (intVal, rest))
      else if c = 'e' ∨ c = 'E' then
        (match t with
         | d :: t2 =>
             if isDigit d then .error (.floatUnsupportedModel, errPos)
             else if d = '+' ∨ d = '-' then
               (match t2 with
                | d2 :: _ =>
                    if isDigit d2 then .error (.floatUnsupportedModel, errPos)
                    else .ok (intVal, rest)
                | [] => .ok (intVal, rest))
             else .ok (intVal, rest)
         | [] => .ok (intVal, rest))
      else .ok (intVal, rest)

/-- Parse a JSON number per CPython's `NUMBER_RE` `-?(0|[1-9]\d*)`; anything
else at value position is "Expecting value". -/
def jsonParseNumber (cs : List Char) : Except (JsonErrKind × Nat) (Value × List Char) :=
  match cs with
  | [] => .error (.expectingValue, 0)
  | c :: t =>
      if c = '-' then
        (match t with
         | [] => .error (.expectingValue, cs.length)
         | c2 :: t2 =>
             if c2 = '0' then jsonNumberTail true 0 t2 cs.length
             else if isDigit c2 then
               (match spanDigits t2 with
                | (ds, rest) => jsonNumberTail true (digitsToNat (c2.toNat - 48) ds) rest cs.length)
             else .error (.expectingValue, cs.length))
      else if c = '0' then jsonNumberTail false 0 t cs.length
      else if isDigit c then
        (match spanDigits t with
         | (ds, rest) => jsonNumberTail false (digitsToNat (c.toNat - 48) ds) rest cs.length)
      else .error (.expectingValue, cs.length)

/-- `dict.__setitem__` on an association list: an existing key keeps its
position and takes the new value, a new key is appended. -/
def pyInsert (ps : List (String × Value)) (k : String) (v : Value) :
    List (String × Value) :=
  if ps.any (fun kv => kv.1 = k) then
    ps.map (fun kv => if kv.1 = k then (k, v) else kv)
  else ps ++ [(k, v)]

/-- `some rest` when `p` is a prefix of `cs`, with `rest` the remainder. -/
def stripPrefixChars : List Char → List Char → Option (List Char)
  | [], cs => some cs
  | _ :: _, [] => none
  | a :: p, c :: cs => if c = a then stripPrefixChars p cs else none

mutual

/-- Recursive-descent JSON value parser (CPython `json.scanner`/`json.decoder`).
The fuel decreases on every nested construct; `json_loads` supplies more fuel
than any input can consume. -/
def jsonParseVal : Nat → List Char → Except (JsonErrKind × Nat) (Value × List Char)
  | 0, cs => .error (.expectingValue, cs.length)
  | fuel + 1, cs₀ =>
      match skipWsJ cs₀ with
      | [] => .error (.expectingValue, 0)
      | c :: t =>
          if c = '{' then
            (match skipWsJ t with
             | c2 :: r => if c2 = '}' then .ok (.map [], r) else jsonParseMembers fuel [] (c2 :: r)
             | [] => jsonParseMembers fuel [] [])
          else if c = '[' then
            (match skipWsJ t with
             | c2 :: r => if c2 = ']' then .ok (.seq [], r) else jsonParseElems fuel [] (c2 :: r)
             | [] => jsonParseElems fuel [] [])
          else if c = '"' then
            (match jsonParseStringBody (t.length + 1) (t.length + 1) t with
             | .ok (content, rest) => .ok (.str (String.mk content), rest)
             | .error e => .error e)
          else
            match stripPrefixChars ['t', 'r', 'u', 'e'] (c :: t) with
            | some r => .ok (.bool true, r)
            | none =>
            match stripPrefixChars ['f', 'a', 'l', 's', 'e'] (c :: t) with
            | some r => .ok (.bool false, r)
            | none =>
            match stripPrefixChars ['n', 'u', 'l', 'l'] (c :: t) with
            | some r => .ok (.null, r)
            | none =>
            match stripPrefixChars ['N', 'a', 'N'] (c :: t) with
            | some r => .error (.floatUnsupportedModel, r.length + 3)
            | none =>
            match stripPrefixChars ['I', 'n', 'f', 'i', 'n', 'i', 't', 'y'] (c :: t) with
            | some r => .error (.floatUnsupportedModel, r.length + 8)
            | none =>
            match stripPrefixChars ['-', 'I', 'n', 'f', 'i', 'n', 'i', 't', 'y'] (c :: t) with
            | some r => .error (.floatUnsupportedModel, r.length + 9)
            | none => jsonParseNumber (c :: t)

/-- Object-member loop, positioned at an expected key with whitespace skipped. -/
def jsonParseMembers : Nat → List (String × Value) → List Char →
    Except (JsonErrKind × Nat) (Value × List Char)
  | 0, _, cs => .error (.expectingPropertyName, cs.length)
  | fuel + 1, acc, cs =>
      match cs with
      | c :: t =>
          if c = '"' then
            (match jsonParseStringBody (t.length + 1) (t.length + 1) t with
            | .error e => .error e
            | .ok (key, r1) =>
                match skipWsJ r1 with
                | c2 :: r3 =>
                    if c2 = ':' then
                      (match jsonParseVal fuel r3 with
                      | .error e => .error e
                      | .ok (v, r4) =>
                          (match skipWsJ r4 with
                          | c3 :: r6 =>
                              if c3 = ',' then
                                jsonParseMembers fuel (pyInsert acc (String.mk key) v) (skipWsJ r6)
                              else if c3 = '}' then
                                .ok (.map (pyInsert acc (String.mk key) v), r6)
                              else .error (.expectingCommaDelimiter, r6.length + 1)
                          | [] => .error (.expectingCommaDelimiter, 0)))
                    else .error (.expectingColonDelimiter, r3.length + 1)
                | [] => .error (.expectingColonDelimiter, 0))
          else .error (.expectingPropertyName, cs.length)
      | [] => .error (.expectingPropertyName, 0)

/-- Array-element loop, positioned at an expected value. -/
def jsonParseElems : Nat → List Value → List Char →
    Except (JsonErrKind × Nat) (Value × List Char)
  | 0, _, cs => .error (.expectingValue, cs.length)
  | fuel + 1, acc, cs =>
      match jsonParseVal fuel cs with
      | .error e => .error e
      | .ok (v, r1) =>
          match skipWsJ r1 with
          | c2 :: r3 =>
              if c2 = ',' then jsonParseElems fuel (acc ++ [v]) (skipWsJ r3)
              else if c2 = ']' then .ok (.seq (acc ++ [v]), r3)
              else .error (.expectingCommaDelimiter, r3.length + 1)
          | [] => .error (.expectingCommaDelimiter, 0)

end

/-- `json.loads`. -/
def json_loads (s : String) : Except JsonError Value :=
  match jsonParseVal (s.data.length + 1) s.data with
  | .error (k, rem) => .error (mkJsonError s.data k rem)
  | .ok (v, rest) =>
      match skipWsJ rest with
      | [] => .ok v
      | rest' => .error (mkJsonError s.data .extraData rest'.length)

end DataConverter

namespace DataConverter

/-! ## JSON round-trip infrastructure -/

/-- No string occurs twice (Python `dict` keys are unique). -/
def distinctStrings : List String → Bool
  | [] => true
  | s :: r => !(r.any (fun t => t = s)) && distinctStrings r

mutual

/-- Values `json.dumps` serialises faithfully for round-tripping: no native
objects, and no duplicate keys in any mapping (a canonical-model invariant;
`json.loads` would coalesce duplicates). -/
def jsonWf : Value → Bool
  | .null => true
  | .bool _ => true
  | .int _ => true
  | .str _ => true
  | .pyobj _ _ => false
  | .seq xs => jsonWfL xs
  | .map ps => distinctStrings (ps.map Prod.fst) && jsonWfP ps

def jsonWfL : List Value → Bool
  | [] => true
  | x :: r => jsonWf x && jsonWfL r

def jsonWfP : List (String × Value) → Bool
  | [] => true
  | (_, v) :: r => jsonWf v && jsonWfP r

end

mutual

/-- Fuel needed by `jsonParseVal` to reparse a dumped value. -/
def jweight : Value → Nat
  | .null => 1
  | .bool _ => 1
  | .int _ => 1
  | .str _ => 1
  | .pyobj _ _ => 1
  | .seq xs => 1 + jweightL xs
  | .map ps => 1 + jweightP ps

def jweightL : List Value → Nat
  | [] => 1
  | x :: r => 1 + jweight x + jweightL r

def jweightP : List (String × Value) → Nat
  | [] => 1
  | (_, v) :: r => 1 + jweight v + jweightP r

end

theorem skipWsJ_cons_of_not (c : Char) (l : List Char) (h : jsonWsChar c = false) :
    skipWsJ (c :: l) = c :: l := by
  simp [skipWsJ, List.dropWhile_cons, h]

theorem skipWsJ_cons_ws (c : Char) (l : List Char) (h : jsonWsChar c = true) :
    skipWsJ (c :: l) = skipWsJ l := by
  simp [skipWsJ, List.dropWhile_cons, h]

theorem skipWsJ_spaces (n : Nat) (l : List Char) :
    skipWsJ (spacesL n ++ l) = skipWsJ l := by
  induction n with
  | zero => simp [spacesL]
  | succ k ih =>
      have : spacesL (k + 1) = ' ' :: spacesL k := by
        simp [spacesL, List.replicate_succ]
      rw [this, List.cons_append, skipWsJ_cons_ws _ _ (by rfl), ih]

theorem digitChar_toNat (d : Nat) (h : d < 10) : (digitChar d).toNat = 48 + d := by
  interval_cases d <;> rfl

theorem isDigit_digitChar (d : Nat) (h : d < 10) : isDigit (digitChar d) = true := by
  interval_cases d <;> rfl

theorem digitChar_ne_zero (d : Nat) (h1 : 0 < d) (h2 : d < 10) : digitChar d ≠ '0' := by
  interval_cases d <;> decide

theorem toNat_bounds_of_isDigit (c : Char) (h : isDigit c = true) :
    48 ≤ c.toNat ∧ c.toNat ≤ 57 := by
  simp only [isDigit, Bool.and_eq_true, decide_eq_true_eq] at h
  exact h

/-- Character-class facts about decimal digits, used for stop-character and
head-character reasoning. -/
theorem digit_head_facts (c : Char) (h : isDigit c = true) :
    jsonWsChar c = false ∧ c ≠ ']' ∧ c ≠ '}' ∧ c ≠ '-' ∧ c ≠ ',' ∧ c ≠ '\n' := by
  obtain ⟨h1, h2⟩ := toNat_bounds_of_isDigit c h
  have hne : ∀ d : Char, c.toNat ≠ d.toNat → c ≠ d := by
    intro d hd hc
    exact hd (by rw [hc])
  have hnec : ∀ d : Char, c.toNat ≠ d.toNat → (c = d) = False := by
    intro d hd
    simp only [eq_iff_iff, iff_false]
    exact hne d hd
  refine ⟨?_, ?_, ?_, ?_, ?_, ?_⟩
  · simp only [jsonWsChar,
      hnec ' ' (by show c.toNat ≠ 32; omega),
      hnec '\t' (by show c.toNat ≠ 9; omega),
      hnec '\n' (by show c.toNat ≠ 10; omega),
      hnec '\r' (by show c.toNat ≠ 13; omega),
      decide_False, Bool.or_false]
  · exact hne ']' (by show c.toNat ≠ 93; omega)
  · exact hne '}' (by show c.toNat ≠ 125; omega)
  · exact hne '-' (by show c.toNat ≠ 45; omega)
  · exact hne ',' (by show c.toNat ≠ 44; omega)
  · exact hne '\n' (by show c.toNat ≠ 10; omega)

theorem spanDigits_append (ds rest : List Char)
    (hds : ∀ c ∈ ds, isDigit c = true)
    (hrest : rest = [] ∨ ∃ c t, rest = c :: t ∧ isDigit c = false) :
    spanDigits (ds ++ rest) = (ds, rest) := by
  induction ds with
  | nil =>
      rcases hrest with h | ⟨c, t, rfl, hc⟩
      · simp [h, spanDigits]
      · simp [spanDigits, hc]
  | cons c ds ih =>
      have hc := hds c (List.mem_cons_self _ _)
      have hih := ih (fun x hx => hds x (List.mem_cons.2 (Or.inr hx)))
      simp only [List.cons_append, spanDigits, hc, if_pos, List.append_eq, hih]

theorem digitsToNat_nil (a : Nat) : digitsToNat a [] = a := rfl

theorem digitsToNat_cons (a : Nat) (c : Char) (t : List Char) :
    digitsToNat a (c :: t) = digitsToNat (a * 10 + (c.toNat - 48)) t := rfl

theorem digitsToNat_append (a : Nat) (l1 l2 : List Char) :
    digitsToNat a (l1 ++ l2) = digitsToNat (digitsToNat a l1) l2 := by
  induction l1 generalizing a with
  | nil => rw [List.nil_append, digitsToNat_nil]
  | cons c t ih => rw [List.cons_append, digitsToNat_cons, digitsToNat_cons, ih]

theorem natDigitsRev_zero (fuel : Nat) : natDigitsRev fuel 0 = [] := by
  cases fuel <;> simp [natDigitsRev]

theorem natDigitsRev_all_digits (fuel n : Nat) :
    ∀ c ∈ natDigitsRev fuel n, isDigit c = true := by
  induction fuel generalizing n with
  | zero => simp [natDigitsRev]
  | succ f ih =>
      simp only [natDigitsRev]
      split
      · simp
      · intro c hc
        rcases List.mem_cons.1 hc with rfl | h
        · exact isDigit_digitChar _ (Nat.mod_lt _ (by omega))
        · exact ih (n / 10) c h

theorem digitsToNat_natDigitsRev (fuel n a : Nat) (h : n < fuel) :
    digitsToNat a ((natDigitsRev fuel n).reverse) =
      a * 10 ^ (natDigitsRev fuel n).length + n := by
  induction fuel generalizing n a with
  | zero => omega
  | succ f ih =>
      have hstep : natDigitsRev (f + 1) n =
          if n = 0 then [] else digitChar (n % 10) :: natDigitsRev f (n / 10) := rfl
      rw [hstep]
      by_cases h0 : n = 0
      · subst h0
        rw [if_pos rfl]
        show digitsToNat a [] = a * 10 ^ ([] : List Char).length + 0
        rw [digitsToNat_nil]
        simp
      · rw [if_neg h0]
        have hlt : n / 10 < f := by omega
        rw [List.reverse_cons, digitsToNat_append, ih (n / 10) a hlt,
          digitsToNat_cons, digitsToNat_nil, digitChar_toNat _ (Nat.mod_lt _ (by omega)),
          List.length_cons, pow_succ]
        have h48 : 48 + n % 10 - 48 = n % 10 := by omega
        rw [h48]
        calc (a * 10 ^ (natDigitsRev f (n / 10)).length + n / 10) * 10 + n % 10
            = a * (10 ^ (natDigitsRev f (n / 10)).length * 10) + (10 * (n / 10) + n % 10) := by
              ring
          _ = a * (10 ^ (natDigitsRev f (n / 10)).length * 10) + n :=
              congrArg (fun z => a * (10 ^ (natDigitsRev f (n / 10)).length * 10) + z)
                (by omega)

theorem natDigitsRev_last_ne_zero (fuel n : Nat) (h1 : 0 < n) (h2 : n < fuel) :
    ∃ l d, natDigitsRev fuel n = l ++ [d] ∧ isDigit d = true ∧ d ≠ '0' := by
  induction fuel generalizing n with
  | zero => omega
  | succ f ih =>
      have hstep : natDigitsRev (f + 1) n =
          if n = 0 then [] else digitChar (n % 10) :: natDigitsRev f (n / 10) := rfl
      rw [hstep, if_neg (by omega : ¬n = 0)]
      by_cases hq : n / 10 = 0
      · refine ⟨[], digitChar (n % 10), ?_, isDigit_digitChar _ (by omega), ?_⟩
        · have hz10 : natDigitsRev f (n / 10) = [] := by
            rw [hq]; exact natDigitsRev_zero f
          rw [hz10]
          rfl
        · refine digitChar_ne_zero _ ?_ (by omega)
          omega
      · obtain ⟨l, d, hld, hd, hz⟩ := ih (n / 10) (by omega) (by omega)
        refine ⟨digitChar (n % 10) :: l, d, ?_, hd, hz⟩
        rw [hld]
        rfl

/-- `natRepr` of a positive number: nonzero leading digit, all digits,
and reparsing them recovers the number. -/
theorem natRepr_pos_decomp (m : Nat) (hm : 0 < m) :
    ∃ c ds, natRepr m = c :: ds ∧ isDigit c = true ∧ c ≠ '0' ∧
      (∀ x ∈ ds, isDigit x = true) ∧ digitsToNat (c.toNat - 48) ds = m := by
  obtain ⟨l, d, hld, hd, hz⟩ := natDigitsRev_last_ne_zero (m + 1) m hm (by omega)
  refine ⟨d, l.reverse, ?_, hd, hz, ?_, ?_⟩
  · show (if m = 0 then ['0'] else (natDigitsRev (m + 1) m).reverse) = d :: l.reverse
    rw [if_neg (by omega : ¬m = 0), hld, List.reverse_append]
    rfl
  · intro x hx
    refine natDigitsRev_all_digits (m + 1) m x ?_
    rw [hld, List.mem_append]
    exact Or.inl (List.mem_reverse.mp hx)
  · have hval := digitsToNat_natDigitsRev (m + 1) m 0 (by omega)
    rw [hld] at hval
    simp only [List.reverse_append, List.reverse_cons, List.reverse_nil, List.nil_append,
      List.singleton_append, digitsToNat_cons, Nat.zero_mul, Nat.zero_add] at hval
    exact hval

theorem natRepr_zero : natRepr 0 = ['0'] := rfl

end DataConverter

namespace DataConverter

theorem hexVal_hexDigitL (k : Nat) (h : k < 16) : hexVal (hexDigitL k) = some k := by
  interval_cases k <;> rfl

theorem hex4_uEscape (n : Nat) (h : n < 65536) :
    hex4 (hexDigitL (n / 4096 % 16)) (hexDigitL (n / 256 % 16))
      (hexDigitL (n / 16 % 16)) (hexDigitL (n % 16)) = some n := by
  unfold hex4
  rw [hexVal_hexDigitL _ (by omega), hexVal_hexDigitL _ (by omega),
    hexVal_hexDigitL _ (by omega), hexVal_hexDigitL _ (by omega)]
  exact congrArg some (by omega)

/-- Unicode scalar value ranges of a `Char` (never a surrogate). -/
theorem char_valid_ranges (c : Char) :
    c.toNat < 0xd800 ∨ (0xdfff < c.toNat ∧ c.toNat < 0x110000) := by
  rcases c.valid with h | ⟨h1, h2⟩
  · exact Or.inl (UInt32.toNat_lt_of_lt (by decide) h)
  · exact Or.inr ⟨UInt32.lt_toNat_of_lt (by decide) h1,
      UInt32.toNat_lt_of_lt (by decide) h2⟩

end DataConverter

namespace DataConverter

theorem jsonEscapeList_cons (c : Char) (s : List Char) :
    jsonEscapeList (c :: s) = jsonEscapeChar c ++ jsonEscapeList s := by
  simp [jsonEscapeList]

end DataConverter

namespace DataConverter

/-- One-step unfolding of the string scanner on an ordinary character. -/
theorem jpsb_plain (start fuel : Nat) (c : Char) (t : List Char)
    (h1 : c ≠ '"') (h2 : c ≠ '\\') (h3 : ¬c.toNat < 0x20) :
    jsonParseStringBody start (fuel + 1) (c :: t) =
      (match jsonParseStringBody start fuel t with
       | .ok (content, rest) => .ok (c :: content, rest)
       | .error err => .error err) := by
  conv_lhs => rw [jsonParseStringBody.eq_def]
  simp only [if_neg h1, if_neg h2, if_neg h3]

/-- One-step unfolding of the string scanner on a `\uXXXX` escape. -/
theorem jpsb_u (start fuel : Nat) (h1 h2 h3 h4 : Char) (r : List Char) :
    jsonParseStringBody start (fuel + 1) ('\\' :: 'u' :: h1 :: h2 :: h3 :: h4 :: r) =
      (match hex4 h1 h2 h3 h4 with
      | none => .error (.invalidUXXXXEscape, r.length + 4)
      | some n =>
          if 0xd800 ≤ n ∧ n ≤ 0xdbff then
            match r with
            | b2 :: u2 :: g1 :: g2 :: g3 :: g4 :: r2 =>
                if b2 = '\\' ∧ u2 = 'u' then
                  (match hex4 g1 g2 g3 g4 with
                  | some m =>
                      if 0xdc00 ≤ m ∧ m ≤ 0xdfff then
                        (match jsonParseStringBody start fuel r2 with
                        | .ok (content, rest) =>
                            .ok (Char.ofNat (0x10000 + (n - 0xd800) * 0x400 +
                              (m - 0xdc00)) :: content, rest)
                        | .error err => .error err)
                      else .error (.invalidUXXXXEscape, r2.length + 4)
                  | none => .error (.invalidUXXXXEscape, r2.length + 4))
                else .error (.invalidUXXXXEscape, r.length + 4)
            | _ => .error (.invalidUXXXXEscape, r.length + 4)
          else if 0xdc00 ≤ n ∧ n ≤ 0xdfff then
            .error (.invalidUXXXXEscape, r.length + 4)
          else
            match jsonParseStringBody start fuel r with
            | .ok (content, rest) => .ok (Char.ofNat n :: content, rest)
            | .error err => .error err) := rfl

theorem jpsb_esc_quote (start fuel : Nat) (t : List Char) :
    jsonParseStringBody start (fuel + 1) ('\\' :: '"' :: t) =
      (match jsonParseStringBody start fuel t with
       | .ok (content, rest) => .ok ('"' :: content, rest)
       | .error err => .error err) := rfl

theorem jpsb_esc_bslash (start fuel : Nat) (t : List Char) :
    jsonParseStringBody start (fuel + 1) ('\\' :: '\\' :: t) =
      (match jsonParseStringBody start fuel t with
       | .ok (content, rest) => .ok ('\\' :: content, rest)
       | .error err => .error err) := rfl

theorem jpsb_esc_n (start fuel : Nat) (t : List Char) :
    jsonParseStringBody start (fuel + 1) ('\\' :: 'n' :: t) =
      (match jsonParseStringBody start fuel t with
       | .ok (content, rest) => .ok ('\n' :: content, rest)
       | .error err => .error err) := rfl

theorem jpsb_esc_t (start fuel : Nat) (t : List Char) :
    jsonParseStringBody start (fuel + 1) ('\\' :: 't' :: t) =
      (match jsonParseStringBody start fuel t with
       | .ok (content, rest) => .ok ('\t' :: content, rest)
       | .error err => .error err) := rfl

theorem jpsb_esc_r (start fuel : Nat) (t : List Char) :
    jsonParseStringBody start (fuel + 1) ('\\' :: 'r' :: t) =
      (match jsonParseStringBody start fuel t with
       | .ok (content, rest) => .ok ('\r' :: content, rest)
       | .error err => .error err) := rfl

theorem jpsb_esc_b (start fuel : Nat) (t : List Char) :
    jsonParseStringBody start (fuel + 1) ('\\' :: 'b' :: t) =
      (match jsonParseStringBody start fuel t with
       | .ok (content, rest) => .ok ('\x08' :: content, rest)
       | .error err => .error err) := rfl

theorem jpsb_esc_f (start fuel : Nat) (t : List Char) :
    jsonParseStringBody start (fuel + 1) ('\\' :: 'f' :: t) =
      (match jsonParseStringBody start fuel t with
       | .ok (content, rest) => .ok ('\x0c' :: content, rest)
       | .error err => .error err) := rfl

end DataConverter

namespace DataConverter

theorem jsonEscapeChar_length_pos (c : Char) : 0 < (jsonEscapeChar c).length := by
  unfold jsonEscapeChar
  repeat' split
  all_goals simp [uEscape]

/-- Scanning the escaped body of a dumped string literal recovers the original
characters and the input past the closing quote. -/
theorem jsonEscape_parse (s : List Char) : ∀ (fuel start : Nat) (rest : List Char),
    (jsonEscapeList s).length < fuel →
    jsonParseStringBody start fuel (jsonEscapeList s ++ '"' :: rest) = .ok (s, rest) := by
  induction s with
  | nil =>
      intro fuel start rest hf
      obtain ⟨f, rfl⟩ : ∃ f, fuel = f + 1 := ⟨fuel - 1, by omega⟩
      rfl
  | cons c s ih =>
      intro fuel start rest hf
      rw [jsonEscapeList_cons] at hf
      rw [jsonEscapeList_cons, List.append_assoc]
      obtain ⟨f, rfl⟩ : ∃ f, fuel = f + 1 := ⟨fuel - 1, by omega⟩
      rw [List.length_append] at hf
      by_cases hq : c = '"'
      · subst hq
        rw [show jsonEscapeChar '"' = ['\\', '"'] from rfl] at hf ⊢
        simp only [List.cons_append, List.nil_append] at hf ⊢
        rw [jpsb_esc_quote, ih f start rest (by simp at hf ⊢; omega)]
      · by_cases hb : c = '\\'
        · subst hb
          rw [show jsonEscapeChar '\\' = ['\\', '\\'] from rfl] at hf ⊢
          simp only [List.cons_append, List.nil_append] at hf ⊢
          rw [jpsb_esc_bslash, ih f start rest (by simp at hf ⊢; omega)]
        · by_cases hn : c = '\n'
          · subst hn
            rw [show jsonEscapeChar '\n' = ['\\', 'n'] from rfl] at hf ⊢
            simp only [List.cons_append, List.nil_append] at hf ⊢
            rw [jpsb_esc_n, ih f start rest (by simp at hf ⊢; omega)]
          · by_cases ht : c = '\t'
            · subst ht
              rw [show jsonEscapeChar '\t' = ['\\', 't'] from rfl] at hf ⊢
              simp only [List.cons_append, List.nil_append] at hf ⊢
              rw [jpsb_esc_t, ih f start rest (by simp at hf ⊢; omega)]
            · by_cases hr : c = '\r'
              · subst hr
                rw [show jsonEscapeChar '\r' = ['\\', 'r'] from rfl] at hf ⊢
                simp only [List.cons_append, List.nil_append] at hf ⊢
                rw [jpsb_esc_r, ih f start rest (by simp at hf ⊢; omega)]
              · by_cases hbs : c = '\x08'
                · subst hbs
                  rw [show jsonEscapeChar '\x08' = ['\\', 'b'] from rfl] at hf ⊢
                  simp only [List.cons_append, List.nil_append] at hf ⊢
                  rw [jpsb_esc_b, ih f start rest (by simp at hf ⊢; omega)]
                · by_cases hff : c = '\x0c'
                  · subst hff
                    rw [show jsonEscapeChar '\x0c' = ['\\', 'f'] from rfl] at hf ⊢
                    simp only [List.cons_append, List.nil_append] at hf ⊢
                    rw [jpsb_esc_f, ih f start rest (by simp at hf ⊢; omega)]
                  · have hech0 : jsonEscapeChar c =
                        (if c.toNat < 0x20 ∨ 0x7f ≤ c.toNat then
                          if c.toNat < 0x10000 then uEscape c.toNat
                          else uEscape (0xd800 + (c.toNat - 0x10000) / 0x400) ++
                            uEscape (0xdc00 + (c.toNat - 0x10000) % 0x400)
                        else [c]) := by
                      unfold jsonEscapeChar
                      rw [if_neg hq, if_neg hb, if_neg hn, if_neg ht, if_neg hr,
                        if_neg hbs, if_neg hff]
                    by_cases h8 : c.toNat < 0x20 ∨ 0x7f ≤ c.toNat
                    · rw [if_pos h8] at hech0
                      have hsurr1 : ¬(0xd800 ≤ c.toNat ∧ c.toNat ≤ 0xdbff) := by
                        rcases char_valid_ranges c with hv | ⟨hv1, hv2⟩ <;> omega
                      have hsurr2 : ¬(0xdc00 ≤ c.toNat ∧ c.toNat ≤ 0xdfff) := by
                        rcases char_valid_ranges c with hv | ⟨hv1, hv2⟩ <;> omega
                      by_cases h9 : c.toNat < 0x10000
                      · rw [if_pos h9] at hech0
                        rw [hech0] at hf ⊢
                        rw [show (uEscape c.toNat ++ (jsonEscapeList s ++ '"' :: rest)) =
                            '\\' :: 'u' :: hexDigitL (c.toNat / 4096 % 16) ::
                            hexDigitL (c.toNat / 256 % 16) :: hexDigitL (c.toNat / 16 % 16) ::
                            hexDigitL (c.toNat % 16) :: (jsonEscapeList s ++ '"' :: rest)
                          from rfl]
                        rw [jpsb_u, hex4_uEscape c.toNat h9]
                        simp only [if_neg hsurr1, if_neg hsurr2,
                          ih f start rest (by simp [uEscape] at hf ⊢; omega), Char.ofNat_toNat]
                      · rw [if_neg h9] at hech0
                        rw [hech0] at hf ⊢
                        have hlt : c.toNat < 0x110000 := by
                          rcases char_valid_ranges c with hv | ⟨hv1, hv2⟩ <;> omega
                        rw [show ((uEscape (0xd800 + (c.toNat - 0x10000) / 0x400) ++
                              uEscape (0xdc00 + (c.toNat - 0x10000) % 0x400)) ++
                              (jsonEscapeList s ++ '"' :: rest)) =
                            '\\' :: 'u' ::
                            hexDigitL ((0xd800 + (c.toNat - 0x10000) / 0x400) / 4096 % 16) ::
                            hexDigitL ((0xd800 + (c.toNat - 0x10000) / 0x400) / 256 % 16) ::
                            hexDigitL ((0xd800 + (c.toNat - 0x10000) / 0x400) / 16 % 16) ::
                            hexDigitL ((0xd800 + (c.toNat - 0x10000) / 0x400) % 16) ::
                            '\\' :: 'u' ::
                            hexDigitL ((0xdc00 + (c.toNat - 0x10000) % 0x400) / 4096 % 16) ::
                            hexDigitL ((0xdc00 + (c.toNat - 0x10000) % 0x400) / 256 % 16) ::
                            hexDigitL ((0xdc00 + (c.toNat - 0x10000) % 0x400) / 16 % 16) ::
                            hexDigitL ((0xdc00 + (c.toNat - 0x10000) % 0x400) % 16) ::
                            (jsonEscapeList s ++ '"' :: rest)
                          from rfl]
                        rw [jpsb_u, hex4_uEscape _ (by omega)]
                        simp only [
                          if_pos (by omega : 0xd800 ≤ 0xd800 + (c.toNat - 0x10000) / 0x400 ∧
                            0xd800 + (c.toNat - 0x10000) / 0x400 ≤ 0xdbff),
                          if_pos (show ('\\' : Char) = '\\' ∧ ('u' : Char) = 'u'
                            from ⟨rfl, rfl⟩),
                          hex4_uEscape (0xdc00 + (c.toNat - 0x10000) % 0x400) (by omega),
                          if_pos (by omega : 0xdc00 ≤ 0xdc00 + (c.toNat - 0x10000) % 0x400 ∧
                            0xdc00 + (c.toNat - 0x10000) % 0x400 ≤ 0xdfff),
                          ih f start rest (by simp [uEscape] at hf ⊢; omega)]
                        have harith : 0x10000 +
                            (0xd800 + (c.toNat - 0x10000) / 0x400 - 0xd800) * 0x400 +
                            (0xdc00 + (c.toNat - 0x10000) % 0x400 - 0xdc00) = c.toNat := by
                          omega
                        rw [harith, Char.ofNat_toNat]
                        simp
                    · rw [if_neg h8] at hech0
                      rw [hech0] at hf ⊢
                      simp only [List.cons_append, List.nil_append] at hf ⊢
                      rw [jpsb_plain start f c _ hq hb (by omega),
                        ih f start rest (by simp at hf ⊢; omega)]

end DataConverter

namespace DataConverter

/-- Contexts a dumped value is followed by: end of input, or the separator
comma, or the newline before a closing bracket / next line. -/
def jsonStop (rest : List Char) : Prop :=
  rest = [] ∨ ∃ c t, rest = c :: t ∧ (c = ',' ∨ c = '\n')

theorem jsonNumberTail_stop (neg : Bool) (n : Nat) (errPos : Nat) (rest : List Char)
    (h : jsonStop rest) :
    jsonNumberTail neg n rest errPos = .ok (.int (if neg then -(n : Int) else (n : Int)), rest) := by
  rcases h with rfl | ⟨c, t, rfl, hc⟩
  · rfl
  · have h1 : c ≠ '.' := by rcases hc with rfl | rfl <;> decide
    have h2 : ¬(c = 'e' ∨ c = 'E') := by
      rcases hc with rfl | rfl <;> decide
    unfold jsonNumberTail
    simp only [if_neg h1, if_neg h2]

theorem stop_head_not_digit (rest : List Char) (h : jsonStop rest) :
    rest = [] ∨ ∃ c t, rest = c :: t ∧ isDigit c = false := by
  rcases h with rfl | ⟨c, t, rfl, hc⟩
  · exact Or.inl rfl
  · exact Or.inr ⟨c, t, rfl, by rcases hc with rfl | rfl <;> decide⟩

/-- Reparsing a dumped integer. -/
theorem jsonParseNumber_intRepr (n : Int) (rest : List Char) (h : jsonStop rest) :
    jsonParseNumber (intRepr n ++ rest) = .ok (.int n, rest) := by
  by_cases hneg : n < 0
  · have hm : 0 < n.natAbs := by omega
    obtain ⟨c0, ds, hrepr, hdig, hz, hall, hval⟩ := natRepr_pos_decomp n.natAbs hm
    rw [show intRepr n = '-' :: natRepr n.natAbs from by unfold intRepr; rw [if_pos hneg]]
    rw [hrepr]
    unfold jsonParseNumber
    simp only [List.cons_append, if_pos (show ('-' : Char) = '-' from rfl), if_neg hz,
      if_pos hdig, spanDigits_append ds rest hall (stop_head_not_digit rest h), hval,
      jsonNumberTail_stop true _ _ rest h]
    simp
    rw [abs_of_neg hneg, neg_neg]
  · by_cases h0 : n = 0
    · subst h0
      rw [show intRepr 0 = ['0'] from rfl]
      unfold jsonParseNumber
      simp only [List.cons_append, List.nil_append,
        if_neg (show ¬('0' : Char) = '-' from by decide),
        if_pos (show ('0' : Char) = '0' from rfl), jsonNumberTail_stop false _ _ rest h]
      rfl
    · have hm : 0 < n.natAbs := by omega
      obtain ⟨c0, ds, hrepr, hdig, hz, hall, hval⟩ := natRepr_pos_decomp n.natAbs hm
      rw [show intRepr n = natRepr n.natAbs from by unfold intRepr; rw [if_neg hneg]]
      rw [hrepr]
      unfold jsonParseNumber
      have hnm : c0 ≠ '-' := (digit_head_facts c0 hdig).2.2.2.1
      have hn : (n.natAbs : Int) = n := by omega
      simp only [List.cons_append, if_neg hnm, if_neg hz, if_pos hdig,
        spanDigits_append ds rest hall (stop_head_not_digit rest h), hval,
        jsonNumberTail_stop false _ _ rest h, hn]
      simp

end DataConverter

namespace DataConverter

/-- One-step unfolding of `jsonParseVal`. -/
theorem jpv_succ (fuel : Nat) (cs₀ : List Char) :
    jsonParseVal (fuel + 1) cs₀ =
      (match skipWsJ cs₀ with
      | [] => .error (.expectingValue, 0)
      | c :: t =>
          if c = '{' then
            (match skipWsJ t with
             | c2 :: r => if c2 = '}' then .ok (.map [], r) else jsonParseMembers fuel [] (c2 :: r)
             | [] => jsonParseMembers fuel [] [])
          else if c = '[' then
            (match skipWsJ t with
             | c2 :: r => if c2 = ']' then .ok (.seq [], r) else jsonParseElems fuel [] (c2 :: r)
             | [] => jsonParseElems fuel [] [])
          else if c = '"' then
            (match jsonParseStringBody (t.length + 1) (t.length + 1) t with
             | .ok (content, rest) => .ok (.str (String.mk content), rest)
             | .error e => .error e)
          else
            match stripPrefixChars ['t', 'r', 'u', 'e'] (c :: t) with
            | some r => .ok (.bool true, r)
            | none =>
            match stripPrefixChars ['f', 'a', 'l', 's', 'e'] (c :: t) with
            | some r => .ok (.bool false, r)
            | none =>
            match stripPrefixChars ['n', 'u', 'l', 'l'] (c :: t) with
            | some r => .ok (.null, r)
            | none =>
            match stripPrefixChars ['N', 'a', 'N'] (c :: t) with
            | some r => .error (.floatUnsupportedModel, r.length + 3)
            | none =>
            match stripPrefixChars ['I', 'n', 'f', 'i', 'n', 'i', 't', 'y'] (c :: t) with
            | some r => .error (.floatUnsupportedModel, r.length + 8)
            | none =>
            match stripPrefixChars ['-', 'I', 'n', 'f', 'i', 'n', 'i', 't', 'y'] (c :: t) with
            | some r => .error (.floatUnsupportedModel, r.length + 9)
            | none => jsonParseNumber (c :: t)) := rfl

/-- One-step unfolding of `jsonParseMembers`. -/
theorem jpm_succ (fuel : Nat) (acc : List (String × Value)) (cs : List Char) :
    jsonParseMembers (fuel + 1) acc cs =
      (match cs with
      | c :: t =>
          if c = '"' then
            (match jsonParseStringBody (t.length + 1) (t.length + 1) t with
            | .error e => .error e
            | .ok (key, r1) =>
                match skipWsJ r1 with
                | c2 :: r3 =>
                    if c2 = ':' then
                      (match jsonParseVal fuel r3 with
                      | .error e => .error e
                      | .ok (v, r4) =>
                          (match skipWsJ r4 with
                          | c3 :: r6 =>
                              if c3 = ',' then
                                jsonParseMembers fuel (pyInsert acc (String.mk key) v) (skipWsJ r6)
                              else if c3 = '}' then
                                .ok (.map (pyInsert acc (String.mk key) v), r6)
                              else .error (.expectingCommaDelimiter, r6.length + 1)
                          | [] => .error (.expectingCommaDelimiter, 0)))
                    else .error (.expectingColonDelimiter, r3.length + 1)
                | [] => .error (.expectingColonDelimiter, 0))
          else .error (.expectingPropertyName, cs.length)
      | [] => .error (.expectingPropertyName, 0)) := rfl

/-- One-step unfolding of `jsonParseElems`. -/
theorem jpe_succ (fuel : Nat) (acc : List Value) (cs : List Char) :
    jsonParseElems (fuel + 1) acc cs =
      (match jsonParseVal fuel cs with
      | .error e => .error e
      | .ok (v, r1) =>
          match skipWsJ r1 with
          | c2 :: r3 =>
              if c2 = ',' then jsonParseElems fuel (acc ++ [v]) (skipWsJ r3)
              else if c2 = ']' then .ok (.seq (acc ++ [v]), r3)
              else .error (.expectingCommaDelimiter, r3.length + 1)
          | [] => .error (.expectingCommaDelimiter, 0)) := rfl

theorem skipWsJ_idem (cs : List Char) : skipWsJ (skipWsJ cs) = skipWsJ cs :=
  dropWhile_idem jsonWsChar cs

/-- `jsonParseVal` is insensitive to leading whitespace (at nonzero fuel). -/
theorem jpv_skipWs (fuel : Nat) (cs : List Char) :
    jsonParseVal (fuel + 1) cs = jsonParseVal (fuel + 1) (skipWsJ cs) := by
  rw [jpv_succ, jpv_succ, skipWsJ_idem]

end DataConverter

namespace DataConverter

theorem jweight_pos : ∀ v : Value, 1 ≤ jweight v
  | .null => by simp [jweight]
  | .bool _ => by simp [jweight]
  | .int _ => by simp [jweight]
  | .str _ => by simp [jweight]
  | .pyobj _ _ => by simp [jweight]
  | .seq _ => by simp [jweight]
  | .map _ => by simp [jweight]

theorem jweightL_pos : ∀ xs : List Value, 1 ≤ jweightL xs
  | [] => by simp [jweightL]
  | _ :: _ => by simp [jweightL]; omega

theorem jweightP_pos : ∀ ps : List (String × Value), 1 ≤ jweightP ps
  | [] => by simp [jweightP]
  | (_, _) :: _ => by simp [jweightP]; omega

/-- A digit is none of the characters that begin a JSON keyword or container. -/
theorem digit_not_special (c : Char) (h : isDigit c = true) :
    (c = '{') = False ∧ (c = '[') = False ∧ (c = '"') = False ∧ (c = 't') = False ∧
    (c = 'f') = False ∧ (c = 'n') = False ∧ (c = 'N') = False ∧ (c = 'I') = False ∧
    (c = '-') = False := by
  obtain ⟨h1, h2⟩ := toNat_bounds_of_isDigit c h
  have hnec : ∀ d : Char, c.toNat ≠ d.toNat → (c = d) = False := by
    intro d hd
    simp only [eq_iff_iff, iff_false]
    intro hc
    exact hd (by rw [hc])
  exact ⟨hnec '{' (by show c.toNat ≠ 123; omega),
    hnec '[' (by show c.toNat ≠ 91; omega),
    hnec '"' (by show c.toNat ≠ 34; omega),
    hnec 't' (by show c.toNat ≠ 116; omega),
    hnec 'f' (by show c.toNat ≠ 102; omega),
    hnec 'n' (by show c.toNat ≠ 110; omega),
    hnec 'N' (by show c.toNat ≠ 78; omega),
    hnec 'I' (by show c.toNat ≠ 73; omega),
    hnec '-' (by show c.toNat ≠ 45; omega)⟩

/-- The first character of any dumped value is not whitespace and not a
closing bracket. -/
theorem jsonDump_head (v : Value) (lvl : Nat) (d : List Char)
    (hd : jsonDumpVal v lvl = some d) :
    ∃ c t, d = c :: t ∧ jsonWsChar c = false ∧ c ≠ ']' ∧ c ≠ '}' := by
  cases v with
  | null =>
      refine ⟨'n', ['u', 'l', 'l'], ?_, by decide, by decide, by decide⟩
      simpa [jsonDumpVal] using hd.symm
  | bool b =>
      cases b with
      | true =>
          refine ⟨'t', ['r', 'u', 'e'], ?_, by decide, by decide, by decide⟩
          simpa [jsonDumpVal] using hd.symm
      | false =>
          refine ⟨'f', ['a', 'l', 's', 'e'], ?_, by decide, by decide, by decide⟩
          simpa [jsonDumpVal] using hd.symm
  | int n =>
      have hdn : d = intRepr n := by simpa [jsonDumpVal] using hd.symm
      by_cases hneg : n < 0
      · refine ⟨'-', natRepr n.natAbs, ?_, by decide, by decide, by decide⟩
        rw [hdn]
        unfold intRepr
        rw [if_pos hneg]
      · by_cases h0 : n = 0
        · refine ⟨'0', [], ?_, by decide, by decide, by decide⟩
          rw [hdn, h0]
          rfl
        · obtain ⟨c0, ds, hrepr, hdig, _, _, _⟩ :=
            natRepr_pos_decomp n.natAbs (by omega)
          obtain ⟨hws, hb1, hb2, _, _, _⟩ := digit_head_facts c0 hdig
          refine ⟨c0, ds, ?_, hws, hb1, hb2⟩
          rw [hdn]
          unfold intRepr
          rw [if_neg hneg, hrepr]
  | str s =>
      refine ⟨'"', jsonEscapeList s.data ++ ['"'], ?_, by decide, by decide, by decide⟩
      simpa [jsonDumpVal, jsonQuote] using hd.symm
  | pyobj t a => simp [jsonDumpVal] at hd
  | seq xs =>
      cases xs with
      | nil =>
          refine ⟨'[', [']'], ?_, by decide, by decide, by decide⟩
          simpa [jsonDumpVal] using hd.symm
      | cons x xs =>
          cases he : jsonDumpElems (x :: xs) (lvl + 1) with
          | none => simp [jsonDumpVal, he] at hd
          | some body =>
              refine ⟨'[', '\n' :: body ++ '\n' :: spacesL (2 * lvl) ++ [']'],
                ?_, by decide, by decide, by decide⟩
              simpa [jsonDumpVal, he] using hd.symm
  | map ps =>
      cases ps with
      | nil =>
          refine ⟨'{', ['}'], ?_, by decide, by decide, by decide⟩
          simpa [jsonDumpVal] using hd.symm
      | cons p ps =>
          cases he : jsonDumpMembers (p :: ps) (lvl + 1) with
          | none => simp [jsonDumpVal, he] at hd
          | some body =>
              refine ⟨'{', '\n' :: body ++ '\n' :: spacesL (2 * lvl) ++ ['}'],
                ?_, by decide, by decide, by decide⟩
              simpa [jsonDumpVal, he] using hd.symm

/-- A dumped nonempty member block is the indent followed by an opening quote. -/
theorem jsonDumpMembers_shape (ps : List (String × Value)) (lvl : Nat)
    (body : List Char) (h : jsonDumpMembers ps lvl = some body) (hne : ps ≠ []) :
    ∃ t, body = spacesL (2 * lvl) ++ '"' :: t := by
  match ps with
  | [] => exact absurd rfl hne
  | [(k, v)] =>
      cases hv : jsonDumpVal v lvl with
      | none => simp [jsonDumpMembers, hv] at h
      | some d =>
          refine ⟨jsonEscapeList k.data ++ '"' :: ':' :: ' ' :: d, ?_⟩
          have : body = spacesL (2 * lvl) ++ jsonQuote k ++ ':' :: ' ' :: d := by
            simpa [jsonDumpMembers, hv] using h.symm
          rw [this]
          simp [jsonQuote, List.append_assoc]
  | (k, v) :: m :: rest =>
      cases hv : jsonDumpVal v lvl with
      | none => simp [jsonDumpMembers, hv] at h
      | some d =>
          cases hr : jsonDumpMembers (m :: rest) lvl with
          | none => simp [jsonDumpMembers, hv, hr] at h
          | some r =>
              refine ⟨jsonEscapeList k.data ++ '"' :: ':' :: ' ' :: (d ++ ',' :: '\n' :: r), ?_⟩
              have : body = spacesL (2 * lvl) ++ jsonQuote k ++ ':' :: ' ' :: d ++ ',' :: '\n' :: r := by
                simpa [jsonDumpMembers, hv, hr] using h.symm
              rw [this]
              simp [jsonQuote, List.append_assoc]

/-- A dumped nonempty element block is the indent followed by a value head. -/
theorem jsonDumpElems_shape (xs : List Value) (lvl : Nat)
    (body : List Char) (h : jsonDumpElems xs lvl = some body) (hne : xs ≠ []) :
    ∃ c t, body = spacesL (2 * lvl) ++ c :: t ∧ jsonWsChar c = false ∧ c ≠ ']' ∧ c ≠ '}' := by
  match xs with
  | [] => exact absurd rfl hne
  | [x] =>
      cases hv : jsonDumpVal x lvl with
      | none => simp [jsonDumpElems, hv] at h
      | some d =>
          obtain ⟨c, t, rfl, hws, hb1, hb2⟩ := jsonDump_head x lvl d hv
          refine ⟨c, t, ?_, hws, hb1, hb2⟩
          simpa [jsonDumpElems, hv] using h.symm
  | x :: y :: rest =>
      cases hv : jsonDumpVal x lvl with
      | none => simp [jsonDumpElems, hv] at h
      | some d =>
          cases hr : jsonDumpElems (y :: rest) lvl with
          | none => simp [jsonDumpElems, hv, hr] at h
          | some r =>
              obtain ⟨c, t, rfl, hws, hb1, hb2⟩ := jsonDump_head x lvl d hv
              refine ⟨c, t ++ ',' :: '\n' :: r, ?_, hws, hb1, hb2⟩
              have : body = spacesL (2 * lvl) ++ (c :: t) ++ ',' :: '\n' :: r := by
                simpa [jsonDumpElems, hv, hr] using h.symm
              rw [this]
              simp [List.append_assoc]

/-- In a duplicate-free list, elements before an occurrence of `k` differ from `k`. -/
theorem distinct_append_head (A R : List String) (k : String)
    (h : distinctStrings (A ++ k :: R) = true) : ∀ a ∈ A, a ≠ k := by
  induction A with
  | nil => intro a ha; simp at ha
  | cons a A ih =>
      simp only [List.cons_append, distinctStrings, Bool.and_eq_true,
        Bool.not_eq_true', List.any_eq_false] at h
      obtain ⟨h1, h2⟩ := h
      intro x hx
      rcases List.mem_cons.mp hx with rfl | hx'
      · have := h1 k (by simp)
        simp only [decide_eq_true_eq] at this
        exact fun hxk => this hxk.symm
      · exact ih h2 x hx'

/-- Inserting a fresh key appends it. -/
theorem pyInsert_append (acc : List (String × Value)) (k : String) (v : Value)
    (h : ∀ kv ∈ acc, kv.1 ≠ k) : pyInsert acc k v = acc ++ [(k, v)] := by
  unfold pyInsert
  rw [if_neg]
  simp only [List.any_eq_true, decide_eq_true_eq, not_exists, not_and]
  exact h

/-- Transfer the key-distinctness hypothesis to a fresh-key fact. -/
theorem fresh_key_of_distinct (acc : List (String × Value)) (k : String)
    (Ks : List String)
    (h : distinctStrings (acc.map Prod.fst ++ k :: Ks) = true) :
    ∀ kv ∈ acc, kv.1 ≠ k := by
  intro kv hkv
  exact distinct_append_head _ _ _ h kv.1 (List.mem_map_of_mem Prod.fst hkv)

end DataConverter

namespace DataConverter

/-- Mutual round-trip invariant for `json.dumps(·, indent=2)` / `json.loads`,
by strong induction on parser fuel: a dumped value reparses to itself, and the
dumped element/member blocks drive the array/object loops to the original
lists. -/
theorem jsonRT (fuel : Nat) :
    (∀ (v : Value) (lvl : Nat) (d rest : List Char),
        jweight v ≤ fuel → jsonWf v = true → jsonDumpVal v lvl = some d →
        jsonStop rest → jsonParseVal fuel (d ++ rest) = .ok (v, rest)) ∧
    (∀ (xs : List Value) (acc : List Value) (lvl m : Nat) (body rest : List Char),
        jweightL xs ≤ fuel → xs ≠ [] → jsonWfL xs = true →
        jsonDumpElems xs lvl = some body →
        jsonParseElems fuel acc (skipWsJ (body ++ '\n' :: (spacesL m ++ ']' :: rest))) =
          .ok (.seq (acc ++ xs), rest)) ∧
    (∀ (ps : List (String × Value)) (acc : List (String × Value)) (lvl m : Nat)
        (body rest : List Char),
        jweightP ps ≤ fuel → ps ≠ [] → jsonWfP ps = true →
        distinctStrings (acc.map Prod.fst ++ ps.map Prod.fst) = true →
        jsonDumpMembers ps lvl = some body →
        jsonParseMembers fuel acc (skipWsJ (body ++ '\n' :: (spacesL m ++ '}' :: rest))) =
          .ok (.map (acc ++ ps), rest)) := by
  induction fuel using Nat.strong_induction_on with
  | _ fuel ih =>
  refine ⟨?_, ?_, ?_⟩
  · -- values
    intro v lvl d rest hw hwf hd hstop
    obtain ⟨g, rfl⟩ : ∃ g, fuel = g + 1 := ⟨fuel - 1, by have := jweight_pos v; omega⟩
    cases v with
    | null =>
        have hdn : d = "null".data := by simpa [jsonDumpVal] using hd.symm
        subst hdn
        rw [jpv_succ, show ("null".data ++ rest : List Char) = 'n' :: 'u' :: 'l' :: 'l' :: rest from rfl,
          skipWsJ_cons_of_not _ _ (by decide)]
        simp +decide [stripPrefixChars]
    | bool b =>
        cases b with
        | true =>
            have hdn : d = "true".data := by simpa [jsonDumpVal] using hd.symm
            subst hdn
            rw [jpv_succ, show ("true".data ++ rest : List Char) = 't' :: 'r' :: 'u' :: 'e' :: rest from rfl,
              skipWsJ_cons_of_not _ _ (by decide)]
            simp +decide [stripPrefixChars]
        | false =>
            have hdn : d = "false".data := by simpa [jsonDumpVal] using hd.symm
            subst hdn
            rw [jpv_succ, show ("false".data ++ rest : List Char) = 'f' :: 'a' :: 'l' :: 's' :: 'e' :: rest from rfl,
              skipWsJ_cons_of_not _ _ (by decide)]
            simp +decide [stripPrefixChars]
    | int n =>
        have hdn : d = intRepr n := by simpa [jsonDumpVal] using hd.symm
        subst hdn
        have hN := jsonParseNumber_intRepr n rest hstop
        by_cases hneg : n < 0
        · obtain ⟨c0, ds, hrepr, hdig, hz, hall, hval⟩ := natRepr_pos_decomp n.natAbs (by omega)
          have hform : intRepr n = '-' :: c0 :: ds := by
            unfold intRepr
            rw [if_pos hneg, hrepr]
          rw [hform] at hN ⊢
          rw [jpv_succ, show ('-' :: c0 :: ds) ++ rest = '-' :: c0 :: (ds ++ rest) from rfl,
            skipWsJ_cons_of_not _ _ (by decide)]
          have hI : (c0 = 'I') = False := by
            simp only [eq_iff_iff, iff_false]
            intro hh
            have hb := toNat_bounds_of_isDigit c0 hdig
            rw [hh] at hb
            exact absurd hb (by decide)
          simp +decide [stripPrefixChars, hI]
          simpa using hN
        · by_cases h0 : n = 0
          · subst h0
            rw [show intRepr 0 = ['0'] from rfl] at hN ⊢
            rw [jpv_succ, show (['0'] ++ rest : List Char) = '0' :: rest from rfl,
              skipWsJ_cons_of_not _ _ (by decide)]
            simp +decide [stripPrefixChars]
            simpa using hN
          · obtain ⟨c0, ds, hrepr, hdig, hz, hall, hval⟩ :=
              natRepr_pos_decomp n.natAbs (by omega)
            have hform : intRepr n = c0 :: ds := by
              unfold intRepr
              rw [if_neg hneg, hrepr]
            rw [hform] at hN ⊢
            rw [jpv_succ, List.cons_append,
              skipWsJ_cons_of_not _ _ (digit_head_facts c0 hdig).1]
            obtain ⟨e1, e2, e3, e4, e5, e6, e7, e8, e9⟩ := digit_not_special c0 hdig
            simp +decide [stripPrefixChars, e1, e2, e3, e4, e5, e6, e7, e8, e9]
            simpa using hN
    | str s =>
        have hdn : d = jsonQuote s := by simpa [jsonDumpVal] using hd.symm
        subst hdn
        have hform : jsonQuote s ++ rest = '"' :: (jsonEscapeList s.data ++ '"' :: rest) := by
          simp [jsonQuote]
        rw [jpv_succ, hform, skipWsJ_cons_of_not _ _ (by decide)]
        have hparse := jsonEscape_parse s.data
          ((jsonEscapeList s.data ++ '"' :: rest).length + 1)
          ((jsonEscapeList s.data ++ '"' :: rest).length + 1) rest
          (by simp [List.length_append]; omega)
        simp only [List.length_append, List.length_cons] at hparse
        simp +decide [hparse]
    | pyobj t a => simp [jsonDumpVal] at hd
    | seq xs =>
        cases xs with
        | nil =>
            have hdn : d = "[]".data := by simpa [jsonDumpVal] using hd.symm
            subst hdn
            rw [jpv_succ, show ("[]".data ++ rest : List Char) = '[' :: ']' :: rest from rfl,
              skipWsJ_cons_of_not _ _ (by decide)]
            have h2 : skipWsJ (']' :: rest) = ']' :: rest := skipWsJ_cons_of_not _ _ (by decide)
            simp +decide [h2]
        | cons x xs' =>
            cases he : jsonDumpElems (x :: xs') (lvl + 1) with
            | none => simp [jsonDumpVal, he] at hd
            | some body =>
                have hdn : d = '[' :: '\n' :: body ++ '\n' :: spacesL (2 * lvl) ++ [']'] := by
                  simpa [jsonDumpVal, he] using hd.symm
                subst hdn
                have hin : (('[' :: '\n' :: body ++ '\n' :: spacesL (2 * lvl) ++ [']']) ++ rest : List Char)
                    = '[' :: '\n' :: (body ++ '\n' :: (spacesL (2 * lvl) ++ ']' :: rest)) := by
                  simp
                rw [jpv_succ, hin, skipWsJ_cons_of_not _ _ (by decide)]
                obtain ⟨c, t, hbody, hws, hb1, hb2⟩ :=
                  jsonDumpElems_shape (x :: xs') (lvl + 1) body he (by simp)
                have hskip2 : skipWsJ (body ++ '\n' :: (spacesL (2 * lvl) ++ ']' :: rest))
                    = c :: (t ++ '\n' :: (spacesL (2 * lvl) ++ ']' :: rest)) := by
                  simp only [hbody, List.append_assoc, List.cons_append]
                  rw [skipWsJ_spaces, skipWsJ_cons_of_not _ _ hws]
                have hskip : skipWsJ ('\n' :: (body ++ '\n' :: (spacesL (2 * lvl) ++ ']' :: rest)))
                    = c :: (t ++ '\n' :: (spacesL (2 * lvl) ++ ']' :: rest)) := by
                  rw [skipWsJ_cons_ws _ _ (by decide), hskip2]
                have hb1' : (c = ']') = False := by
                  simp only [eq_iff_iff, iff_false]
                  exact hb1
                have hwL : jweightL (x :: xs') ≤ g := by
                  have e : jweight (Value.seq (x :: xs')) = 1 + jweightL (x :: xs') := rfl
                  rw [e] at hw
                  omega
                have hwfL : jsonWfL (x :: xs') = true := by
                  simpa [jsonWf] using hwf
                have hL2 := (ih g (by omega)).2.1 (x :: xs') [] (lvl + 1) (2 * lvl) body rest
                  hwL (by simp) hwfL he
                rw [hskip2] at hL2
                simp +decide [hskip, hb1', hL2]
    | map ps =>
        cases ps with
        | nil =>
            have hdn : d = "{}".data := by simpa [jsonDumpVal] using hd.symm
            subst hdn
            rw [jpv_succ, show ("{}".data ++ rest : List Char) = '{' :: '}' :: rest from rfl,
              skipWsJ_cons_of_not _ _ (by decide)]
            have h2 : skipWsJ ('}' :: rest) = '}' :: rest := skipWsJ_cons_of_not _ _ (by decide)
            simp +decide [h2]
        | cons p ps' =>
            cases he : jsonDumpMembers (p :: ps') (lvl + 1) with
            | none => simp [jsonDumpVal, he] at hd
            | some body =>
                have hdn : d = '{' :: '\n' :: body ++ '\n' :: spacesL (2 * lvl) ++ ['}'] := by
                  simpa [jsonDumpVal, he] using hd.symm
                subst hdn
                have hin : (('{' :: '\n' :: body ++ '\n' :: spacesL (2 * lvl) ++ ['}']) ++ rest : List Char)
                    = '{' :: '\n' :: (body ++ '\n' :: (spacesL (2 * lvl) ++ '}' :: rest)) := by
                  simp
                rw [jpv_succ, hin, skipWsJ_cons_of_not _ _ (by decide)]
                obtain ⟨bt, hbody⟩ := jsonDumpMembers_shape (p :: ps') (lvl + 1) body he (by simp)
                have hskip2 : skipWsJ (body ++ '\n' :: (spacesL (2 * lvl) ++ '}' :: rest))
                    = '"' :: (bt ++ '\n' :: (spacesL (2 * lvl) ++ '}' :: rest)) := by
                  simp only [hbody, List.append_assoc, List.cons_append]
                  rw [skipWsJ_spaces, skipWsJ_cons_of_not _ _ (by decide)]
                have hskip : skipWsJ ('\n' :: (body ++ '\n' :: (spacesL (2 * lvl) ++ '}' :: rest)))
                    = '"' :: (bt ++ '\n' :: (spacesL (2 * lvl) ++ '}' :: rest)) := by
                  rw [skipWsJ_cons_ws _ _ (by decide), hskip2]
                have hwP : jweightP (p :: ps') ≤ g := by
                  have e : jweight (Value.map (p :: ps')) = 1 + jweightP (p :: ps') := rfl
                  rw [e] at hw
                  omega
                obtain ⟨hdist, hwfP⟩ : distinctStrings ((p :: ps').map Prod.fst) = true ∧
                    jsonWfP (p :: ps') = true := by
                  simpa [jsonWf, Bool.and_eq_true] using hwf
                have hL3 := (ih g (by omega)).2.2 (p :: ps') [] (lvl + 1) (2 * lvl) body rest
                  hwP (by simp) hwfP (by simpa using hdist) he
                rw [hskip2] at hL3
                simp +decide [hskip, hL3]
  · -- array elements
    intro xs acc lvl m body rest hwL hne hwfL hdump
    obtain ⟨g, rfl⟩ : ∃ g, fuel = g + 1 := ⟨fuel - 1, by have := jweightL_pos xs; omega⟩
    cases xs with
    | nil => exact absurd rfl hne
    | cons x xs' =>
    cases xs' with
    | nil =>
        cases hv : jsonDumpVal x lvl with
        | none => simp [jsonDumpElems, hv] at hdump
        | some d =>
            have hb : body = spacesL (2 * lvl) ++ d := by
              simpa [jsonDumpElems, hv] using hdump.symm
            subst hb
            obtain ⟨c, t, rfl, hws, hcb1, hcb2⟩ := jsonDump_head x lvl d hv
            have hskip : skipWsJ ((spacesL (2 * lvl) ++ c :: t) ++ '\n' :: (spacesL m ++ ']' :: rest))
                = c :: (t ++ '\n' :: (spacesL m ++ ']' :: rest)) := by
              simp only [List.append_assoc, List.cons_append]
              rw [skipWsJ_spaces, skipWsJ_cons_of_not _ _ hws]
            rw [hskip, jpe_succ]
            have ew : jweightL [x] = 1 + jweight x + jweightL [] := rfl
            have ef : jsonWfL [x] = (jsonWf x && jsonWfL []) := rfl
            have hwx : jweight x ≤ g := by
              rw [ew] at hwL
              omega
            have hwfx : jsonWf x = true := by
              rw [ef, Bool.and_eq_true] at hwfL
              exact hwfL.1
            have hL1 := (ih g (by omega)).1 x lvl (c :: t) ('\n' :: (spacesL m ++ ']' :: rest))
              hwx hwfx hv (Or.inr ⟨'\n', _, rfl, Or.inr rfl⟩)
            simp only [List.cons_append] at hL1
            rw [hL1]
            have hs2 : skipWsJ ('\n' :: (spacesL m ++ ']' :: rest)) = ']' :: rest := by
              rw [skipWsJ_cons_ws _ _ (by decide), skipWsJ_spaces,
                skipWsJ_cons_of_not _ _ (by decide)]
            simp +decide [hs2]
    | cons y xs'' =>
        cases hv : jsonDumpVal x lvl with
        | none => simp [jsonDumpElems, hv] at hdump
        | some d =>
        cases hr : jsonDumpElems (y :: xs'') lvl with
        | none => simp [jsonDumpElems, hv, hr] at hdump
        | some r =>
            have hb : body = spacesL (2 * lvl) ++ d ++ ',' :: '\n' :: r := by
              simpa [jsonDumpElems, hv, hr] using hdump.symm
            subst hb
            obtain ⟨c, t, rfl, hws, hcb1, hcb2⟩ := jsonDump_head x lvl d hv
            have hskip : skipWsJ ((spacesL (2 * lvl) ++ (c :: t) ++ ',' :: '\n' :: r) ++ '\n' :: (spacesL m ++ ']' :: rest))
                = c :: (t ++ ',' :: '\n' :: (r ++ '\n' :: (spacesL m ++ ']' :: rest))) := by
              simp only [List.append_assoc, List.cons_append]
              rw [skipWsJ_spaces, skipWsJ_cons_of_not _ _ hws]
            rw [hskip, jpe_succ]
            have ew : jweightL (x :: y :: xs'') = 1 + jweight x + jweightL (y :: xs'') := rfl
            have ef : jsonWfL (x :: y :: xs'') = (jsonWf x && jsonWfL (y :: xs'')) := rfl
            have hwx : jweight x ≤ g := by
              rw [ew] at hwL
              have := jweightL_pos (y :: xs'')
              omega
            have hwfx : jsonWf x = true := by
              rw [ef, Bool.and_eq_true] at hwfL
              exact hwfL.1
            have hL1 := (ih g (by omega)).1 x lvl (c :: t)
              (',' :: '\n' :: (r ++ '\n' :: (spacesL m ++ ']' :: rest)))
              hwx hwfx hv (Or.inr ⟨',', _, rfl, Or.inl rfl⟩)
            simp only [List.cons_append] at hL1
            rw [hL1]
            have hwL' : jweightL (y :: xs'') ≤ g := by
              rw [ew] at hwL
              have := jweight_pos x
              omega
            have hwfL' : jsonWfL (y :: xs'') = true := by
              rw [ef, Bool.and_eq_true] at hwfL
              exact hwfL.2
            have hrec := (ih g (by omega)).2.1 (y :: xs'') (acc ++ [x]) lvl m r rest
              hwL' (by simp) hwfL' hr
            have hstep : skipWsJ (',' :: '\n' :: (r ++ '\n' :: (spacesL m ++ ']' :: rest)))
                = ',' :: '\n' :: (r ++ '\n' :: (spacesL m ++ ']' :: rest)) :=
              skipWsJ_cons_of_not _ _ (by decide)
            have hnl : skipWsJ ('\n' :: (r ++ '\n' :: (spacesL m ++ ']' :: rest)))
                = skipWsJ (r ++ '\n' :: (spacesL m ++ ']' :: rest)) :=
              skipWsJ_cons_ws _ _ (by decide)
            simp +decide [hstep, hnl, hrec]
  · -- object members
    intro ps acc lvl m body rest hwP hne hwfP hdist hdump
    obtain ⟨g, rfl⟩ : ∃ g, fuel = g + 1 := ⟨fuel - 1, by have := jweightP_pos ps; omega⟩
    cases ps with
    | nil => exact absurd rfl hne
    | cons p ps' =>
    obtain ⟨k, v⟩ := p
    cases ps' with
    | nil =>
        cases hv : jsonDumpVal v lvl with
        | none => simp [jsonDumpMembers, hv] at hdump
        | some d =>
            have hb : body = spacesL (2 * lvl) ++ jsonQuote k ++ ':' :: ' ' :: d := by
              simpa [jsonDumpMembers, hv] using hdump.symm
            subst hb
            obtain ⟨c, t, rfl, hws, hcb1, hcb2⟩ := jsonDump_head v lvl d hv
            have hskip : skipWsJ ((spacesL (2 * lvl) ++ jsonQuote k ++ ':' :: ' ' :: (c :: t)) ++ '\n' :: (spacesL m ++ '}' :: rest))
                = '"' :: (jsonEscapeList k.data ++ '"' :: ':' :: ' ' :: c :: (t ++ '\n' :: (spacesL m ++ '}' :: rest))) := by
              simp only [jsonQuote, List.append_assoc, List.cons_append, List.nil_append]
              rw [skipWsJ_spaces, skipWsJ_cons_of_not _ _ (by decide)]
            rw [hskip, jpm_succ]
            have hparse := jsonEscape_parse k.data
              ((jsonEscapeList k.data ++ '"' :: ':' :: ' ' :: c :: (t ++ '\n' :: (spacesL m ++ '}' :: rest))).length + 1)
              ((jsonEscapeList k.data ++ '"' :: ':' :: ' ' :: c :: (t ++ '\n' :: (spacesL m ++ '}' :: rest))).length + 1)
              (':' :: ' ' :: c :: (t ++ '\n' :: (spacesL m ++ '}' :: rest)))
              (by simp [List.length_append]; omega)
            simp only [List.length_append, List.length_cons] at hparse
            have ew : jweightP [(k, v)] = 1 + jweight v + jweightP [] := rfl
            have ef : jsonWfP [(k, v)] = (jsonWf v && jsonWfP []) := rfl
            obtain ⟨g', rfl⟩ : ∃ g', g = g' + 1 := by
              refine ⟨g - 1, ?_⟩
              rw [ew] at hwP
              have := jweight_pos v
              omega
            have hwv : jweight v ≤ g' + 1 := by
              rw [ew] at hwP
              omega
            have hwfv : jsonWf v = true := by
              rw [ef, Bool.and_eq_true] at hwfP
              exact hwfP.1
            have hval : jsonParseVal (g' + 1) (' ' :: c :: (t ++ '\n' :: (spacesL m ++ '}' :: rest)))
                = .ok (v, '\n' :: (spacesL m ++ '}' :: rest)) := by
              rw [jpv_skipWs, skipWsJ_cons_ws _ _ (by decide),
                skipWsJ_cons_of_not _ _ hws]
              have hL1 := (ih (g' + 1) (by omega)).1 v lvl (c :: t)
                ('\n' :: (spacesL m ++ '}' :: rest))
                hwv hwfv hv (Or.inr ⟨'\n', _, rfl, Or.inr rfl⟩)
              simpa using hL1
            have hs2 : skipWsJ ('\n' :: (spacesL m ++ '}' :: rest)) = '}' :: rest := by
              rw [skipWsJ_cons_ws _ _ (by decide), skipWsJ_spaces,
                skipWsJ_cons_of_not _ _ (by decide)]
            have hins : pyInsert acc (String.mk k.data) v = acc ++ [(k, v)] := by
              have hfresh : ∀ kv ∈ acc, kv.1 ≠ k :=
                fresh_key_of_distinct acc k [] (by simpa using hdist)
              exact pyInsert_append acc k v hfresh
            have hcol : skipWsJ (':' :: ' ' :: c :: (t ++ '\n' :: (spacesL m ++ '}' :: rest)))
                = ':' :: ' ' :: c :: (t ++ '\n' :: (spacesL m ++ '}' :: rest)) :=
              skipWsJ_cons_of_not _ _ (by decide)
            simp +decide [hparse, hcol, hval, hs2, hins]
    | cons q ps'' =>
        cases hv : jsonDumpVal v lvl with
        | none => simp [jsonDumpMembers, hv] at hdump
        | some d =>
        cases hr : jsonDumpMembers (q :: ps'') lvl with
        | none => simp [jsonDumpMembers, hv, hr] at hdump
        | some r =>
            have hb : body = spacesL (2 * lvl) ++ jsonQuote k ++ ':' :: ' ' :: d ++ ',' :: '\n' :: r := by
              simpa [jsonDumpMembers, hv, hr] using hdump.symm
            subst hb
            obtain ⟨c, t, rfl, hws, hcb1, hcb2⟩ := jsonDump_head v lvl d hv
            have hskip : skipWsJ ((spacesL (2 * lvl) ++ jsonQuote k ++ ':' :: ' ' :: (c :: t) ++ ',' :: '\n' :: r) ++ '\n' :: (spacesL m ++ '}' :: rest))
                = '"' :: (jsonEscapeList k.data ++ '"' :: ':' :: ' ' :: c :: (t ++ ',' :: '\n' :: (r ++ '\n' :: (spacesL m ++ '}' :: rest)))) := by
              simp only [jsonQuote, List.append_assoc, List.cons_append, List.nil_append]
              rw [skipWsJ_spaces, skipWsJ_cons_of_not _ _ (by decide)]
            rw [hskip, jpm_succ]
            have hparse := jsonEscape_parse k.data
              ((jsonEscapeList k.data ++ '"' :: ':' :: ' ' :: c :: (t ++ ',' :: '\n' :: (r ++ '\n' :: (spacesL m ++ '}' :: rest)))).length + 1)
              ((jsonEscapeList k.data ++ '"' :: ':' :: ' ' :: c :: (t ++ ',' :: '\n' :: (r ++ '\n' :: (spacesL m ++ '}' :: rest)))).length + 1)
              (':' :: ' ' :: c :: (t ++ ',' :: '\n' :: (r ++ '\n' :: (spacesL m ++ '}' :: rest))))
              (by simp [List.length_append]; omega)
            simp only [List.length_append, List.length_cons] at hparse
            have ew : jweightP ((k, v) :: q :: ps'') = 1 + jweight v + jweightP (q :: ps'') := rfl
            have ef : jsonWfP ((k, v) :: q :: ps'') = (jsonWf v && jsonWfP (q :: ps'')) := rfl
            obtain ⟨g', rfl⟩ : ∃ g', g = g' + 1 := by
              refine ⟨g - 1, ?_⟩
              rw [ew] at hwP
              have := jweight_pos v
              have := jweightP_pos (q :: ps'')
              omega
            have hwv : jweight v ≤ g' + 1 := by
              rw [ew] at hwP
              have := jweightP_pos (q :: ps'')
              omega
            have hwfv : jsonWf v = true := by
              rw [ef, Bool.and_eq_true] at hwfP
              exact hwfP.1
            have hval : jsonParseVal (g' + 1) (' ' :: c :: (t ++ ',' :: '\n' :: (r ++ '\n' :: (spacesL m ++ '}' :: rest))))
                = .ok (v, ',' :: '\n' :: (r ++ '\n' :: (spacesL m ++ '}' :: rest))) := by
              rw [jpv_skipWs, skipWsJ_cons_ws _ _ (by decide),
                skipWsJ_cons_of_not _ _ hws]
              have hL1 := (ih (g' + 1) (by omega)).1 v lvl (c :: t)
                (',' :: '\n' :: (r ++ '\n' :: (spacesL m ++ '}' :: rest)))
                hwv hwfv hv (Or.inr ⟨',', _, rfl, Or.inl rfl⟩)
              simpa using hL1
            have hins : pyInsert acc (String.mk k.data) v = acc ++ [(k, v)] := by
              have hfresh : ∀ kv ∈ acc, kv.1 ≠ k :=
                fresh_key_of_distinct acc k ((q :: ps'').map Prod.fst) (by simpa using hdist)
              exact pyInsert_append acc k v hfresh
            have hwP' : jweightP (q :: ps'') ≤ g' + 1 := by
              rw [ew] at hwP
              have := jweight_pos v
              omega
            have hwfP' : jsonWfP (q :: ps'') = true := by
              rw [ef, Bool.and_eq_true] at hwfP
              exact hwfP.2
            have hdist' : distinctStrings ((acc ++ [(k, v)]).map Prod.fst ++ (q :: ps'').map Prod.fst) = true := by
              simp only [List.map_append, List.map_cons, List.map_nil, List.append_assoc,
                List.singleton_append]
              simpa using hdist
            have hrec := (ih (g' + 1) (by omega)).2.2 (q :: ps'') (acc ++ [(k, v)]) lvl m r rest
              hwP' (by simp) hwfP' hdist' hr
            have hstep : skipWsJ (',' :: '\n' :: (r ++ '\n' :: (spacesL m ++ '}' :: rest)))
                = ',' :: '\n' :: (r ++ '\n' :: (spacesL m ++ '}' :: rest)) :=
              skipWsJ_cons_of_not _ _ (by decide)
            have hnl : skipWsJ ('\n' :: (r ++ '\n' :: (spacesL m ++ '}' :: rest)))
                = skipWsJ (r ++ '\n' :: (spacesL m ++ '}' :: rest)) :=
              skipWsJ_cons_ws _ _ (by decide)
            have hcol : skipWsJ (':' :: ' ' :: c :: (t ++ ',' :: '\n' :: (r ++ '\n' :: (spacesL m ++ '}' :: rest))))
                = ':' :: ' ' :: c :: (t ++ ',' :: '\n' :: (r ++ '\n' :: (spacesL m ++ '}' :: rest))) :=
              skipWsJ_cons_of_not _ _ (by decide)
            simp +decide [hparse, hcol, hval, hins, hstep, hnl, hrec]

end DataConverter

namespace DataConverter

mutual

/-- `json.dumps` succeeds on any well-formed value. -/
theorem jsonDump_total : ∀ v : Value, jsonWf v = true → ∀ lvl, ∃ d, jsonDumpVal v lvl = some d
  | .null, _, _ => ⟨_, rfl⟩
  | .bool true, _, _ => ⟨_, rfl⟩
  | .bool false, _, _ => ⟨_, rfl⟩
  | .int _, _, _ => ⟨_, rfl⟩
  | .str _, _, _ => ⟨_, rfl⟩
  | .pyobj _ _, h, _ => by simp [jsonWf] at h
  | .seq [], _, _ => ⟨_, rfl⟩
  | .seq (x :: xs), h, lvl => by
      obtain ⟨body, hb⟩ := jsonDumpElems_total (x :: xs) (by simpa [jsonWf] using h) (lvl + 1)
      exact ⟨'[' :: '\n' :: body ++ '\n' :: spacesL (2 * lvl) ++ [']'], by simp [jsonDumpVal, hb]⟩
  | .map [], _, _ => ⟨_, rfl⟩
  | .map (p :: ps), h, lvl => by
      obtain ⟨body, hb⟩ := jsonDumpMembers_total (p :: ps)
        (by
          have e : jsonWf (.map (p :: ps)) = (distinctStrings ((p :: ps).map Prod.fst) && jsonWfP (p :: ps)) := rfl
          rw [e, Bool.and_eq_true] at h
          exact h.2) (lvl + 1)
      exact ⟨'{' :: '\n' :: body ++ '\n' :: spacesL (2 * lvl) ++ ['}'], by simp [jsonDumpVal, hb]⟩

theorem jsonDumpElems_total : ∀ xs : List Value, jsonWfL xs = true →
    ∀ lvl, ∃ d, jsonDumpElems xs lvl = some d
  | [], _, _ => ⟨_, rfl⟩
  | [x], h, lvl => by
      obtain ⟨d, hd⟩ := jsonDump_total x
        (by
          have e : jsonWfL [x] = (jsonWf x && jsonWfL []) := rfl
          rw [e, Bool.and_eq_true] at h
          exact h.1) lvl
      exact ⟨spacesL (2 * lvl) ++ d, by simp [jsonDumpElems, hd]⟩
  | x :: y :: r, h, lvl => by
      have e : jsonWfL (x :: y :: r) = (jsonWf x && jsonWfL (y :: r)) := rfl
      rw [e, Bool.and_eq_true] at h
      obtain ⟨d, hd⟩ := jsonDump_total x h.1 lvl
      obtain ⟨rr, hr⟩ := jsonDumpElems_total (y :: r) h.2 lvl
      exact ⟨spacesL (2 * lvl) ++ d ++ ',' :: '\n' :: rr, by simp [jsonDumpElems, hd, hr]⟩

theorem jsonDumpMembers_total : ∀ ps : List (String × Value), jsonWfP ps = true →
    ∀ lvl, ∃ d, jsonDumpMembers ps lvl = some d
  | [], _, _ => ⟨_, rfl⟩
  | [(k, v)], h, lvl => by
      obtain ⟨d, hd⟩ := jsonDump_total v
        (by
          have e : jsonWfP [(k, v)] = (jsonWf v && jsonWfP []) := rfl
          rw [e, Bool.and_eq_true] at h
          exact h.1) lvl
      exact ⟨spacesL (2 * lvl) ++ jsonQuote k ++ ':' :: ' ' :: d, by simp [jsonDumpMembers, hd]⟩
  | (k, v) :: q :: r, h, lvl => by
      have e : jsonWfP ((k, v) :: q :: r) = (jsonWf v && jsonWfP (q :: r)) := rfl
      rw [e, Bool.and_eq_true] at h
      obtain ⟨d, hd⟩ := jsonDump_total v h.1 lvl
      obtain ⟨rr, hr⟩ := jsonDumpMembers_total (q :: r) h.2 lvl
      exact ⟨spacesL (2 * lvl) ++ jsonQuote k ++ ':' :: ' ' :: d ++ ',' :: '\n' :: rr, by simp [jsonDumpMembers, hd, hr]⟩

end

theorem intRepr_length_pos (n : Int) : 1 ≤ (intRepr n).length := by
  by_cases hneg : n < 0
  · unfold intRepr
    rw [if_pos hneg]
    simp
  · by_cases h0 : n = 0
    · subst h0
      decide
    · obtain ⟨c, ds, hrepr, _, _, _, _⟩ := natRepr_pos_decomp n.natAbs (by omega)
      unfold intRepr
      rw [if_neg hneg, hrepr]
      simp

mutual

/-- The parser fuel needed for a value is covered by the length of its dump. -/
theorem jweight_le_dump : ∀ (v : Value) (lvl : Nat) (d : List Char),
    jsonDumpVal v lvl = some d → jweight v ≤ d.length
  | .null, lvl, d, hd => by
      have : d = "null".data := by simpa [jsonDumpVal] using hd.symm
      subst this
      decide
  | .bool true, lvl, d, hd => by
      have : d = "true".data := by simpa [jsonDumpVal] using hd.symm
      subst this
      decide
  | .bool false, lvl, d, hd => by
      have : d = "false".data := by simpa [jsonDumpVal] using hd.symm
      subst this
      decide
  | .int n, lvl, d, hd => by
      have : d = intRepr n := by simpa [jsonDumpVal] using hd.symm
      subst this
      have := intRepr_length_pos n
      have e : jweight (Value.int n) = 1 := rfl
      omega
  | .str s, lvl, d, hd => by
      have : d = jsonQuote s := by simpa [jsonDumpVal] using hd.symm
      subst this
      have e : jweight (Value.str s) = 1 := rfl
      simp [jsonQuote, e]
  | .pyobj _ _, _, _, hd => by simp [jsonDumpVal] at hd
  | .seq [], lvl, d, hd => by
      have : d = "[]".data := by simpa [jsonDumpVal] using hd.symm
      subst this
      decide
  | .seq (x :: xs), lvl, d, hd => by
      cases he : jsonDumpElems (x :: xs) (lvl + 1) with
      | none => simp [jsonDumpVal, he] at hd
      | some body =>
          have hdn : d = '[' :: '\n' :: body ++ '\n' :: spacesL (2 * lvl) ++ [']'] := by
            simpa [jsonDumpVal, he] using hd.symm
          subst hdn
          have hb := jweightL_le_dump (x :: xs) (lvl + 1) body he (by simp)
          have e : jweight (Value.seq (x :: xs)) = 1 + jweightL (x :: xs) := rfl
          rw [e]
          simp only [List.length_cons, List.length_append, List.length_nil]
          omega
  | .map [], lvl, d, hd => by
      have : d = "{}".data := by simpa [jsonDumpVal] using hd.symm
      subst this
      decide
  | .map (p :: ps), lvl, d, hd => by
      cases he : jsonDumpMembers (p :: ps) (lvl + 1) with
      | none => simp [jsonDumpVal, he] at hd
      | some body =>
          have hdn : d = '{' :: '\n' :: body ++ '\n' :: spacesL (2 * lvl) ++ ['}'] := by
            simpa [jsonDumpVal, he] using hd.symm
          subst hdn
          have hb := jweightP_le_dump (p :: ps) (lvl + 1) body he (by simp)
          have e : jweight (Value.map (p :: ps)) = 1 + jweightP (p :: ps) := rfl
          rw [e]
          simp only [List.length_cons, List.length_append, List.length_nil]
          omega

theorem jweightL_le_dump : ∀ (xs : List Value) (lvl : Nat) (body : List Char),
    jsonDumpElems xs lvl = some body → xs ≠ [] → jweightL xs ≤ body.length + 2
  | [], _, _, _, hne => absurd rfl hne
  | [x], lvl, body, hb, _ => by
      cases hv : jsonDumpVal x lvl with
      | none => simp [jsonDumpElems, hv] at hb
      | some d =>
          have hbn : body = spacesL (2 * lvl) ++ d := by
            simpa [jsonDumpElems, hv] using hb.symm
          subst hbn
          have hw := jweight_le_dump x lvl d hv
          have e : jweightL [x] = 1 + jweight x + 1 := rfl
          rw [e]
          simp only [List.length_append]
          omega
  | x :: y :: r, lvl, body, hb, _ => by
      cases hv : jsonDumpVal x lvl with
      | none => simp [jsonDumpElems, hv] at hb
      | some d =>
      cases hr : jsonDumpElems (y :: r) lvl with
      | none => simp [jsonDumpElems, hv, hr] at hb
      | some rr =>
          have hbn : body = spacesL (2 * lvl) ++ d ++ ',' :: '\n' :: rr := by
            simpa [jsonDumpElems, hv, hr] using hb.symm
          subst hbn
          have hw := jweight_le_dump x lvl d hv
          have hrw := jweightL_le_dump (y :: r) lvl rr hr (by simp)
          have e : jweightL (x :: y :: r) = 1 + jweight x + jweightL (y :: r) := rfl
          rw [e]
          simp only [List.length_append, List.length_cons]
          omega

theorem jweightP_le_dump : ∀ (ps : List (String × Value)) (lvl : Nat) (body : List Char),
    jsonDumpMembers ps lvl = some body → ps ≠ [] → jweightP ps ≤ body.length + 2
  | [], _, _, _, hne => absurd rfl hne
  | [(k, v)], lvl, body, hb, _ => by
      cases hv : jsonDumpVal v lvl with
      | none => simp [jsonDumpMembers, hv] at hb
      | some d =>
          have hbn : body = spacesL (2 * lvl) ++ jsonQuote k ++ ':' :: ' ' :: d := by
            simpa [jsonDumpMembers, hv] using hb.symm
          subst hbn
          have hw := jweight_le_dump v lvl d hv
          have e : jweightP [(k, v)] = 1 + jweight v + 1 := rfl
          rw [e]
          simp only [List.length_append, List.length_cons]
          omega
  | (k, v) :: q :: r, lvl, body, hb, _ => by
      cases hv : jsonDumpVal v lvl with
      | none => simp [jsonDumpMembers, hv] at hb
      | some d =>
      cases hr : jsonDumpMembers (q :: r) lvl with
      | none => simp [jsonDumpMembers, hv, hr] at hb
      | some rr =>
          have hbn : body = spacesL (2 * lvl) ++ jsonQuote k ++ ':' :: ' ' :: d ++ ',' :: '\n' :: rr := by
            simpa [jsonDumpMembers, hv, hr] using hb.symm
          subst hbn
          have hw := jweight_le_dump v lvl d hv
          have hrw := jweightP_le_dump (q :: r) lvl rr hr (by simp)
          have e : jweightP ((k, v) :: q :: r) = 1 + jweight v + jweightP (q :: r) := rfl
          rw [e]
          simp only [List.length_append, List.length_cons]
          omega

end

/-- JSON round trip at the `json_dumps`/`json_loads` level: any well-formed
value dumps successfully, and reloading the dump returns it unchanged. -/
theorem json_dumps_loads (v : Value) (h : jsonWf v = true) :
    ∃ out, json_dumps v = some out ∧ json_loads out = .ok v := by
  obtain ⟨d, hd⟩ := jsonDump_total v h 0
  refine ⟨String.mk d, by simp [json_dumps, hd], ?_⟩
  have hlen : jweight v ≤ d.length + 1 := by
    have := jweight_le_dump v 0 d hd
    omega
  have hrt := (jsonRT (d.length + 1)).1 v 0 d [] hlen h hd (Or.inl rfl)
  simp only [List.append_nil] at hrt
  unfold json_loads
  rw [show (String.mk d).data = d from rfl, hrt]
  rfl

end DataConverter

namespace DataConverter

theorem jsonNumberTail_ok_int (neg : Bool) (n : Nat) (rest : List Char) (errPos : Nat)
    (v : Value) (out : List Char)
    (h : jsonNumberTail neg n rest errPos = .ok (v, out)) : ∃ m : Int, v = .int m := by
  unfold jsonNumberTail at h
  revert h
  repeat' split
  all_goals intro h
  all_goals try exact Except.noConfusion h
  all_goals injection h with h1
  all_goals injection h1 with h3 h4
  all_goals exact ⟨_, h3.symm⟩

theorem jsonParseNumber_ok_int (cs : List Char) (v : Value) (out : List Char)
    (h : jsonParseNumber cs = .ok (v, out)) : ∃ m : Int, v = .int m := by
  unfold jsonParseNumber at h
  revert h
  repeat' split
  all_goals intro h
  all_goals first
    | exact Except.noConfusion h
    | exact jsonNumberTail_ok_int _ _ _ _ _ _ h

theorem jsonWfP_append (a b : List (String × Value)) :
    jsonWfP (a ++ b) = (jsonWfP a && jsonWfP b) := by
  induction a with
  | nil => simp [jsonWfP]
  | cons kv r ih =>
      obtain ⟨k', v'⟩ := kv
      simp [jsonWfP, ih, Bool.and_assoc]

theorem jsonWfL_append (a b : List Value) :
    jsonWfL (a ++ b) = (jsonWfL a && jsonWfL b) := by
  induction a with
  | nil => simp [jsonWfL]
  | cons x r ih => simp [jsonWfL, ih, Bool.and_assoc]

theorem distinct_append_singleton (A : List String) (k : String)
    (hA : distinctStrings A = true) (hk : A.any (fun t => t = k) = false) :
    distinctStrings (A ++ [k]) = true := by
  induction A with
  | nil => simp [distinctStrings]
  | cons a A ih =>
      simp only [distinctStrings, Bool.and_eq_true, Bool.not_eq_true',
        List.any_eq_false] at hA
      simp only [List.any_cons, Bool.or_eq_false_iff, List.any_eq_false] at hk
      simp only [List.cons_append, distinctStrings, Bool.and_eq_true, Bool.not_eq_true',
        List.any_eq_false]
      refine ⟨?_, ih hA.2 (by simp only [List.any_eq_false]; exact fun x hx => hk.2 x hx)⟩
      intro x hx
      rcases List.mem_append.mp hx with hx' | hx'
      · exact hA.1 x hx'
      · have : x = k := by simpa using hx'
        subst this
        simp only [decide_eq_true_eq]
        intro hak
        have := hk.1
        simp [hak] at this

theorem map_fst_replace (ps : List (String × Value)) (k : String) (v : Value) :
    (ps.map (fun kv => if kv.1 = k then (k, v) else kv)).map Prod.fst = ps.map Prod.fst := by
  induction ps with
  | nil => simp
  | cons kv r ih =>
      obtain ⟨k', v'⟩ := kv
      by_cases hk : k' = k
      · subst hk
        simp [ih]
      · simp [hk, ih]

theorem pyInsert_distinct (ps : List (String × Value)) (k : String) (v : Value)
    (h : distinctStrings (ps.map Prod.fst) = true) :
    distinctStrings ((pyInsert ps k v).map Prod.fst) = true := by
  unfold pyInsert
  by_cases he : ps.any (fun kv => kv.1 = k) = true
  · rw [if_pos he, map_fst_replace]
    exact h
  · rw [if_neg he]
    simp only [List.map_append, List.map_cons, List.map_nil]
    refine distinct_append_singleton _ _ h ?_
    simp only [Bool.not_eq_true] at he
    have hgen : ∀ l : List (String × Value), (l.any fun kv => kv.1 = k) = false →
        ((l.map Prod.fst).any fun t => t = k) = false := by
      intro l
      induction l with
      | nil => simp
      | cons kv r ih =>
          intro hl
          simp only [List.any_cons, Bool.or_eq_false_iff] at hl
          simp only [List.map_cons, List.any_cons, Bool.or_eq_false_iff]
          exact ⟨by simpa using hl.1, ih hl.2⟩
    exact hgen ps he

theorem wfP_replace (ps : List (String × Value)) (k : String) (v : Value)
    (h : jsonWfP ps = true) (hv : jsonWf v = true) :
    jsonWfP (ps.map (fun kv => if kv.1 = k then (k, v) else kv)) = true := by
  induction ps with
  | nil => simp [jsonWfP]
  | cons kv r ih =>
      obtain ⟨k', v'⟩ := kv
      have e : jsonWfP ((k', v') :: r) = (jsonWf v' && jsonWfP r) := rfl
      rw [e, Bool.and_eq_true] at h
      by_cases hk : k' = k
      · subst hk
        simp only [List.map_cons, if_true]
        have e2 : jsonWfP ((k', v) :: r.map (fun kv => if kv.1 = k' then (k', v) else kv))
            = (jsonWf v && jsonWfP (r.map (fun kv => if kv.1 = k' then (k', v) else kv))) := rfl
        rw [e2, Bool.and_eq_true]
        exact ⟨hv, ih h.2⟩
      · simp only [List.map_cons, if_neg hk]
        have e2 : jsonWfP ((k', v') :: r.map (fun kv => if kv.1 = k then (k, v) else kv))
            = (jsonWf v' && jsonWfP (r.map (fun kv => if kv.1 = k then (k, v) else kv))) := rfl
        rw [e2, Bool.and_eq_true]
        exact ⟨h.1, ih h.2⟩

theorem pyInsert_wfP (ps : List (String × Value)) (k : String) (v : Value)
    (h : jsonWfP ps = true) (hv : jsonWf v = true) :
    jsonWfP (pyInsert ps k v) = true := by
  unfold pyInsert
  by_cases he : ps.any (fun kv => kv.1 = k) = true
  · rw [if_pos he]
    exact wfP_replace ps k v h hv
  · rw [if_neg he, jsonWfP_append]
    have e : jsonWfP [(k, v)] = (jsonWf v && jsonWfP []) := rfl
    simp [h, e, hv, jsonWfP]

end DataConverter

namespace DataConverter

/-- Values produced by the JSON parser are well-formed: no native objects, and
mapping keys are kept unique by the `dict` insertion semantics. -/
theorem jsonParse_wf (fuel : Nat) :
    (∀ cs v rest, jsonParseVal fuel cs = .ok (v, rest) → jsonWf v = true) ∧
    (∀ acc cs v rest, distinctStrings (acc.map Prod.fst) = true → jsonWfP acc = true →
        jsonParseMembers fuel acc cs = .ok (v, rest) → jsonWf v = true) ∧
    (∀ acc cs v rest, jsonWfL acc = true →
        jsonParseElems fuel acc cs = .ok (v, rest) → jsonWf v = true) := by
  induction fuel using Nat.strong_induction_on with
  | _ fuel ih =>
  refine ⟨?_, ?_, ?_⟩
  · intro cs v rest h
    cases fuel with
    | zero => exact Except.noConfusion h
    | succ g =>
        rw [jpv_succ] at h
        revert h
        repeat' split
        all_goals intro h
        all_goals first
          | exact Except.noConfusion h
          | exact (ih g (by omega)).2.1 [] _ v rest rfl rfl h
          | exact (ih g (by omega)).2.2 [] _ v rest rfl h
          | (obtain ⟨m, hm⟩ := jsonParseNumber_ok_int _ _ _ h
             rw [hm]
             rfl)
          | (injection h with h1
             injection h1 with h3 h4
             rw [← h3])
        all_goals rfl
  · intro acc cs v rest hdist hwfP h
    cases fuel with
    | zero => exact Except.noConfusion h
    | succ g =>
        rw [jpm_succ] at h
        cases cs with
        | nil => exact Except.noConfusion h
        | cons c t =>
            by_cases hc : c = '"'
            case neg =>
                simp only [if_neg hc] at h
                exact Except.noConfusion h
            simp only [if_pos hc] at h
            cases hsb : jsonParseStringBody (t.length + 1) (t.length + 1) t with
            | error e =>
                simp only [hsb] at h
                exact Except.noConfusion h
            | ok kr =>
                obtain ⟨key, r1⟩ := kr
                simp only [hsb] at h
                cases hsw : skipWsJ r1 with
                | nil =>
                    simp only [hsw] at h
                    exact Except.noConfusion h
                | cons c2 r3 =>
                    simp only [hsw] at h
                    by_cases hc2 : c2 = ':'
                    case neg =>
                        simp only [if_neg hc2] at h
                        exact Except.noConfusion h
                    simp only [if_pos hc2] at h
                    cases hpv : jsonParseVal g r3 with
                    | error e =>
                        simp only [hpv] at h
                        exact Except.noConfusion h
                    | ok vr =>
                        obtain ⟨v', r4⟩ := vr
                        simp only [hpv] at h
                        have hwv' : jsonWf v' = true := (ih g (by omega)).1 r3 v' r4 hpv
                        cases hsw2 : skipWsJ r4 with
                        | nil =>
                            simp only [hsw2] at h
                            exact Except.noConfusion h
                        | cons c3 r6 =>
                            simp only [hsw2] at h
                            by_cases hc3 : c3 = ','
                            · simp only [if_pos hc3] at h
                              exact (ih g (by omega)).2.1 (pyInsert acc (String.mk key) v') _ v rest
                                (pyInsert_distinct _ _ _ hdist) (pyInsert_wfP _ _ _ hwfP hwv') h
                            · simp only [if_neg hc3] at h
                              by_cases hc3b : c3 = '}'
                              · simp only [if_pos hc3b] at h
                                injection h with h1
                                injection h1 with h3 h4
                                rw [← h3]
                                have e : jsonWf (Value.map (pyInsert acc (String.mk key) v'))
                                    = (distinctStrings ((pyInsert acc (String.mk key) v').map Prod.fst)
                                       && jsonWfP (pyInsert acc (String.mk key) v')) := rfl
                                rw [e, Bool.and_eq_true]
                                exact ⟨pyInsert_distinct _ _ _ hdist, pyInsert_wfP _ _ _ hwfP hwv'⟩
                              · simp only [if_neg hc3b] at h
                                exact Except.noConfusion h
  · intro acc cs v rest hwfL h
    cases fuel with
    | zero => exact Except.noConfusion h
    | succ g =>
        rw [jpe_succ] at h
        cases hpv : jsonParseVal g cs with
        | error e =>
            simp only [hpv] at h
            exact Except.noConfusion h
        | ok vr =>
            obtain ⟨v', r1⟩ := vr
            simp only [hpv] at h
            have hwv' : jsonWf v' = true := (ih g (by omega)).1 cs v' r1 hpv
            have hacc : jsonWfL (acc ++ [v']) = true := by
              rw [jsonWfL_append, Bool.and_eq_true]
              refine ⟨hwfL, ?_⟩
              have e : jsonWfL [v'] = (jsonWf v' && jsonWfL []) := rfl
              rw [e, hwv']
              rfl
            cases hsw : skipWsJ r1 with
            | nil =>
                simp only [hsw] at h
                exact Except.noConfusion h
            | cons c2 r3 =>
                simp only [hsw] at h
                by_cases hc2 : c2 = ','
                · simp only [if_pos hc2] at h
                  exact (ih g (by omega)).2.2 (acc ++ [v']) _ v rest hacc h
                · simp only [if_neg hc2] at h
                  by_cases hc2b : c2 = ']'
                  · simp only [if_pos hc2b] at h
                    injection h with h1
                    injection h1 with h3 h4
                    rw [← h3]
                    have e : jsonWf (Value.seq (acc ++ [v'])) = jsonWfL (acc ++ [v']) := rfl
                    rw [e]
                    exact hacc
                  · simp only [if_neg hc2b] at h
                    exact Except.noConfusion h

/-- `json.loads` only returns well-formed values. -/
theorem json_loads_wf (s : String) (v : Value) (h : json_loads s = .ok v) :
    jsonWf v = true := by
  unfold json_loads at h
  cases hpv : jsonParseVal (s.data.length + 1) s.data with
  | error e =>
      rw [hpv] at h
      exact Except.noConfusion h
  | ok vr =>
      obtain ⟨v', rest⟩ := vr
      rw [hpv] at h
      have hw := (jsonParse_wf (s.data.length + 1)).1 s.data v' rest hpv
      cases hsw : skipWsJ rest with
      | nil =>
          simp only [hsw] at h
          injection h with h1
          rw [← h1]
          exact hw
      | cons c r =>
          simp only [hsw] at h
          exact Except.noConfusion h

end DataConverter

namespace DataConverter

/-! ## `yaml.dump` (PyYAML `SafeDumper` via `yaml.dump`, default block style,
`sort_keys=True`).

The model covers the scalar styles our development can certify byte-for-byte
against PyYAML's emitter and resolver:

* plain style for `None`/`True`/`False`/`int` and for identifier-like strings
  (first character a letter or `_`, then letters, digits, `_`, `-`, `.`,
  excluding the YAML 1.1 reserved words PyYAML would resolve to bool/null);
* single-quoted style for printable space-free strings that PyYAML provably
  cannot emit plain (empty, leading `'` or `!`, trailing `:`, or a reserved
  word).

Strings outside this domain (e.g. containing spaces a long line could fold at
width 80, or characters such as `:`/`#` whose plain-style rules depend on
context) make the model emitter return `none`; theorems about the YAML path
carry the corresponding `yamlOk` hypothesis.  Space-free scalars are never
folded by PyYAML (plain and single-quoted text only break at spaces), so line
width never affects the modelled domain. -/

/-- ASCII letter. -/
def isAlphaA (c : Char) : Bool :=
  (65 ≤ c.toNat && c.toNat ≤ 90) || (97 ≤ c.toNat && c.toNat ≤ 122)

/-- Digit, as a `Bool`. -/
def isDigitB (c : Char) : Bool := 48 ≤ c.toNat && c.toNat ≤ 57

/-- Words PyYAML's `SafeLoader` resolver maps to bool or null (YAML 1.1),
which therefore cannot be emitted as plain strings. -/
def yamlReserved : List String :=
  ["null", "Null", "NULL", "~",
   "true", "True", "TRUE", "false", "False", "FALSE",
   "yes", "Yes", "YES", "no", "No", "NO",
   "on", "On", "ON", "off", "Off", "OFF"]

/-- Characters allowed after the first in a modelled plain scalar. -/
def plainCharOk (c : Char) : Bool :=
  isAlphaA c || isDigitB c || c = '_' || c = '-' || c = '.'

/-- Modelled plain-style strings: identifier-like, never resolver-ambiguous. -/
def plainOk (s : String) : Bool :=
  match s.data with
  | [] => false
  | c :: r => (isAlphaA c || c = '_') && r.all plainCharOk &&
      !(yamlReserved.any (fun w => w = s))

/-- Printable ASCII, space excluded. -/
def printableNoSpace (c : Char) : Bool := 33 ≤ c.toNat && c.toNat ≤ 126

/-- Modelled single-quoted strings: printable and space-free, in a position
where PyYAML provably rejects plain style. -/
def singleOk (s : String) : Bool :=
  s.data.all printableNoSpace &&
  (match s.data with
   | [] => true
   | c :: r =>
       c = '\'' || c = '!' ||
       (match r.getLast? with
        | some l => l = ':'
        | none => c = ':') ||
       yamlReserved.any (fun w => w = s))

/-- `'` doubles inside a single-quoted scalar. -/
def sqEscape : List Char → List Char
  | [] => []
  | c :: r => if c = '\'' then '\'' :: '\'' :: sqEscape r else c :: sqEscape r

/-- The emitted characters of a modelled string scalar. -/
def yamlStrRepr (s : String) : Option (List Char) :=
  if plainOk s then some s.data
  else if singleOk s then some ('\'' :: sqEscape s.data ++ ['\''])
  else none

/-- The emitted characters of a scalar-rendered value (`null`, bools, ints,
modelled strings, and the flow forms `[]` / `{}` of empty containers). -/
def yamlScalarRepr : Value → Option (List Char)
  | .null => some "null".data
  | .bool true => some "true".data
  | .bool false => some "false".data
  | .int n => some (intRepr n)
  | .str s => yamlStrRepr s
  | .seq [] => some "[]".data
  | .map [] => some "{}".data
  | _ => none

mutual

/-- One `key: value` mapping entry at indent `ind`: the entry's first line
without its indent, plus the remaining full lines.  Nested mappings indent by
2; a block sequence under a key stays at the key's indent (PyYAML's default
`block_seq_indent = 0`). -/
def yamlEntryBlock : String → Value → Nat → Option (List Char × List (List Char))
  | k, .seq (x :: xs), ind =>
      match yamlStrRepr k, yamlSeqBlock (x :: xs) ind with
      | some kS, some (f, r) => some (kS ++ [':'], (spacesL ind ++ f) :: r)
      | _, _ => none
  | k, .map (p :: ps), ind =>
      match yamlStrRepr k, yamlMapBlock (p :: ps) (ind + 2) with
      | some kS, some (f, r) => some (kS ++ [':'], (spacesL (ind + 2) ++ f) :: r)
      | _, _ => none
  | k, v, _ =>
      match yamlStrRepr k, yamlScalarRepr v with
      | some kS, some vS => some (kS ++ ':' :: ' ' :: vS, [])
      | _, _ => none

/-- One `- item` sequence entry; nested blocks are emitted compactly on the
dash line. -/
def yamlItemBlock : Value → Nat → Option (List Char × List (List Char))
  | .seq (x :: xs), ind =>
      match yamlSeqBlock (x :: xs) (ind + 2) with
      | some (f, r) => some ('-' :: ' ' :: f, r)
      | none => none
  | .map (p :: ps), ind =>
      match yamlMapBlock (p :: ps) (ind + 2) with
      | some (f, r) => some ('-' :: ' ' :: f, r)
      | none => none
  | v, _ =>
      match yamlScalarRepr v with
      | some vS => some ('-' :: ' ' :: vS, [])
      | none => none

/-- A nonempty block mapping: first line without indent, rest full lines. -/
def yamlMapBlock : List (String × Value) → Nat → Option (List Char × List (List Char))
  | [], _ => none
  | [(k, v)], ind => yamlEntryBlock k v ind
  | (k, v) :: q :: r, ind =>
      match yamlEntryBlock k v ind, yamlMapBlock (q :: r) ind with
      | some (f1, r1), some (f2, r2) => some (f1, r1 ++ (spacesL ind ++ f2) :: r2)
      | _, _ => none

/-- A nonempty block sequence: first line without indent, rest full lines. -/
def yamlSeqBlock : List Value → Nat → Option (List Char × List (List Char))
  | [], _ => none
  | [x], ind => yamlItemBlock x ind
  | x :: y :: r, ind =>
      match yamlItemBlock x ind, yamlSeqBlock (y :: r) ind with
      | some (f1, r1), some (f2, r2) => some (f1, r1 ++ (spacesL ind ++ f2) :: r2)
      | _, _ => none

end

/-- Whether a root scalar is emitted plain (PyYAML then terminates the
document with `...`). -/
def yamlRootPlain : Value → Bool
  | .null => true
  | .bool _ => true
  | .int _ => true
  | .str s => plainOk s
  | _ => false

/-- The document's lines. -/
def yamlDocLines : Value → Option (List (List Char))
  | .seq (x :: xs) =>
      match yamlSeqBlock (x :: xs) 0 with
      | some (f, r) => some (f :: r)
      | none => none
  | .map (p :: ps) =>
      match yamlMapBlock (p :: ps) 0 with
      | some (f, r) => some (f :: r)
      | none => none
  | v =>
      match yamlScalarRepr v with
      | some vS => some (if yamlRootPlain v then [vS, "...".data] else [vS])
      | none => none

/-- Keys sorted ascending, as `sorted(mapping.items())` orders distinct keys. -/
def sortPairs (ps : List (String × Value)) : List (String × Value) :=
  ps.insertionSort (fun a b => a.1 ≤ b.1)

mutual

/-- The recursive key-sorting `yaml.dump` (with its default `sort_keys=True`)
applies to every mapping it represents. -/
def sortMapsRec : Value → Value
  | .null => .null
  | .bool b => .bool b
  | .int n => .int n
  | .str s => .str s
  | .pyobj t a => .pyobj t (sortMapsRec a)
  | .seq xs => .seq (sortMapsL xs)
  | .map ps => .map (sortPairs (sortMapsP ps))

def sortMapsL : List Value → List Value
  | [] => []
  | x :: r => sortMapsRec x :: sortMapsL r

def sortMapsP : List (String × Value) → List (String × Value)
  | [] => []
  | (k, v) :: r => (k, sortMapsRec v) :: sortMapsP r

end

/-- Materialise document lines: every line is terminated by a newline. -/
def linesText : List (List Char) → List Char
  | [] => []
  | l :: r => l ++ '\n' :: linesText r

/-- `yaml.dump(v)`: sorts mapping keys recursively, then emits the block-style
document.  `none` models the cases outside the certified emitter domain. -/
def yaml_dump (v : Value) : Option String :=
  (yamlDocLines (sortMapsRec v)).map (fun ls => String.mk (linesText ls))

end DataConverter

namespace DataConverter

/-! ## `yaml.safe_load` / `yaml.load(…, Loader=yaml.Loader)`

Line-based model of PyYAML's block-style parsing and `SafeConstructor`
resolution, covering block mappings and sequences (including the compact
nested forms the emitter produces), plain and single-quoted scalars, document
markers, and the `!!python/…` tags that distinguish the safe loader (raises
`ConstructorError`, a `YAMLError`) from the trusting `yaml.Loader`.

Mapping construction mirrors `dict.__setitem__` (`pyInsert`): duplicate keys
keep the first position and take the last value.  Errors carry the number of
unconsumed lines, from which the loader builds the problem-mark positions it
reports (PyYAML marks, line and column). -/

/-- Leading spaces of a line. -/
def countIndent : List Char → Nat
  | c :: r => if c = ' ' then countIndent r + 1 else 0
  | [] => 0

/-- The line after its indent. -/
def stripIndent : List Char → List Char
  | c :: r => if c = ' ' then stripIndent r else c :: r
  | [] => []

/-- A line holding only spaces. -/
def isBlankL (l : List Char) : Bool := l.all (fun c => c = ' ')

/-- Scan a single-quoted scalar body: `''` undoubles, a lone `'` closes.
Returns the content and the input past the closing quote. -/
def sqScan : Nat → List Char → Option (List Char × List Char)
  | 0, _ => none
  | _ + 1, [] => none
  | f + 1, c :: r =>
      if c = '\'' then
        match r with
        | c2 :: r2 =>
            if c2 = '\'' then
              match sqScan f r2 with
              | some (content, rest) => some ('\'' :: content, rest)
              | none => none
            else some ([], r)
        | [] => some ([], [])
      else
        match sqScan f r with
        | some (content, rest) => some (c :: content, rest)
        | none => none

/-- YAML 1.1 words `SafeConstructor` resolves to `None`. -/
def yamlNullWords : List String := ["null", "Null", "NULL", "~"]

/-- Words resolved to `True`. -/
def yamlTrueWords : List String :=
  ["true", "True", "TRUE", "yes", "Yes", "YES", "on", "On", "ON"]

/-- Words resolved to `False`. -/
def yamlFalseWords : List String :=
  ["false", "False", "FALSE", "no", "No", "NO", "off", "Off", "OFF"]

/-- Resolve one scalar token as `SafeConstructor` does on the modelled
domain: reserved words, flow-empty containers, single-quoted strings,
decimal integers, and plain strings. -/
def parseScalarToken (cs : List Char) : Option Value :=
  if yamlNullWords.any (fun w => w.data = cs) then some .null
  else if yamlTrueWords.any (fun w => w.data = cs) then some (.bool true)
  else if yamlFalseWords.any (fun w => w.data = cs) then some (.bool false)
  else if cs = "[]".data then some (.seq [])
  else if cs = "{}".data then some (.map [])
  else
    match cs with
    | [] => some .null
    | c :: r =>
        if c = '\'' then
          match sqScan (r.length + 1) r with
          | some (content, []) => some (.str (String.mk content))
          | _ => none
        else if c = '-' then
          if r ≠ [] ∧ r.all isDigit = true then
            some (.int (-(digitsToNat 0 r : Nat)))
          else some (.str (String.mk cs))
        else if isDigit c = true ∧ r.all isDigit = true then
          some (.int (digitsToNat (c.toNat - 48) r))
        else some (.str (String.mk cs))

/-- Scan a plain mapping key: the characters before the first `:`. -/
def splitKeyTok : List Char → Option (List Char × List Char)
  | [] => none
  | c :: r =>
      if c = ':' then some ([], r)
      else
        match splitKeyTok r with
        | some (kc, after) => some (c :: kc, after)
        | none => none

/-- Extract `key:` from a mapping-entry line (plain or single-quoted key);
returns the key and what follows the colon. -/
def keySplit (c : List Char) : Option (String × List Char) :=
  match c with
  | [] => none
  | ch :: r =>
      if ch = '\'' then
        match sqScan (r.length + 1) r with
        | some (kc, rest2) =>
            match rest2 with
            | c2 :: after => if c2 = ':' then some (String.mk kc, after) else none
            | [] => none
        | none => none
      else
        match splitKeyTok (ch :: r) with
        | some (kc, after) => some (String.mk kc, after)
        | none => none

/-- Is this (stripped) line content a sequence-entry dash? -/
def isDashC : List Char → Bool
  | c :: r =>
      if c = '-' then
        match r with
        | c2 :: _ => c2 = ' '
        | [] => true
      else false
  | [] => false

/-- Failure classes of the modelled loader. -/
inductive YamlErrKind where
  | constructorUnsupportedTag
  | badIndent
  | badScalar
  | expectedKey
  | unexpectedContent
  | outOfFuel
deriving Repr, DecidableEq

mutual

/-- Parse one block node whose first line sits at indent `ind`. -/
def yamlParseNode : Nat → List (List Char) → Nat →
    Except (YamlErrKind × Nat) (Value × List (List Char))
  | 0, lines, _ => .error (.outOfFuel, lines.length)
  | _ + 1, [], _ => .error (.unexpectedContent, 0)
  | fuel + 1, l :: rest, ind =>
      let c := stripIndent l
      if countIndent l ≠ ind then .error (.badIndent, rest.length + 1)
      else if c = [] then .error (.unexpectedContent, rest.length + 1)
      else if isDashC c = true then yamlSeqLoop fuel [] (l :: rest) ind
      else
        match keySplit c with
        | some (_, after) =>
            (match after with
             | [] => yamlMapLoop fuel [] (l :: rest) ind
             | a :: _ =>
                 if a = ' ' then yamlMapLoop fuel [] (l :: rest) ind
                 else
                   match parseScalarToken c with
                   | some v => .ok (v, rest)
                   | none => .error (.badScalar, rest.length + 1))
        | none =>
            match parseScalarToken c with
            | some v => .ok (v, rest)
            | none => .error (.badScalar, rest.length + 1)

/-- Block-sequence loop: consumes `- …` entries at indent `ind`. -/
def yamlSeqLoop : Nat → List Value → List (List Char) → Nat →
    Except (YamlErrKind × Nat) (Value × List (List Char))
  | 0, _, lines, _ => .error (.outOfFuel, lines.length)
  | _ + 1, acc, [], _ => .ok (.seq acc, [])
  | fuel + 1, acc, l :: rest, ind =>
      let c := stripIndent l
      if isBlankL l = true then .ok (.seq acc, l :: rest)
      else if countIndent l = ind then
        (if isDashC c = true then
          (match c with
           | _ :: t =>
               (match t with
                | _ :: itemc =>
                    (match yamlParseNode fuel ((spacesL (ind + 2) ++ itemc) :: rest) (ind + 2) with
                     | .ok (v, rest2) => yamlSeqLoop fuel (acc ++ [v]) rest2 ind
                     | .error e => .error e)
                | [] => .error (.unexpectedContent, rest.length + 1))
           | [] => .error (.unexpectedContent, rest.length + 1))
        else .ok (.seq acc, l :: rest))
      else if countIndent l < ind then .ok (.seq acc, l :: rest)
      else .error (.badIndent, rest.length + 1)

/-- Block-mapping loop: consumes `key: …` entries at indent `ind`, inserting
with `dict` semantics. -/
def yamlMapLoop : Nat → List (String × Value) → List (List Char) → Nat →
    Except (YamlErrKind × Nat) (Value × List (List Char))
  | 0, _, lines, _ => .error (.outOfFuel, lines.length)
  | _ + 1, acc, [], _ => .ok (.map acc, [])
  | fuel + 1, acc, l :: rest, ind =>
      let c := stripIndent l
      if isBlankL l = true then .ok (.map acc, l :: rest)
      else if countIndent l = ind then
        (match keySplit c with
         | none => .error (.expectedKey, rest.length + 1)
         | some (k, after) =>
             match after with
             | a :: vtok =>
                 if a = ' ' then
                   (match parseScalarToken vtok with
                    | some v => yamlMapLoop fuel (pyInsert acc k v) rest ind
                    | none => .error (.badScalar, rest.length + 1))
                 else .error (.badScalar, rest.length + 1)
             | [] =>
                 match rest with
                 | [] => yamlMapLoop fuel (pyInsert acc k .null) rest ind
                 | l2 :: _ =>
                     if isBlankL l2 = true then yamlMapLoop fuel (pyInsert acc k .null) rest ind
                     else if countIndent l2 = ind then
                       (if isDashC (stripIndent l2) = true then
                         (match yamlSeqLoop fuel [] rest ind with
                          | .ok (v, rest2) => yamlMapLoop fuel (pyInsert acc k v) rest2 ind
                          | .error e => .error e)
                       else yamlMapLoop fuel (pyInsert acc k .null) rest ind)
                     else if ind < countIndent l2 then
                       (match yamlParseNode fuel rest (countIndent l2) with
                        | .ok (v, rest2) => yamlMapLoop fuel (pyInsert acc k v) rest2 ind
                        | .error e => .error e)
                     else yamlMapLoop fuel (pyInsert acc k .null) rest ind)
      else if countIndent l < ind then .ok (.map acc, l :: rest)
      else .error (.badIndent, rest.length + 1)

end

/-- Trailing lines a document may end with: blanks and `...` markers. -/
def yamlTrailOk (lines : List (List Char)) : Bool :=
  lines.all (fun l => isBlankL l || stripIndent l = "...".data)

/-- A parse-problem mark: PyYAML reports errors with a problem message and a
mark holding the line and column. -/
structure YamlError where
  kind : YamlErrKind
  line : Nat
  column : Nat
deriving Repr, DecidableEq

/-- Does the line open with a `!!python/…` tag? -/
def hasPythonTag (c : List Char) : Bool :=
  match stripPrefixChars "!!python/".data c with
  | some _ => true
  | none => false

/-- The modelled loader; `trusted := false` is `yaml.safe_load`,
`trusted := true` is `yaml.load(…, Loader=yaml.Loader)`. -/
def yaml_load_model (trusted : Bool) (s : String) : Except YamlError Value :=
  let lines := splitOnChar '\n' s.data
  let total := lines.length
  let mkErr : YamlErrKind × Nat → YamlError := fun e =>
    ⟨e.1, total - e.2 + 1, 1⟩
  match lines.dropWhile isBlankL with
  | [] => .ok .null
  | l :: rest =>
      let c := stripIndent l
      if c = "...".data then
        (if yamlTrailOk rest then .ok .null
         else .error (mkErr (.unexpectedContent, rest.length)))
      else if hasPythonTag c = true then
        (if trusted then
          (match rest.dropWhile isBlankL with
           | [] => .ok (.pyobj (String.mk c) .null)
           | l2 :: rest2 =>
               match yamlParseNode (s.data.length + total + 1) (l2 :: rest2) (countIndent l2) with
               | .ok (v, rest3) =>
                   if yamlTrailOk rest3 then .ok (.pyobj (String.mk c) v)
                   else .error (mkErr (.unexpectedContent, rest3.length))
               | .error e => .error (mkErr e))
        else .error (mkErr (.constructorUnsupportedTag, rest.length + 1)))
      else
        match yamlParseNode (s.data.length + total + 1) (l :: rest) (countIndent l) with
        | .ok (v, rest3) =>
            if yamlTrailOk rest3 then .ok v
            else .error (mkErr (.unexpectedContent, rest3.length))
        | .error e => .error (mkErr e)

/-- `yaml.safe_load`. -/
def yaml_safe_load (s : String) : Except YamlError Value := yaml_load_model false s

/-- `yaml.load(…, Loader=yaml.Loader)`: trusts native-object tags. -/
def yaml_unsafe_load (s : String) : Except YamlError Value := yaml_load_model true s

end DataConverter

namespace DataConverter

theorem string_data_inj (a b : String) (h : a.data = b.data) : a = b := by
  cases a
  cases b
  simp only at h
  rw [h]

theorem countIndent_spaces (n : Nat) (c : Char) (t : List Char) (hc : c ≠ ' ') :
    countIndent (spacesL n ++ c :: t) = n := by
  induction n with
  | zero =>
      simp only [spacesL, List.replicate, List.nil_append, countIndent, if_neg hc]
  | succ k ih =>
      rw [show spacesL (k + 1) = ' ' :: spacesL k from by simp [spacesL, List.replicate_succ]]
      rw [List.cons_append]
      show (if (' ' : Char) = ' ' then countIndent (spacesL k ++ c :: t) + 1 else 0) = k + 1
      rw [if_pos rfl, ih]

theorem stripIndent_spaces (n : Nat) (c : Char) (t : List Char) (hc : c ≠ ' ') :
    stripIndent (spacesL n ++ c :: t) = c :: t := by
  induction n with
  | zero =>
      simp only [spacesL, List.replicate, List.nil_append, stripIndent, if_neg hc]
  | succ k ih =>
      rw [show spacesL (k + 1) = ' ' :: spacesL k from by simp [spacesL, List.replicate_succ]]
      rw [List.cons_append]
      show (if (' ' : Char) = ' ' then stripIndent (spacesL k ++ c :: t) else ' ' :: (spacesL k ++ c :: t)) = c :: t
      rw [if_pos rfl, ih]

theorem isBlankL_spaces (n : Nat) (c : Char) (t : List Char) (hc : c ≠ ' ') :
    isBlankL (spacesL n ++ c :: t) = false := by
  simp only [isBlankL, List.all_append, List.all_cons, Bool.and_eq_false_iff]
  refine Or.inr (Or.inl ?_)
  simpa using hc

/-- One-step unfolding of `yamlParseNode`. -/
theorem ypn_succ (fuel : Nat) (l : List Char) (rest : List (List Char)) (ind : Nat) :
    yamlParseNode (fuel + 1) (l :: rest) ind =
      (if countIndent l ≠ ind then .error (.badIndent, rest.length + 1)
      else if stripIndent l = [] then .error (.unexpectedContent, rest.length + 1)
      else if isDashC (stripIndent l) = true then yamlSeqLoop fuel [] (l :: rest) ind
      else
        match keySplit (stripIndent l) with
        | some (_, after) =>
            (match after with
             | [] => yamlMapLoop fuel [] (l :: rest) ind
             | a :: _ =>
                 if a = ' ' then yamlMapLoop fuel [] (l :: rest) ind
                 else
                   match parseScalarToken (stripIndent l) with
                   | some v => .ok (v, rest)
                   | none => .error (.badScalar, rest.length + 1))
        | none =>
            match parseScalarToken (stripIndent l) with
            | some v => .ok (v, rest)
            | none => .error (.badScalar, rest.length + 1)) := rfl

/-- One-step unfolding of `yamlSeqLoop`. -/
theorem ysl_succ (fuel : Nat) (acc : List Value) (l : List Char)
    (rest : List (List Char)) (ind : Nat) :
    yamlSeqLoop (fuel + 1) acc (l :: rest) ind =
      (if isBlankL l = true then .ok (.seq acc, l :: rest)
      else if countIndent l = ind then
        (if isDashC (stripIndent l) = true then
          (match stripIndent l with
           | _ :: t =>
               (match t with
                | _ :: itemc =>
                    (match yamlParseNode fuel ((spacesL (ind + 2) ++ itemc) :: rest) (ind + 2) with
                     | .ok (v, rest2) => yamlSeqLoop fuel (acc ++ [v]) rest2 ind
                     | .error e => .error e)
                | [] => .error (.unexpectedContent, rest.length + 1))
           | [] => .error (.unexpectedContent, rest.length + 1))
        else .ok (.seq acc, l :: rest))
      else if countIndent l < ind then .ok (.seq acc, l :: rest)
      else .error (.badIndent, rest.length + 1)) := rfl

/-- One-step unfolding of `yamlMapLoop`. -/
theorem yml_succ (fuel : Nat) (acc : List (String × Value)) (l : List Char)
    (rest : List (List Char)) (ind : Nat) :
    yamlMapLoop (fuel + 1) acc (l :: rest) ind =
      (if isBlankL l = true then .ok (.map acc, l :: rest)
      else if countIndent l = ind then
        (match keySplit (stripIndent l) with
         | none => .error (.expectedKey, rest.length + 1)
         | some (k, after) =>
             match after with
             | a :: vtok =>
                 if a = ' ' then
                   (match parseScalarToken vtok with
                    | some v => yamlMapLoop fuel (pyInsert acc k v) rest ind
                    | none => .error (.badScalar, rest.length + 1))
                 else .error (.badScalar, rest.length + 1)
             | [] =>
                 match rest with
                 | [] => yamlMapLoop fuel (pyInsert acc k .null) rest ind
                 | l2 :: _ =>
                     if isBlankL l2 = true then yamlMapLoop fuel (pyInsert acc k .null) rest ind
                     else if countIndent l2 = ind then
                       (if isDashC (stripIndent l2) = true then
                         (match yamlSeqLoop fuel [] rest ind with
                          | .ok (v, rest2) => yamlMapLoop fuel (pyInsert acc k v) rest2 ind
                          | .error e => .error e)
                       else yamlMapLoop fuel (pyInsert acc k .null) rest ind)
                     else if ind < countIndent l2 then
                       (match yamlParseNode fuel rest (countIndent l2) with
                        | .ok (v, rest2) => yamlMapLoop fuel (pyInsert acc k v) rest2 ind
                        | .error e => .error e)
                     else yamlMapLoop fuel (pyInsert acc k .null) rest ind)
      else if countIndent l < ind then .ok (.map acc, l :: rest)
      else .error (.badIndent, rest.length + 1)) := rfl

theorem splitKeyTok_none (kc : List Char) (h : ∀ c ∈ kc, c ≠ ':') :
    splitKeyTok kc = none := by
  induction kc with
  | nil => rfl
  | cons c r ih =>
      have hc := h c (List.mem_cons_self _ _)
      simp only [splitKeyTok, if_neg hc, List.append_eq,
        ih (fun x hx => h x (List.mem_cons.2 (Or.inr hx)))]

theorem splitKeyTok_append (kc after : List Char) (h : ∀ c ∈ kc, c ≠ ':') :
    splitKeyTok (kc ++ ':' :: after) = some (kc, after) := by
  induction kc with
  | nil => simp [splitKeyTok]
  | cons c r ih =>
      have hc := h c (List.mem_cons_self _ _)
      simp only [List.cons_append, splitKeyTok, if_neg hc, List.append_eq,
        ih (fun x hx => h x (List.mem_cons.2 (Or.inr hx)))]

/-- Scanning the escaped body of an emitted single-quoted scalar. -/
theorem sqScan_escape (l : List Char) : ∀ (fuel : Nat) (rest : List Char),
    (sqEscape l).length < fuel →
    (rest = [] ∨ ∃ c t, rest = c :: t ∧ c ≠ '\'') →
    sqScan fuel (sqEscape l ++ '\'' :: rest) = some (l, rest) := by
  induction l with
  | nil =>
      intro fuel rest hf hr
      obtain ⟨f, rfl⟩ : ∃ f, fuel = f + 1 := ⟨fuel - 1, by omega⟩
      rcases hr with rfl | ⟨c, t, rfl, hc⟩
      · rfl
      · show sqScan (f + 1) ('\'' :: c :: t) = some ([], c :: t)
        unfold sqScan
        rw [if_pos rfl]
        simp only [if_neg hc]
  | cons c l ih =>
      intro fuel rest hf hr
      by_cases hq : c = '\''
      · subst hq
        rw [show sqEscape ('\'' :: l) = '\'' :: '\'' :: sqEscape l from rfl] at hf ⊢
        obtain ⟨f, rfl⟩ : ∃ f, fuel = f + 1 := ⟨fuel - 1, by simp at hf; omega⟩
        show sqScan (f + 1) ('\'' :: '\'' :: (sqEscape l ++ '\'' :: rest)) = _
        unfold sqScan
        rw [if_pos rfl]
        simp only [if_pos rfl]
        rw [ih f rest (by simp at hf ⊢; omega) hr]
        simp
      · rw [show sqEscape (c :: l) = c :: sqEscape l from by simp [sqEscape, hq]] at hf ⊢
        obtain ⟨f, rfl⟩ : ∃ f, fuel = f + 1 := ⟨fuel - 1, by simp at hf; omega⟩
        show sqScan (f + 1) (c :: (sqEscape l ++ '\'' :: rest)) = _
        unfold sqScan
        rw [if_neg hq, ih f rest (by simp at hf ⊢; omega) hr]

end DataConverter

namespace DataConverter

theorem char_ne_of_toNat (c d : Char) (h : c.toNat ≠ d.toNat) : c ≠ d := by
  intro hc
  exact h (by rw [hc])

/-- Character facts for the first character of a modelled plain scalar. -/
theorem alphaU_facts (c : Char) (h : (isAlphaA c || c = '_') = true) :
    c ≠ ' ' ∧ c ≠ '-' ∧ c ≠ ':' ∧ c ≠ '.' ∧ c ≠ '!' ∧ c ≠ '\'' ∧ c ≠ '[' ∧
    c ≠ '{' ∧ c ≠ '~' ∧ c ≠ '\n' ∧ isDigit c = false := by
  have hn : (65 ≤ c.toNat ∧ c.toNat ≤ 90) ∨ (97 ≤ c.toNat ∧ c.toNat ≤ 122) ∨ c.toNat = 95 := by
    simp only [isAlphaA, Bool.or_eq_true, Bool.and_eq_true, decide_eq_true_eq] at h
    rcases h with (⟨h1, h2⟩ | ⟨h1, h2⟩) | rfl
    · exact Or.inl ⟨h1, h2⟩
    · exact Or.inr (Or.inl ⟨h1, h2⟩)
    · exact Or.inr (Or.inr (by decide))
  refine ⟨char_ne_of_toNat _ _ (by show c.toNat ≠ 32; omega),
    char_ne_of_toNat _ _ (by show c.toNat ≠ 45; omega),
    char_ne_of_toNat _ _ (by show c.toNat ≠ 58; omega),
    char_ne_of_toNat _ _ (by show c.toNat ≠ 46; omega),
    char_ne_of_toNat _ _ (by show c.toNat ≠ 33; omega),
    char_ne_of_toNat _ _ (by show c.toNat ≠ 39; omega),
    char_ne_of_toNat _ _ (by show c.toNat ≠ 91; omega),
    char_ne_of_toNat _ _ (by show c.toNat ≠ 123; omega),
    char_ne_of_toNat _ _ (by show c.toNat ≠ 126; omega),
    char_ne_of_toNat _ _ (by show c.toNat ≠ 10; omega), ?_⟩
  cases hdig : isDigit c with
  | false => rfl
  | true =>
      exfalso
      have := toNat_bounds_of_isDigit c hdig
      omega

/-- Character facts for non-head characters of a modelled plain scalar. -/
theorem plainCharOk_facts (c : Char) (h : plainCharOk c = true) :
    c ≠ ':' ∧ c ≠ ' ' ∧ c ≠ '\'' ∧ c ≠ '\n' := by
  have hn : (65 ≤ c.toNat ∧ c.toNat ≤ 90) ∨ (97 ≤ c.toNat ∧ c.toNat ≤ 122) ∨
      (48 ≤ c.toNat ∧ c.toNat ≤ 57) ∨ c.toNat = 95 ∨ c.toNat = 45 ∨ c.toNat = 46 := by
    simp only [plainCharOk, isAlphaA, isDigitB, Bool.or_eq_true, Bool.and_eq_true,
      decide_eq_true_eq] at h
    rcases h with ((((⟨h1, h2⟩ | ⟨h1, h2⟩) | ⟨h1, h2⟩) | rfl) | rfl) | rfl
    · exact Or.inl ⟨h1, h2⟩
    · exact Or.inr (Or.inl ⟨h1, h2⟩)
    · exact Or.inr (Or.inr (Or.inl ⟨h1, h2⟩))
    · exact Or.inr (Or.inr (Or.inr (Or.inl (by decide))))
    · exact Or.inr (Or.inr (Or.inr (Or.inr (Or.inl (by decide)))))
    · exact Or.inr (Or.inr (Or.inr (Or.inr (Or.inr (by decide)))))
  exact ⟨char_ne_of_toNat _ _ (by show c.toNat ≠ 58; omega),
    char_ne_of_toNat _ _ (by show c.toNat ≠ 32; omega),
    char_ne_of_toNat _ _ (by show c.toNat ≠ 39; omega),
    char_ne_of_toNat _ _ (by show c.toNat ≠ 10; omega)⟩

theorem printableNoSpace_facts (c : Char) (h : printableNoSpace c = true) :
    c ≠ ' ' ∧ c ≠ '\n' := by
  simp only [printableNoSpace, Bool.and_eq_true, decide_eq_true_eq] at h
  exact ⟨char_ne_of_toNat _ _ (by show c.toNat ≠ 32; omega),
    char_ne_of_toNat _ _ (by show c.toNat ≠ 10; omega)⟩

/-- Decomposition of a modelled plain scalar. -/
theorem plainOk_decomp (s : String) (h : plainOk s = true) :
    ∃ c t, s.data = c :: t ∧ (isAlphaA c || c = '_') = true ∧
      t.all plainCharOk = true ∧ yamlReserved.any (fun w => w = s) = false := by
  unfold plainOk at h
  cases hd : s.data with
  | nil => rw [hd] at h; exact absurd h (by simp)
  | cons c t =>
      rw [hd] at h
      simp only [Bool.and_eq_true, Bool.not_eq_true'] at h
      exact ⟨c, t, rfl, h.1.1, h.1.2, h.2⟩

/-- Decomposition of a modelled single-quoted scalar's conditions. -/
theorem singleOk_all (s : String) (h : singleOk s = true) :
    s.data.all printableNoSpace = true := by
  unfold singleOk at h
  simp only [Bool.and_eq_true] at h
  exact h.1

theorem yamlStrRepr_cases (s : String) (kS : List Char) (h : yamlStrRepr s = some kS) :
    (plainOk s = true ∧ kS = s.data) ∨
    (singleOk s = true ∧ kS = '\'' :: sqEscape s.data ++ ['\'']) := by
  unfold yamlStrRepr at h
  by_cases hp : plainOk s = true
  · rw [if_pos hp] at h
    exact Or.inl ⟨hp, (Option.some.inj h).symm⟩
  · rw [if_neg hp] at h
    by_cases hs : singleOk s = true
    · rw [if_pos hs] at h
      exact Or.inr ⟨hs, (Option.some.inj h).symm⟩
    · rw [if_neg hs] at h
      exact absurd h (by simp)

/-- The head of an emitted string scalar, with the character-class facts the
parser dispatch needs. -/
theorem yamlStrRepr_head (s : String) (kS : List Char) (h : yamlStrRepr s = some kS) :
    ∃ c t, kS = c :: t ∧ c ≠ ' ' ∧ c ≠ '-' ∧ c ≠ '.' ∧ c ≠ '!' := by
  rcases yamlStrRepr_cases s kS h with ⟨hp, rfl⟩ | ⟨hs, rfl⟩
  · obtain ⟨c, t, hd, hfa, _, _⟩ := plainOk_decomp s hp
    obtain ⟨f1, f2, _, f4, f5, _⟩ := alphaU_facts c hfa
    exact ⟨c, t, hd, f1, f2, f4, f5⟩
  · exact ⟨'\'', sqEscape s.data ++ ['\''], rfl, by decide, by decide, by decide, by decide⟩

end DataConverter

namespace DataConverter

/-- A plain scalar contains no colon, quote, space or newline. -/
theorem plainOk_chars (s : String) (h : plainOk s = true) :
    ∀ c ∈ s.data, c ≠ ':' ∧ c ≠ '\'' ∧ c ≠ ' ' ∧ c ≠ '\n' := by
  obtain ⟨c0, t, hd, hfa, hall, _⟩ := plainOk_decomp s h
  intro x hx
  rw [hd] at hx
  rcases List.mem_cons.mp hx with rfl | hx'
  · obtain ⟨f1, f2, f3, _, _, f6, _, _, _, f10, _⟩ := alphaU_facts x hfa
    exact ⟨f3, f6, f1, f10⟩
  · have := plainCharOk_facts x (by
      rw [List.all_eq_true] at hall
      simpa using hall x hx')
    exact ⟨this.1, this.2.2.1, this.2.1, this.2.2.2⟩

/-- Reserved-word tests on a plain scalar all come out false. -/
theorem plain_not_reserved (s : String) (h : plainOk s = true)
    (L : List String) (hsub : ∀ w ∈ L, w ∈ yamlReserved) :
    L.any (fun w => w.data = s.data) = false := by
  obtain ⟨_, _, _, _, _, hres⟩ := plainOk_decomp s h
  rw [List.any_eq_false] at hres ⊢
  intro w hw
  simp only [decide_eq_true_eq]
  intro hdata
  have hws : w = s := string_data_inj w s hdata
  have := hres w (hsub w hw)
  simp [hws] at this

theorem mem_null_reserved : ∀ w ∈ yamlNullWords, w ∈ yamlReserved := by decide
theorem mem_true_reserved : ∀ w ∈ yamlTrueWords, w ∈ yamlReserved := by decide
theorem mem_false_reserved : ∀ w ∈ yamlFalseWords, w ∈ yamlReserved := by decide

/-- Reparsing an emitted string scalar token. -/
theorem parseScalarToken_str (s : String) (vS : List Char)
    (h : yamlStrRepr s = some vS) : parseScalarToken vS = some (.str s) := by
  rcases yamlStrRepr_cases s vS h with ⟨hp, rfl⟩ | ⟨hs, rfl⟩
  · obtain ⟨c0, t, hd, hfa, hall, _⟩ := plainOk_decomp s hp
    obtain ⟨f1, f2, f3, f4, f5, f6, f7, f8, f9, f10, f11⟩ := alphaU_facts c0 hfa
    unfold parseScalarToken
    rw [plain_not_reserved s hp _ mem_null_reserved,
      plain_not_reserved s hp _ mem_true_reserved,
      plain_not_reserved s hp _ mem_false_reserved]
    rw [if_neg (by simp), if_neg (by simp), if_neg (by simp)]
    rw [hd]
    have hcond : ¬(isDigit c0 = true ∧ t.all isDigit = true) := by
      intro hcon
      rw [f11] at hcon
      exact absurd hcon.1 (by simp)
    simp only [if_neg f6, if_neg f2, if_neg hcond]
    rw [← hd, if_neg ?c1, if_neg ?c2]
    case c1 =>
      rw [hd]
      simp [f7]
    case c2 =>
      rw [hd]
      simp [f8]
  · have hall := singleOk_all s hs
    unfold parseScalarToken
    rw [if_neg ?h1, if_neg ?h2, if_neg ?h3, if_neg ?h4, if_neg ?h5]
    case h1 => simp [yamlNullWords]
    case h2 => simp [yamlTrueWords]
    case h3 => simp [yamlFalseWords]
    case h4 => simp
    case h5 => simp
    have hscan := sqScan_escape s.data ((sqEscape s.data ++ ['\'']).length + 1) []
      (by simp only [List.length_append, List.length_cons, List.length_nil]; omega) (Or.inl rfl)
    rw [show (sqEscape s.data ++ '\'' :: [] : List Char) = sqEscape s.data ++ ['\''] from rfl] at hscan
    simp only [List.cons_append, hscan]
    rw [if_pos trivial]

end DataConverter

namespace DataConverter

/-- Reparsing an emitted integer token. -/
theorem parseScalarToken_int (n : Int) : parseScalarToken (intRepr n) = some (.int n) := by
  by_cases hneg : n < 0
  · obtain ⟨c0, ds, hrepr, hdig, hz, hall, hval⟩ := natRepr_pos_decomp n.natAbs (by omega)
    have hform : intRepr n = '-' :: c0 :: ds := by
      unfold intRepr
      rw [if_pos hneg, hrepr]
    rw [hform]
    unfold parseScalarToken
    rw [if_neg (by simp +decide [yamlNullWords]),
      if_neg (by simp +decide [yamlTrueWords]),
      if_neg (by simp +decide [yamlFalseWords]),
      if_neg (by simp +decide), if_neg (by simp +decide)]
    have hcds : (c0 :: ds).all isDigit = true := by
      simp only [List.all_cons, Bool.and_eq_true]
      exact ⟨hdig, by rw [List.all_eq_true]; exact fun x hx => hall x hx⟩
    simp only [if_neg (show ('-' : Char) ≠ '\'' from by decide),
      if_pos (show ('-' : Char) = '-' from rfl),
      if_pos (show (c0 :: ds ≠ [] ∧ (c0 :: ds).all isDigit = true) from ⟨by simp, hcds⟩)]
    have hdv : digitsToNat 0 (c0 :: ds) = n.natAbs := by
      rw [digitsToNat_cons]
      simpa using hval
    rw [hdv]
    have : (-(n.natAbs : Nat) : Int) = n := by omega
    rw [this, if_pos trivial]
  · by_cases h0 : n = 0
    · subst h0
      decide
    · obtain ⟨c0, ds, hrepr, hdig, hz, hall, hval⟩ := natRepr_pos_decomp n.natAbs (by omega)
      have hform : intRepr n = c0 :: ds := by
        unfold intRepr
        rw [if_neg hneg, hrepr]
      rw [hform]
      obtain ⟨hb1, hb2⟩ := toNat_bounds_of_isDigit c0 hdig
      have hne : ∀ d : Char, c0.toNat ≠ d.toNat → c0 ≠ d := fun d hd hc => hd (by rw [hc])
      unfold parseScalarToken
      rw [if_neg ?r1, if_neg ?r2, if_neg ?r3, if_neg ?r4, if_neg ?r5]
      case r1 =>
        simp only [yamlNullWords, List.any_cons, List.any_nil, Bool.or_eq_true,
          Bool.or_false, decide_eq_true_eq]
        rintro (hh | hh | hh | hh) <;>
          (injection hh with h1 h2
           rw [← h1] at hb1 hb2
           revert hb1 hb2
           decide)
      case r2 =>
        simp only [yamlTrueWords, List.any_cons, List.any_nil, Bool.or_eq_true,
          Bool.or_false, decide_eq_true_eq]
        rintro (hh | hh | hh | hh | hh | hh | hh | hh | hh) <;>
          (injection hh with h1 h2
           rw [← h1] at hb1 hb2
           revert hb1 hb2
           decide)
      case r3 =>
        simp only [yamlFalseWords, List.any_cons, List.any_nil, Bool.or_eq_true,
          Bool.or_false, decide_eq_true_eq]
        rintro (hh | hh | hh | hh | hh | hh | hh | hh | hh) <;>
          (injection hh with h1 h2
           rw [← h1] at hb1 hb2
           revert hb1 hb2
           decide)
      case r4 =>
        intro hh
        injection hh with h1 h2
        rw [h1] at hb1 hb2
        revert hb1 hb2
        decide
      case r5 =>
        intro hh
        injection hh with h1 h2
        rw [h1] at hb1 hb2
        revert hb1 hb2
        decide
      have hq : c0 ≠ '\'' := hne _ (by show c0.toNat ≠ 39; omega)
      have hm : c0 ≠ '-' := hne _ (by show c0.toNat ≠ 45; omega)
      have hallds : ds.all isDigit = true := by
        rw [List.all_eq_true]
        exact fun x hx => hall x hx
      simp only [if_neg hq, if_neg hm, if_pos (show isDigit c0 = true ∧ ds.all isDigit = true from ⟨hdig, hallds⟩)]
      rw [hval]
      have : ((n.natAbs : Nat) : Int) = n := by omega
      rw [this]

/-- Reparsing any emitted scalar token. -/
theorem parseScalarToken_repr (v : Value) (vS : List Char)
    (h : yamlScalarRepr v = some vS) : parseScalarToken vS = some v := by
  cases v with
  | null =>
      have : vS = "null".data := by simpa [yamlScalarRepr] using h.symm
      subst this
      decide
  | bool b =>
      cases b with
      | true =>
          have : vS = "true".data := by simpa [yamlScalarRepr] using h.symm
          subst this
          decide
      | false =>
          have : vS = "false".data := by simpa [yamlScalarRepr] using h.symm
          subst this
          decide
  | int n =>
      have : vS = intRepr n := by simpa [yamlScalarRepr] using h.symm
      subst this
      exact parseScalarToken_int n
  | str s =>
      have : yamlStrRepr s = some vS := by simpa [yamlScalarRepr] using h
      exact parseScalarToken_str s vS this
  | pyobj t a => simp [yamlScalarRepr] at h
  | seq xs =>
      cases xs with
      | nil =>
          have : vS = "[]".data := by simpa [yamlScalarRepr] using h.symm
          subst this
          decide
      | cons x r => simp [yamlScalarRepr] at h
  | map ps =>
      cases ps with
      | nil =>
          have : vS = "{}".data := by simpa [yamlScalarRepr] using h.symm
          subst this
          decide
      | cons p r => simp [yamlScalarRepr] at h

end DataConverter

namespace DataConverter

/-- Splitting an emitted `key:` prefix off a mapping-entry line. -/
theorem keySplit_repr (k : String) (kS : List Char) (after : List Char)
    (h : yamlStrRepr k = some kS) :
    keySplit (kS ++ ':' :: after) = some (k, after) := by
  rcases yamlStrRepr_cases k kS h with ⟨hp, rfl⟩ | ⟨hs, rfl⟩
  · obtain ⟨c0, t, hd, hfa, hall, _⟩ := plainOk_decomp k hp
    have hchars := plainOk_chars k hp
    rw [hd]
    unfold keySplit
    have hq : c0 ≠ '\'' := by
      have := hchars c0 (by rw [hd]; exact List.mem_cons_self _ _)
      exact this.2.1
    rw [List.cons_append]
    simp only [if_neg hq]
    rw [show (c0 :: (t ++ ':' :: after) : List Char) = (c0 :: t) ++ ':' :: after from rfl]
    rw [splitKeyTok_append (c0 :: t) after ?hc]
    case hc =>
      intro x hx
      exact (hchars x (by rw [hd]; exact hx)).1
    rw [← hd]
  · have hscan := sqScan_escape k.data
      ((sqEscape k.data ++ '\'' :: ':' :: after).length + 1) (':' :: after)
      (by simp only [List.length_append, List.length_cons, List.length_nil]; omega)
      (Or.inr ⟨':', after, rfl, by decide⟩)
    simp only [List.length_append, List.length_cons] at hscan
    rw [show (('\'' :: sqEscape k.data ++ ['\'']) ++ ':' :: after : List Char)
        = '\'' :: (sqEscape k.data ++ '\'' :: ':' :: after) from by simp]
    simp [keySplit, hscan]

/-- An emitted scalar token contains no key split. -/
theorem keySplit_scalarRepr (v : Value) (vS : List Char)
    (h : yamlScalarRepr v = some vS) : keySplit vS = none := by
  have hnocolon : (∃ c0 t, vS = c0 :: t ∧ c0 ≠ '\'' ∧ ∀ x ∈ vS, x ≠ ':') ∨
      (∃ s, v = .str s ∧ singleOk s = true ∧ vS = '\'' :: sqEscape s.data ++ ['\'']) := by
    cases v with
    | null =>
        refine Or.inl ⟨'n', _, by simpa [yamlScalarRepr] using h.symm, by decide, ?_⟩
        have : vS = "null".data := by simpa [yamlScalarRepr] using h.symm
        subst this
        decide
    | bool b =>
        cases b with
        | true =>
            refine Or.inl ⟨'t', _, by simpa [yamlScalarRepr] using h.symm, by decide, ?_⟩
            have : vS = "true".data := by simpa [yamlScalarRepr] using h.symm
            subst this
            decide
        | false =>
            refine Or.inl ⟨'f', _, by simpa [yamlScalarRepr] using h.symm, by decide, ?_⟩
            have : vS = "false".data := by simpa [yamlScalarRepr] using h.symm
            subst this
            decide
    | int n =>
        have hv : vS = intRepr n := by simpa [yamlScalarRepr] using h.symm
        subst hv
        by_cases hneg : n < 0
        · obtain ⟨c0, ds, hrepr, hdig, _, hall, _⟩ := natRepr_pos_decomp n.natAbs (by omega)
          have hform : intRepr n = '-' :: c0 :: ds := by
            unfold intRepr
            rw [if_pos hneg, hrepr]
          refine Or.inl ⟨'-', c0 :: ds, hform, by decide, ?_⟩
          intro x hx
          rw [hform] at hx
          rcases List.mem_cons.mp hx with rfl | hx'
          · decide
          · rcases List.mem_cons.mp hx' with rfl | hx'' 
            · have := toNat_bounds_of_isDigit x hdig
              exact char_ne_of_toNat _ _ (by show x.toNat ≠ 58; omega)
            · have hd := hall x hx''
              have := toNat_bounds_of_isDigit x hd
              exact char_ne_of_toNat _ _ (by show x.toNat ≠ 58; omega)
        · by_cases h0 : n = 0
          · subst h0
            exact Or.inl ⟨'0', [], rfl, by decide, by decide⟩
          · obtain ⟨c0, ds, hrepr, hdig, _, hall, _⟩ := natRepr_pos_decomp n.natAbs (by omega)
            have hform : intRepr n = c0 :: ds := by
              unfold intRepr
              rw [if_neg hneg, hrepr]
            refine Or.inl ⟨c0, ds, hform, ?_, ?_⟩
            · have := toNat_bounds_of_isDigit c0 hdig
              exact char_ne_of_toNat _ _ (by show c0.toNat ≠ 39; omega)
            · intro x hx
              rw [hform] at hx
              rcases List.mem_cons.mp hx with rfl | hx'
              · have := toNat_bounds_of_isDigit x hdig
                exact char_ne_of_toNat _ _ (by show x.toNat ≠ 58; omega)
              · have hd := hall x hx'
                have := toNat_bounds_of_isDigit x hd
                exact char_ne_of_toNat _ _ (by show x.toNat ≠ 58; omega)
    | str s =>
        have hv : yamlStrRepr s = some vS := by simpa [yamlScalarRepr] using h
        rcases yamlStrRepr_cases s vS hv with ⟨hp, rfl⟩ | ⟨hs, rfl⟩
        · obtain ⟨c0, t, hd, hfa, _, _⟩ := plainOk_decomp s hp
          have hchars := plainOk_chars s hp
          refine Or.inl ⟨c0, t, hd, ?_, fun x hx => (hchars x hx).1⟩
          exact (hchars c0 (by rw [hd]; exact List.mem_cons_self _ _)).2.1
        · exact Or.inr ⟨s, rfl, hs, rfl⟩
    | pyobj t a => simp [yamlScalarRepr] at h
    | seq xs =>
        cases xs with
        | nil =>
            refine Or.inl ⟨'[', _, by simpa [yamlScalarRepr] using h.symm, by decide, ?_⟩
            have : vS = "[]".data := by simpa [yamlScalarRepr] using h.symm
            subst this
            decide
        | cons x r => simp [yamlScalarRepr] at h
    | map ps =>
        cases ps with
        | nil =>
            refine Or.inl ⟨'{', _, by simpa [yamlScalarRepr] using h.symm, by decide, ?_⟩
            have : vS = "{}".data := by simpa [yamlScalarRepr] using h.symm
            subst this
            decide
        | cons p r => simp [yamlScalarRepr] at h
  rcases hnocolon with ⟨c0, t, hv, hq, hnc⟩ | ⟨s, _, _, hv⟩
  · rw [hv]
    unfold keySplit
    simp only [if_neg hq]
    rw [splitKeyTok_none (c0 :: t) ?hc]
    case hc =>
      intro x hx
      exact hnc x (hv ▸ hx)
  · rw [hv]
    unfold keySplit
    rw [List.cons_append]
    simp only [if_pos rfl]
    have hscan := sqScan_escape s.data ((sqEscape s.data ++ ['\'']).length + 1) []
      (by simp only [List.length_append, List.length_cons, List.length_nil]; omega) (Or.inl rfl)
    rw [show (sqEscape s.data ++ '\'' :: [] : List Char) = sqEscape s.data ++ ['\''] from rfl] at hscan
    rw [hscan, if_pos trivial]

end DataConverter

namespace DataConverter

/-- Emitted scalar tokens never look like sequence dashes, document markers,
tags or indentation. -/
theorem yamlScalarRepr_head (v : Value) (vS : List Char)
    (h : yamlScalarRepr v = some vS) :
    ∃ c t, vS = c :: t ∧ c ≠ ' ' ∧ c ≠ '.' ∧ c ≠ '!' ∧ isDashC (c :: t) = false := by
  cases v with
  | null =>
      have : vS = "null".data := by simpa [yamlScalarRepr] using h.symm
      subst this
      exact ⟨'n', _, rfl, by decide, by decide, by decide, by decide⟩
  | bool b =>
      cases b with
      | true =>
          have : vS = "true".data := by simpa [yamlScalarRepr] using h.symm
          subst this
          exact ⟨'t', _, rfl, by decide, by decide, by decide, by decide⟩
      | false =>
          have : vS = "false".data := by simpa [yamlScalarRepr] using h.symm
          subst this
          exact ⟨'f', _, rfl, by decide, by decide, by decide, by decide⟩
  | int n =>
      have hv : vS = intRepr n := by simpa [yamlScalarRepr] using h.symm
      subst hv
      by_cases hneg : n < 0
      · obtain ⟨c0, ds, hrepr, hdig, _, _, _⟩ := natRepr_pos_decomp n.natAbs (by omega)
        have hform : intRepr n = '-' :: c0 :: ds := by
          unfold intRepr
          rw [if_pos hneg, hrepr]
        refine ⟨'-', c0 :: ds, hform, by decide, by decide, by decide, ?_⟩
        have hc0 : c0 ≠ ' ' := by
          have := toNat_bounds_of_isDigit c0 hdig
          exact char_ne_of_toNat _ _ (by show c0.toNat ≠ 32; omega)
        simp [isDashC, hc0]
      · by_cases h0 : n = 0
        · subst h0
          exact ⟨'0', [], rfl, by decide, by decide, by decide, by decide⟩
        · obtain ⟨c0, ds, hrepr, hdig, _, _, _⟩ := natRepr_pos_decomp n.natAbs (by omega)
          have hform : intRepr n = c0 :: ds := by
            unfold intRepr
            rw [if_neg hneg, hrepr]
          have hb := toNat_bounds_of_isDigit c0 hdig
          refine ⟨c0, ds, hform,
            char_ne_of_toNat _ _ (by show c0.toNat ≠ 32; omega),
            char_ne_of_toNat _ _ (by show c0.toNat ≠ 46; omega),
            char_ne_of_toNat _ _ (by show c0.toNat ≠ 33; omega), ?_⟩
          have hm : c0 ≠ '-' := char_ne_of_toNat _ _ (by show c0.toNat ≠ 45; omega)
          simp [isDashC, hm]
  | str s =>
      have hv : yamlStrRepr s = some vS := by simpa [yamlScalarRepr] using h
      obtain ⟨c, t, rfl, f1, f2, f3, f4⟩ := yamlStrRepr_head s _ hv
      refine ⟨c, t, rfl, f1, f3, f4, ?_⟩
      simp [isDashC, f2]
  | pyobj t a => simp [yamlScalarRepr] at h
  | seq xs =>
      cases xs with
      | nil =>
          have : vS = "[]".data := by simpa [yamlScalarRepr] using h.symm
          subst this
          exact ⟨'[', _, rfl, by decide, by decide, by decide, by decide⟩
      | cons x r => simp [yamlScalarRepr] at h
  | map ps =>
      cases ps with
      | nil =>
          have : vS = "{}".data := by simpa [yamlScalarRepr] using h.symm
          subst this
          exact ⟨'{', _, rfl, by decide, by decide, by decide, by decide⟩
      | cons p r => simp [yamlScalarRepr] at h

/-- A mapping entry's first line is the key scalar followed by the colon. -/
theorem yamlEntryBlock_shape (k : String) (v : Value) (ind : Nat) (f : List Char)
    (r : List (List Char)) (h : yamlEntryBlock k v ind = some (f, r)) :
    ∃ kS rest, yamlStrRepr k = some kS ∧ f = kS ++ rest := by
  cases hk : yamlStrRepr k with
  | none =>
      exfalso
      cases v with
      | seq xs =>
          cases xs with
          | nil => simp [yamlEntryBlock, hk, yamlScalarRepr] at h
          | cons x r' =>
              cases hb : yamlSeqBlock (x :: r') ind with
              | none => simp [yamlEntryBlock, hk, hb] at h
              | some p => simp [yamlEntryBlock, hk, hb] at h
      | map ps =>
          cases ps with
          | nil => simp [yamlEntryBlock, hk, yamlScalarRepr] at h
          | cons p r' =>
              cases hb : yamlMapBlock (p :: r') (ind + 2) with
              | none => simp [yamlEntryBlock, hk, hb] at h
              | some p2 => simp [yamlEntryBlock, hk, hb] at h
      | null => simp [yamlEntryBlock, hk] at h
      | bool b => simp [yamlEntryBlock, hk] at h
      | int n => simp [yamlEntryBlock, hk] at h
      | str s => simp [yamlEntryBlock, hk] at h
      | pyobj t a => simp [yamlEntryBlock, hk] at h
  | some kS =>
      cases v with
      | seq xs =>
          cases xs with
          | nil =>
              simp only [yamlEntryBlock, hk, yamlScalarRepr, Option.some.injEq,
                Prod.mk.injEq] at h
              exact ⟨kS, ':' :: ' ' :: "[]".data, rfl, h.1.symm⟩
          | cons x r' =>
              cases hb : yamlSeqBlock (x :: r') ind with
              | none => simp [yamlEntryBlock, hk, hb] at h
              | some p =>
                  simp only [yamlEntryBlock, hk, hb, Option.some.injEq, Prod.mk.injEq] at h
                  exact ⟨kS, [':'], rfl, h.1.symm⟩
      | map ps =>
          cases ps with
          | nil =>
              simp only [yamlEntryBlock, hk, yamlScalarRepr, Option.some.injEq,
                Prod.mk.injEq] at h
              exact ⟨kS, ':' :: ' ' :: "{}".data, rfl, h.1.symm⟩
          | cons p r' =>
              cases hb : yamlMapBlock (p :: r') (ind + 2) with
              | none => simp [yamlEntryBlock, hk, hb] at h
              | some p2 =>
                  simp only [yamlEntryBlock, hk, hb, Option.some.injEq, Prod.mk.injEq] at h
                  exact ⟨kS, [':'], rfl, h.1.symm⟩
      | null =>
          simp only [yamlEntryBlock, hk, yamlScalarRepr, Option.some.injEq, Prod.mk.injEq] at h
          exact ⟨kS, ':' :: ' ' :: "null".data, rfl, h.1.symm⟩
      | bool b =>
          cases b with
          | true =>
              simp only [yamlEntryBlock, hk, yamlScalarRepr, Option.some.injEq, Prod.mk.injEq] at h
              exact ⟨kS, ':' :: ' ' :: "true".data, rfl, h.1.symm⟩
          | false =>
              simp only [yamlEntryBlock, hk, yamlScalarRepr, Option.some.injEq, Prod.mk.injEq] at h
              exact ⟨kS, ':' :: ' ' :: "false".data, rfl, h.1.symm⟩
      | int n =>
          simp only [yamlEntryBlock, hk, yamlScalarRepr, Option.some.injEq, Prod.mk.injEq] at h
          exact ⟨kS, ':' :: ' ' :: intRepr n, rfl, h.1.symm⟩
      | str s =>
          cases hs : yamlStrRepr s with
          | none => simp [yamlEntryBlock, hk, yamlScalarRepr, hs] at h
          | some vS =>
              simp only [yamlEntryBlock, hk, yamlScalarRepr, hs, Option.some.injEq,
                Prod.mk.injEq] at h
              exact ⟨kS, ':' :: ' ' :: vS, rfl, h.1.symm⟩
      | pyobj t a => simp [yamlEntryBlock, hk, yamlScalarRepr] at h

/-- A sequence entry's first line starts with the dash. -/
theorem yamlItemBlock_shape (x : Value) (ind : Nat) (f : List Char)
    (r : List (List Char)) (h : yamlItemBlock x ind = some (f, r)) :
    ∃ t, f = '-' :: ' ' :: t := by
  cases x with
  | seq xs =>
      cases xs with
      | nil =>
          simp only [yamlItemBlock, yamlScalarRepr, Option.some.injEq, Prod.mk.injEq] at h
          exact ⟨"[]".data, h.1.symm⟩
      | cons y r' =>
          cases hb : yamlSeqBlock (y :: r') (ind + 2) with
          | none => simp [yamlItemBlock, hb] at h
          | some p =>
              simp only [yamlItemBlock, hb, Option.some.injEq, Prod.mk.injEq] at h
              exact ⟨p.1, h.1.symm⟩
  | map ps =>
      cases ps with
      | nil =>
          simp only [yamlItemBlock, yamlScalarRepr, Option.some.injEq, Prod.mk.injEq] at h
          exact ⟨"{}".data, h.1.symm⟩
      | cons p r' =>
          cases hb : yamlMapBlock (p :: r') (ind + 2) with
          | none => simp [yamlItemBlock, hb] at h
          | some p2 =>
              simp only [yamlItemBlock, hb, Option.some.injEq, Prod.mk.injEq] at h
              exact ⟨p2.1, h.1.symm⟩
  | null =>
      simp only [yamlItemBlock, yamlScalarRepr, Option.some.injEq, Prod.mk.injEq] at h
      exact ⟨"null".data, h.1.symm⟩
  | bool b =>
      cases b with
      | true =>
          simp only [yamlItemBlock, yamlScalarRepr, Option.some.injEq, Prod.mk.injEq] at h
          exact ⟨"true".data, h.1.symm⟩
      | false =>
          simp only [yamlItemBlock, yamlScalarRepr, Option.some.injEq, Prod.mk.injEq] at h
          exact ⟨"false".data, h.1.symm⟩
  | int n =>
      simp only [yamlItemBlock, yamlScalarRepr, Option.some.injEq, Prod.mk.injEq] at h
      exact ⟨intRepr n, h.1.symm⟩
  | str s =>
      cases hs : yamlStrRepr s with
      | none => simp [yamlItemBlock, yamlScalarRepr, hs] at h
      | some vS =>
          simp only [yamlItemBlock, yamlScalarRepr, hs, Option.some.injEq, Prod.mk.injEq] at h
          exact ⟨vS, h.1.symm⟩
  | pyobj t a => simp [yamlItemBlock, yamlScalarRepr] at h

/-- The first line of a nonempty block mapping is a key line. -/
theorem yamlMapBlock_shape (ps : List (String × Value)) (ind : Nat) (f : List Char)
    (r : List (List Char)) (h : yamlMapBlock ps ind = some (f, r)) (hne : ps ≠ []) :
    ∃ kS rest k, yamlStrRepr k = some kS ∧ f = kS ++ rest := by
  match ps, hne with
  | [(k, v)], _ =>
      obtain ⟨kS, rest, hk, hf⟩ := yamlEntryBlock_shape k v ind f r h
      exact ⟨kS, rest, k, hk, hf⟩
  | (k, v) :: q :: pr, _ =>
      cases he : yamlEntryBlock k v ind with
      | none => simp [yamlMapBlock, he] at h
      | some p1 =>
          cases hm : yamlMapBlock (q :: pr) ind with
          | none => simp [yamlMapBlock, he, hm] at h
          | some p2 =>
              obtain ⟨kS, rest, hk, hf⟩ := yamlEntryBlock_shape k v ind p1.1 p1.2 (by rw [he])
              refine ⟨kS, rest, k, hk, ?_⟩
              simp only [yamlMapBlock, he, hm, Option.some.injEq, Prod.mk.injEq] at h
              rw [h.1.symm, hf]

/-- The first line of a nonempty block sequence is a dash line. -/
theorem yamlSeqBlock_shape (xs : List Value) (ind : Nat) (f : List Char)
    (r : List (List Char)) (h : yamlSeqBlock xs ind = some (f, r)) (hne : xs ≠ []) :
    ∃ t, f = '-' :: ' ' :: t := by
  match xs, hne with
  | [x], _ => exact yamlItemBlock_shape x ind f r h
  | x :: y :: xr, _ =>
      cases he : yamlItemBlock x ind with
      | none => simp [yamlSeqBlock, he] at h
      | some p1 =>
          cases hm : yamlSeqBlock (y :: xr) ind with
          | none => simp [yamlSeqBlock, he, hm] at h
          | some p2 =>
              obtain ⟨t, hf⟩ := yamlItemBlock_shape x ind p1.1 p1.2 (by rw [he])
              refine ⟨t, ?_⟩
              simp only [yamlSeqBlock, he, hm, Option.some.injEq, Prod.mk.injEq] at h
              rw [h.1.symm, hf]

end DataConverter

namespace DataConverter

/-- The emitted lines of one node (scalar, nonempty mapping, or nonempty
sequence) rendered at an indent: first line without its indent, rest full. -/
def yamlNodeBlock (v : Value) (ind : Nat) : Option (List Char × List (List Char)) :=
  match v with
  | .seq (x :: xs) => yamlSeqBlock (x :: xs) ind
  | .map (p :: ps) => yamlMapBlock (p :: ps) ind
  | v => (yamlScalarRepr v).map (fun vS => (vS, []))

theorem yamlItemBlock_eq_node (x : Value) (ind : Nat) :
    yamlItemBlock x ind =
      (yamlNodeBlock x (ind + 2)).map (fun p => ('-' :: ' ' :: p.1, p.2)) := by
  cases x with
  | seq xs =>
      cases xs with
      | nil => rfl
      | cons y r =>
          cases hb : yamlSeqBlock (y :: r) (ind + 2) with
          | none => simp [yamlItemBlock, yamlNodeBlock, hb]
          | some p => simp [yamlItemBlock, yamlNodeBlock, hb]
  | map ps =>
      cases ps with
      | nil => rfl
      | cons p r =>
          cases hb : yamlMapBlock (p :: r) (ind + 2) with
          | none => simp [yamlItemBlock, yamlNodeBlock, hb]
          | some p2 => simp [yamlItemBlock, yamlNodeBlock, hb]
  | null => rfl
  | bool b => cases b <;> rfl
  | int n => rfl
  | str s =>
      cases hs : yamlStrRepr s with
      | none => simp [yamlItemBlock, yamlNodeBlock, yamlScalarRepr, hs]
      | some vS => simp [yamlItemBlock, yamlNodeBlock, yamlScalarRepr, hs]
  | pyobj t a => rfl

/-- Lines a block at indent `ind` may be followed by. -/
def yamlStop (ind : Nat) (lines : List (List Char)) : Prop :=
  lines = [] ∨ ∃ l r, lines = l :: r ∧ (isBlankL l = true ∨ countIndent l < ind)

/-- Lines a block sequence at indent `ind` may be followed by: additionally a
sibling mapping entry at the same indent. -/
def yamlSeqStop (ind : Nat) (lines : List (List Char)) : Prop :=
  lines = [] ∨ ∃ l r, lines = l :: r ∧ (isBlankL l = true ∨ countIndent l < ind ∨
    (countIndent l = ind ∧ isDashC (stripIndent l) = false))

theorem yamlStop_seqStop (ind : Nat) (lines : List (List Char)) (h : yamlStop ind lines) :
    yamlSeqStop ind lines := by
  rcases h with rfl | ⟨l, r, rfl, hl⟩
  · exact Or.inl rfl
  · exact Or.inr ⟨l, r, rfl, by tauto⟩

theorem yamlStop_mono (ind ind' : Nat) (lines : List (List Char)) (hlt : ind < ind')
    (h : yamlStop ind lines) : yamlStop ind' lines := by
  rcases h with rfl | ⟨l, r, rfl, hl⟩
  · exact Or.inl rfl
  · refine Or.inr ⟨l, r, rfl, ?_⟩
    rcases hl with hb | hi
    · exact Or.inl hb
    · exact Or.inr (by omega)

theorem yamlSeqStop_node (ind : Nat) (lines : List (List Char))
    (h : yamlSeqStop ind lines) : yamlStop (ind + 2) lines := by
  rcases h with rfl | ⟨l, r, rfl, hl⟩
  · exact Or.inl rfl
  · refine Or.inr ⟨l, r, rfl, ?_⟩
    rcases hl with hb | hi | ⟨he, _⟩
    · exact Or.inl hb
    · exact Or.inr (by omega)
    · exact Or.inr (by omega)

/-- The sequence loop returns at a stop line. -/
theorem yamlSeqLoop_stop (fuel : Nat) (acc : List Value) (lines : List (List Char))
    (ind : Nat) (h : yamlSeqStop ind lines) :
    yamlSeqLoop (fuel + 1) acc lines ind = .ok (.seq acc, lines) := by
  rcases h with rfl | ⟨l, r, rfl, hl⟩
  · rfl
  · rw [ysl_succ]
    rcases hl with hb | hi | ⟨he, hd⟩
    · rw [if_pos hb]
    · by_cases hb : isBlankL l = true
      · rw [if_pos hb]
      · rw [if_neg hb, if_neg (by omega), if_pos hi]
    · by_cases hb : isBlankL l = true
      · rw [if_pos hb]
      · rw [if_neg hb, if_pos he, if_neg (by simp [hd])]

/-- The mapping loop returns at a stop line. -/
theorem yamlMapLoop_stop (fuel : Nat) (acc : List (String × Value))
    (lines : List (List Char)) (ind : Nat) (h : yamlStop ind lines) :
    yamlMapLoop (fuel + 1) acc lines ind = .ok (.map acc, lines) := by
  rcases h with rfl | ⟨l, r, rfl, hl⟩
  · rfl
  · rw [yml_succ]
    rcases hl with hb | hi
    · rw [if_pos hb]
    · by_cases hb : isBlankL l = true
      · rw [if_pos hb]
      · rw [if_neg hb, if_neg (by omega), if_pos hi]

/-- The key line of a mapping entry splits into the key and a well-shaped
remainder. -/
theorem yamlEntryBlock_keyline (k : String) (v : Value) (ind : Nat) (f : List Char)
    (r : List (List Char)) (h : yamlEntryBlock k v ind = some (f, r)) :
    ∃ after, keySplit f = some (k, after) ∧
      ((∃ vS, after = ' ' :: vS) ∨ after = []) := by
  cases hk : yamlStrRepr k with
  | none =>
      exfalso
      obtain ⟨kS, rest, hk2, _⟩ := yamlEntryBlock_shape k v ind f r h
      rw [hk] at hk2
      exact Option.noConfusion hk2
  | some kS =>
      cases v with
      | seq xs =>
          cases xs with
          | nil =>
              simp only [yamlEntryBlock, hk, yamlScalarRepr, Option.some.injEq, Prod.mk.injEq] at h
              refine ⟨' ' :: "[]".data, ?_, Or.inl ⟨_, rfl⟩⟩
              rw [← h.1]
              exact keySplit_repr k kS _ hk
          | cons x r' =>
              cases hb : yamlSeqBlock (x :: r') ind with
              | none => simp [yamlEntryBlock, hk, hb] at h
              | some p =>
                  simp only [yamlEntryBlock, hk, hb, Option.some.injEq, Prod.mk.injEq] at h
                  refine ⟨[], ?_, Or.inr rfl⟩
                  rw [← h.1]
                  exact keySplit_repr k kS _ hk
      | map ps =>
          cases ps with
          | nil =>
              simp only [yamlEntryBlock, hk, yamlScalarRepr, Option.some.injEq, Prod.mk.injEq] at h
              refine ⟨' ' :: "{}".data, ?_, Or.inl ⟨_, rfl⟩⟩
              rw [← h.1]
              exact keySplit_repr k kS _ hk
          | cons p r' =>
              cases hb : yamlMapBlock (p :: r') (ind + 2) with
              | none => simp [yamlEntryBlock, hk, hb] at h
              | some p2 =>
                  simp only [yamlEntryBlock, hk, hb, Option.some.injEq, Prod.mk.injEq] at h
                  refine ⟨[], ?_, Or.inr rfl⟩
                  rw [← h.1]
                  exact keySplit_repr k kS _ hk
      | null =>
          simp only [yamlEntryBlock, hk, yamlScalarRepr, Option.some.injEq, Prod.mk.injEq] at h
          refine ⟨' ' :: "null".data, ?_, Or.inl ⟨_, rfl⟩⟩
          rw [← h.1]
          exact keySplit_repr k kS _ hk
      | bool b =>
          cases b with
          | true =>
              simp only [yamlEntryBlock, hk, yamlScalarRepr, Option.some.injEq, Prod.mk.injEq] at h
              refine ⟨' ' :: "true".data, ?_, Or.inl ⟨_, rfl⟩⟩
              rw [← h.1]
              exact keySplit_repr k kS _ hk
          | false =>
              simp only [yamlEntryBlock, hk, yamlScalarRepr, Option.some.injEq, Prod.mk.injEq] at h
              refine ⟨' ' :: "false".data, ?_, Or.inl ⟨_, rfl⟩⟩
              rw [← h.1]
              exact keySplit_repr k kS _ hk
      | int n =>
          simp only [yamlEntryBlock, hk, yamlScalarRepr, Option.some.injEq, Prod.mk.injEq] at h
          refine ⟨' ' :: intRepr n, ?_, Or.inl ⟨_, rfl⟩⟩
          rw [← h.1]
          exact keySplit_repr k kS _ hk
      | str s =>
          cases hs : yamlStrRepr s with
          | none => simp [yamlEntryBlock, hk, yamlScalarRepr, hs] at h
          | some vS =>
              simp only [yamlEntryBlock, hk, yamlScalarRepr, hs, Option.some.injEq,
                Prod.mk.injEq] at h
              refine ⟨' ' :: vS, ?_, Or.inl ⟨_, rfl⟩⟩
              rw [← h.1]
              exact keySplit_repr k kS _ hk
      | pyobj t a => simp [yamlEntryBlock, hk, yamlScalarRepr] at h

end DataConverter

namespace DataConverter

/-- A scalar node line reparses to its value. -/
theorem yamlRT_scalar_node (g : Nat) (v : Value) (ind : Nat) (vS : List Char)
    (tail : List (List Char)) (h : yamlScalarRepr v = some vS) :
    yamlParseNode (g + 1) ((spacesL ind ++ vS) :: tail) ind = .ok (v, tail) := by
  obtain ⟨c0, t0, hv, hs, _, _, hdash⟩ := yamlScalarRepr_head v vS h
  subst hv
  rw [ypn_succ, countIndent_spaces ind c0 t0 hs, stripIndent_spaces ind c0 t0 hs]
  rw [if_neg (by omega), if_neg (by simp), if_neg (by simp [hdash])]
  simp only [keySplit_scalarRepr v (c0 :: t0) h, parseScalarToken_repr v (c0 :: t0) h]

/-- Parse-node dispatch once the line shape is known. -/
theorem ypn_step (fuel ind : Nat) (c : Char) (t : List Char)
    (rest : List (List Char)) (hc : c ≠ ' ') :
    yamlParseNode (fuel + 1) ((spacesL ind ++ c :: t) :: rest) ind =
      (if isDashC (c :: t) = true then
        yamlSeqLoop fuel [] ((spacesL ind ++ c :: t) :: rest) ind
      else
        match keySplit (c :: t) with
        | some (_, after) =>
            (match after with
             | [] => yamlMapLoop fuel [] ((spacesL ind ++ c :: t) :: rest) ind
             | a :: _ =>
                 if a = ' ' then yamlMapLoop fuel [] ((spacesL ind ++ c :: t) :: rest) ind
                 else
                   match parseScalarToken (c :: t) with
                   | some v => .ok (v, rest)
                   | none => .error (.badScalar, rest.length + 1))
        | none =>
            match parseScalarToken (c :: t) with
            | some v => .ok (v, rest)
            | none => .error (.badScalar, rest.length + 1)) := by
  rw [ypn_succ, countIndent_spaces ind c t hc, stripIndent_spaces ind c t hc]
  rw [if_neg (by omega), if_neg (by simp)]

/-- Sequence-loop step on a dash line. -/
theorem ysl_step_dash (fuel : Nat) (acc : List Value) (ind : Nat) (fi : List Char)
    (rest : List (List Char)) :
    yamlSeqLoop (fuel + 1) acc ((spacesL ind ++ '-' :: ' ' :: fi) :: rest) ind =
      (match yamlParseNode fuel ((spacesL (ind + 2) ++ fi) :: rest) (ind + 2) with
       | .ok (v, rest2) => yamlSeqLoop fuel (acc ++ [v]) rest2 ind
       | .error e => .error e) := by
  rw [ysl_succ, isBlankL_spaces ind '-' (' ' :: fi) (by decide),
    countIndent_spaces ind '-' (' ' :: fi) (by decide),
    stripIndent_spaces ind '-' (' ' :: fi) (by decide)]
  rw [if_neg (by simp), if_pos rfl, if_pos (by simp [isDashC])]

/-- Mapping-loop step once the entry line shape is known. -/
theorem yml_step (fuel : Nat) (acc : List (String × Value)) (ind : Nat)
    (c : Char) (t : List Char) (rest : List (List Char)) (hc : c ≠ ' ') :
    yamlMapLoop (fuel + 1) acc ((spacesL ind ++ c :: t) :: rest) ind =
      (match keySplit (c :: t) with
       | none => .error (.expectedKey, rest.length + 1)
       | some (k, after) =>
           match after with
           | a :: vtok =>
               if a = ' ' then
                 (match parseScalarToken vtok with
                  | some v => yamlMapLoop fuel (pyInsert acc k v) rest ind
                  | none => .error (.badScalar, rest.length + 1))
               else .error (.badScalar, rest.length + 1)
           | [] =>
               match rest with
               | [] => yamlMapLoop fuel (pyInsert acc k .null) rest ind
               | l2 :: _ =>
                   if isBlankL l2 = true then yamlMapLoop fuel (pyInsert acc k .null) rest ind
                   else if countIndent l2 = ind then
                     (if isDashC (stripIndent l2) = true then
                       (match yamlSeqLoop fuel [] rest ind with
                        | .ok (v, rest2) => yamlMapLoop fuel (pyInsert acc k v) rest2 ind
                        | .error e => .error e)
                     else yamlMapLoop fuel (pyInsert acc k .null) rest ind)
                   else if ind < countIndent l2 then
                     (match yamlParseNode fuel rest (countIndent l2) with
                      | .ok (v, rest2) => yamlMapLoop fuel (pyInsert acc k v) rest2 ind
                      | .error e => .error e)
                   else yamlMapLoop fuel (pyInsert acc k .null) rest ind) := by
  rw [yml_succ, isBlankL_spaces ind c t hc, countIndent_spaces ind c t hc,
    stripIndent_spaces ind c t hc]
  rw [if_neg (by simp), if_pos rfl]

end DataConverter

namespace DataConverter

/-- Classification of a mapping entry: inline scalar value, block sequence
value at the key's indent, or block mapping value two deeper. -/
theorem yamlEntryBlock_classify (k : String) (v : Value) (ind : Nat) (f : List Char)
    (r : List (List Char)) (h : yamlEntryBlock k v ind = some (f, r)) :
    ∃ kS, yamlStrRepr k = some kS ∧
    ((∃ vS, yamlScalarRepr v = some vS ∧ f = kS ++ ':' :: ' ' :: vS ∧ r = []) ∨
     (∃ x xs fs rs, v = .seq (x :: xs) ∧ yamlSeqBlock (x :: xs) ind = some (fs, rs) ∧
        f = kS ++ [':'] ∧ r = (spacesL ind ++ fs) :: rs) ∨
     (∃ p ps fm rm, v = .map (p :: ps) ∧ yamlMapBlock (p :: ps) (ind + 2) = some (fm, rm) ∧
        f = kS ++ [':'] ∧ r = (spacesL (ind + 2) ++ fm) :: rm)) := by
  cases hk : yamlStrRepr k with
  | none =>
      exfalso
      obtain ⟨kS, rest, hk2, _⟩ := yamlEntryBlock_shape k v ind f r h
      rw [hk] at hk2
      exact Option.noConfusion hk2
  | some kS =>
      refine ⟨kS, rfl, ?_⟩
      cases v with
      | seq xs =>
          cases xs with
          | nil =>
              simp only [yamlEntryBlock, hk, yamlScalarRepr, Option.some.injEq, Prod.mk.injEq] at h
              exact Or.inl ⟨"[]".data, rfl, h.1.symm, h.2.symm⟩
          | cons x r' =>
              cases hb : yamlSeqBlock (x :: r') ind with
              | none => simp [yamlEntryBlock, hk, hb] at h
              | some p =>
                  simp only [yamlEntryBlock, hk, hb, Option.some.injEq, Prod.mk.injEq] at h
                  exact Or.inr (Or.inl ⟨x, r', p.1, p.2, rfl, by rw [hb], h.1.symm, h.2.symm⟩)
      | map ps =>
          cases ps with
          | nil =>
              simp only [yamlEntryBlock, hk, yamlScalarRepr, Option.some.injEq, Prod.mk.injEq] at h
              exact Or.inl ⟨"{}".data, rfl, h.1.symm, h.2.symm⟩
          | cons p r' =>
              cases hb : yamlMapBlock (p :: r') (ind + 2) with
              | none => simp [yamlEntryBlock, hk, hb] at h
              | some p2 =>
                  simp only [yamlEntryBlock, hk, hb, Option.some.injEq, Prod.mk.injEq] at h
                  exact Or.inr (Or.inr ⟨p, r', p2.1, p2.2, rfl, by rw [hb], h.1.symm, h.2.symm⟩)
      | null =>
          simp only [yamlEntryBlock, hk, yamlScalarRepr, Option.some.injEq, Prod.mk.injEq] at h
          exact Or.inl ⟨"null".data, rfl, h.1.symm, h.2.symm⟩
      | bool b =>
          cases b with
          | true =>
              simp only [yamlEntryBlock, hk, yamlScalarRepr, Option.some.injEq, Prod.mk.injEq] at h
              exact Or.inl ⟨"true".data, rfl, h.1.symm, h.2.symm⟩
          | false =>
              simp only [yamlEntryBlock, hk, yamlScalarRepr, Option.some.injEq, Prod.mk.injEq] at h
              exact Or.inl ⟨"false".data, rfl, h.1.symm, h.2.symm⟩
      | int n =>
          simp only [yamlEntryBlock, hk, yamlScalarRepr, Option.some.injEq, Prod.mk.injEq] at h
          exact Or.inl ⟨intRepr n, rfl, h.1.symm, h.2.symm⟩
      | str s =>
          cases hs : yamlStrRepr s with
          | none => simp [yamlEntryBlock, hk, yamlScalarRepr, hs] at h
          | some vS =>
              simp only [yamlEntryBlock, hk, yamlScalarRepr, hs, Option.some.injEq,
                Prod.mk.injEq] at h
              exact Or.inl ⟨vS, by simp [yamlScalarRepr, hs], h.1.symm, h.2.symm⟩
      | pyobj t a => simp [yamlEntryBlock, hk, yamlScalarRepr] at h

end DataConverter

namespace DataConverter

/-- The first line of a nonempty block mapping splits into its first key and a
well-shaped remainder. -/
theorem yamlMapBlock_keyline (ps : List (String × Value)) (ind : Nat) (f : List Char)
    (r : List (List Char)) (h : yamlMapBlock ps ind = some (f, r)) (hne : ps ≠ []) :
    ∃ k after, keySplit f = some (k, after) ∧
      ((∃ vS, after = ' ' :: vS) ∨ after = []) := by
  match ps, hne with
  | [(k, v)], _ =>
      have h' : yamlEntryBlock k v ind = some (f, r) := by simpa [yamlMapBlock] using h
      obtain ⟨after, hks, hsh⟩ := yamlEntryBlock_keyline k v ind f r h'
      exact ⟨k, after, hks, hsh⟩
  | (k, v) :: q :: pr, _ =>
      cases he : yamlEntryBlock k v ind with
      | none => simp [yamlMapBlock, he] at h
      | some p1 =>
          cases hm : yamlMapBlock (q :: pr) ind with
          | none => simp [yamlMapBlock, he, hm] at h
          | some p2 =>
              simp only [yamlMapBlock, he, hm, Option.some.injEq, Prod.mk.injEq] at h
              obtain ⟨after, hks, hsh⟩ := yamlEntryBlock_keyline k v ind p1.1 p1.2 (by rw [he])
              refine ⟨k, after, ?_, hsh⟩
              rw [← h.1]
              exact hks

end DataConverter

namespace DataConverter

mutual

/-- Fuel needed by `yamlParseNode` to reparse an emitted document: the
parser spends one unit entering a node or loop iteration, and sibling
subtrees are parsed at the same remaining fuel, so siblings cost a
maximum, not a sum. -/
def yweight : Value → Nat
  | .null => 1
  | .bool _ => 1
  | .int _ => 1
  | .str _ => 1
  | .pyobj _ _ => 1
  | .seq xs => 1 + yweightL xs
  | .map ps => 1 + yweightP ps

def yweightL : List Value → Nat
  | [] => 1
  | x :: r => 1 + max (yweight x) (yweightL r)

def yweightP : List (String × Value) → Nat
  | [] => 1
  | (_, v) :: r => 1 + max (yweight v) (yweightP r)

end

theorem yweight_pos (v : Value) : 1 ≤ yweight v := by
  cases v <;> simp [yweight]

theorem yweightL_pos (xs : List Value) : 1 ≤ yweightL xs := by
  cases xs <;> simp [yweightL]

theorem yweightP_pos (ps : List (String × Value)) : 1 ≤ yweightP ps := by
  cases ps with
  | nil => simp [yweightP]
  | cons p r => obtain ⟨k, v⟩ := p; simp [yweightP]

/-- Mutual round-trip invariant for the modelled `yaml.dump` emitter and
block parser, by strong induction on parser fuel: an emitted node reparses to
its value, and emitted entry/item lines drive the mapping/sequence loops to
the original lists. -/
theorem yamlRT (fuel : Nat) :
    (∀ (v : Value) (ind : Nat) (f : List Char) (r tail : List (List Char)),
        yweight v ≤ fuel → jsonWf v = true →
        yamlNodeBlock v ind = some (f, r) → yamlStop ind tail →
        yamlParseNode fuel ((spacesL ind ++ f) :: (r ++ tail)) ind = .ok (v, tail)) ∧
    (∀ (xs acc : List Value) (ind : Nat) (f : List Char) (r tail : List (List Char)),
        yweightL xs ≤ fuel → jsonWfL xs = true → xs ≠ [] →
        yamlSeqBlock xs ind = some (f, r) → yamlSeqStop ind tail →
        yamlSeqLoop fuel acc ((spacesL ind ++ f) :: (r ++ tail)) ind =
          .ok (.seq (acc ++ xs), tail)) ∧
    (∀ (ps : List (String × Value)) (acc : List (String × Value)) (ind : Nat)
        (f : List Char) (r tail : List (List Char)),
        yweightP ps ≤ fuel → jsonWfP ps = true → ps ≠ [] →
        distinctStrings (acc.map Prod.fst ++ ps.map Prod.fst) = true →
        yamlMapBlock ps ind = some (f, r) → yamlStop ind tail →
        yamlMapLoop fuel acc ((spacesL ind ++ f) :: (r ++ tail)) ind =
          .ok (.map (acc ++ ps), tail)) := by
  induction fuel using Nat.strong_induction_on with
  | _ fuel ih =>
  refine ⟨?_, ?_, ?_⟩
  · -- nodes
    intro v ind f r tail hw hwf hnb hstop
    obtain ⟨g, rfl⟩ : ∃ g, fuel = g + 1 := ⟨fuel - 1, by have := yweight_pos v; omega⟩
    cases v with
    | null =>
        simp only [yamlNodeBlock, yamlScalarRepr, Option.map_some', Option.some.injEq,
          Prod.mk.injEq] at hnb
        obtain ⟨hf, hr⟩ := hnb
        rw [← hr, List.nil_append]
        exact yamlRT_scalar_node g .null ind f tail (by rw [← hf]; rfl)
    | bool b =>
        cases b with
        | true =>
            simp only [yamlNodeBlock, yamlScalarRepr, Option.map_some', Option.some.injEq,
              Prod.mk.injEq] at hnb
            obtain ⟨hf, hr⟩ := hnb
            rw [← hr, List.nil_append]
            exact yamlRT_scalar_node g (.bool true) ind f tail (by rw [← hf]; rfl)
        | false =>
            simp only [yamlNodeBlock, yamlScalarRepr, Option.map_some', Option.some.injEq,
              Prod.mk.injEq] at hnb
            obtain ⟨hf, hr⟩ := hnb
            rw [← hr, List.nil_append]
            exact yamlRT_scalar_node g (.bool false) ind f tail (by rw [← hf]; rfl)
    | int n =>
        simp only [yamlNodeBlock, yamlScalarRepr, Option.map_some', Option.some.injEq,
          Prod.mk.injEq] at hnb
        obtain ⟨hf, hr⟩ := hnb
        rw [← hr, List.nil_append]
        exact yamlRT_scalar_node g (.int n) ind f tail (by rw [← hf]; rfl)
    | str s =>
        cases hs : yamlStrRepr s with
        | none => simp [yamlNodeBlock, yamlScalarRepr, hs] at hnb
        | some vS =>
            simp only [yamlNodeBlock, yamlScalarRepr, hs, Option.map_some', Option.some.injEq,
              Prod.mk.injEq] at hnb
            obtain ⟨hf, hr⟩ := hnb
            rw [← hr, List.nil_append]
            exact yamlRT_scalar_node g (.str s) ind f tail (by rw [← hf]; simp [yamlScalarRepr, hs])
    | pyobj t a => simp [jsonWf] at hwf
    | seq xs =>
        cases xs with
        | nil =>
            simp only [yamlNodeBlock, yamlScalarRepr, Option.map_some', Option.some.injEq,
              Prod.mk.injEq] at hnb
            obtain ⟨hf, hr⟩ := hnb
            rw [← hr, List.nil_append]
            exact yamlRT_scalar_node g (.seq []) ind f tail (by rw [← hf]; rfl)
        | cons x xs' =>
            have hsb : yamlSeqBlock (x :: xs') ind = some (f, r) := by
              simpa [yamlNodeBlock] using hnb
            obtain ⟨t2, hf⟩ := yamlSeqBlock_shape (x :: xs') ind f r hsb (by simp)
            subst hf
            rw [ypn_step g ind '-' (' ' :: t2) (r ++ tail) (by decide)]
            rw [if_pos (by simp [isDashC])]
            have hwL : yweightL (x :: xs') ≤ g := by
              have e : yweight (Value.seq (x :: xs')) = 1 + yweightL (x :: xs') := rfl
              rw [e] at hw
              omega
            have hwfL : jsonWfL (x :: xs') = true := by simpa [jsonWf] using hwf
            have hrec := (ih g (by omega)).2.1 (x :: xs') [] ind ('-' :: ' ' :: t2) r tail
              hwL hwfL (by simp) hsb (yamlStop_seqStop ind tail hstop)
            simpa using hrec
    | map ps =>
        cases ps with
        | nil =>
            simp only [yamlNodeBlock, yamlScalarRepr, Option.map_some', Option.some.injEq,
              Prod.mk.injEq] at hnb
            obtain ⟨hf, hr⟩ := hnb
            rw [← hr, List.nil_append]
            exact yamlRT_scalar_node g (.map []) ind f tail (by rw [← hf]; rfl)
        | cons p ps' =>
            have hmb : yamlMapBlock (p :: ps') ind = some (f, r) := by
              simpa [yamlNodeBlock] using hnb
            obtain ⟨kS, rest0, k0, hk0, hf⟩ := yamlMapBlock_shape (p :: ps') ind f r hmb (by simp)
            obtain ⟨c1, t1, hkS, hc1, hc1d, _, _⟩ := yamlStrRepr_head k0 kS hk0
            obtain ⟨k1, after, hks, hafter⟩ := yamlMapBlock_keyline (p :: ps') ind f r hmb (by simp)
            have hfc : f = c1 :: (t1 ++ rest0) := by
              rw [hf, hkS, List.cons_append]
            have hks' : keySplit (c1 :: (t1 ++ rest0)) = some (k1, after) := by
              rw [← hfc]
              exact hks
            obtain ⟨hdist, hwfP⟩ : distinctStrings ((p :: ps').map Prod.fst) = true ∧
                jsonWfP (p :: ps') = true := by
              simpa [jsonWf, Bool.and_eq_true] using hwf
            have hwP : yweightP (p :: ps') ≤ g := by
              have e : yweight (Value.map (p :: ps')) = 1 + yweightP (p :: ps') := rfl
              rw [e] at hw
              omega
            have hrec := (ih g (by omega)).2.2 (p :: ps') [] ind f r tail
              hwP hwfP (by simp) (by simpa using hdist) hmb hstop
            rw [hfc]
            rw [ypn_step g ind c1 (t1 ++ rest0) (r ++ tail) hc1]
            rw [if_neg (by simp [isDashC, hc1d])]
            rcases hafter with ⟨vS0, rfl⟩ | rfl
            · simp only [hks']
              rw [if_pos (by trivial), ← hfc]
              simpa using hrec
            · simp only [hks']
              rw [← hfc]
              simpa using hrec
  · -- sequence entries
    intro xs acc ind f r tail hwL hwfL hne hsb hstop
    obtain ⟨g, rfl⟩ : ∃ g, fuel = g + 1 := ⟨fuel - 1, by have := yweightL_pos xs; omega⟩
    cases xs with
    | nil => exact absurd rfl hne
    | cons x xs' =>
    have hwx : yweight x ≤ g ∧ yweightL xs' ≤ g := by
      have e : yweightL (x :: xs') = 1 + max (yweight x) (yweightL xs') := rfl
      rw [e] at hwL
      have := yweight_pos x
      have := yweightL_pos xs'
      omega
    have hwfx : jsonWf x = true ∧ jsonWfL xs' = true := by
      have e : jsonWfL (x :: xs') = (jsonWf x && jsonWfL xs') := rfl
      rw [e, Bool.and_eq_true] at hwfL
      exact hwfL
    cases xs' with
    | nil =>
        have hib : yamlItemBlock x ind = some (f, r) := by
          simpa [yamlSeqBlock] using hsb
        rw [yamlItemBlock_eq_node] at hib
        cases hn : yamlNodeBlock x (ind + 2) with
        | none => rw [hn] at hib; exact absurd hib (by simp)
        | some pn =>
            rw [hn] at hib
            simp only [Option.map_some', Option.some.injEq, Prod.mk.injEq] at hib
            obtain ⟨hf, hr⟩ := hib
            rw [← hf, ← hr]
            rw [ysl_step_dash g acc ind pn.1 (pn.2 ++ tail)]
            have hnode := (ih g (by omega)).1 x (ind + 2) pn.1 pn.2 tail
              hwx.1 hwfx.1 (by rw [hn]) (yamlSeqStop_node ind tail hstop)
            simp only [hnode]
            obtain ⟨g', rfl⟩ : ∃ g', g = g' + 1 :=
              ⟨g - 1, by have := yweight_pos x; omega⟩
            rw [yamlSeqLoop_stop g' (acc ++ [x]) tail ind hstop]
    | cons y ys =>
        cases hi : yamlItemBlock x ind with
        | none => simp [yamlSeqBlock, hi] at hsb
        | some p1 =>
        obtain ⟨f1, r1⟩ := p1
        cases h2 : yamlSeqBlock (y :: ys) ind with
        | none => simp [yamlSeqBlock, hi, h2] at hsb
        | some p2 =>
            obtain ⟨f2, r2⟩ := p2
            simp only [yamlSeqBlock, hi, h2, Option.some.injEq, Prod.mk.injEq] at hsb
            obtain ⟨hf, hr⟩ := hsb
            rw [yamlItemBlock_eq_node] at hi
            cases hn : yamlNodeBlock x (ind + 2) with
            | none => rw [hn] at hi; exact absurd hi (by simp)
            | some pn =>
                obtain ⟨fn, rn⟩ := pn
                rw [hn] at hi
                simp only [Option.map_some', Option.some.injEq, Prod.mk.injEq] at hi
                obtain ⟨hp1, hp2⟩ := hi
                obtain ⟨t2, hsh2⟩ := yamlSeqBlock_shape (y :: ys) ind f2 r2 (by rw [h2]) (by simp)
                have hCONTstop : yamlStop (ind + 2) ((spacesL ind ++ f2) :: (r2 ++ tail)) := by
                  refine Or.inr ⟨_, _, rfl, Or.inr ?_⟩
                  rw [hsh2, countIndent_spaces ind '-' (' ' :: t2) (by decide)]
                  omega
                rw [← hf, ← hr, ← hp1, ← hp2]
                rw [show (rn ++ (spacesL ind ++ f2) :: r2) ++ tail
                    = rn ++ ((spacesL ind ++ f2) :: (r2 ++ tail)) from by
                  simp [List.append_assoc]]
                rw [ysl_step_dash g acc ind fn (rn ++ ((spacesL ind ++ f2) :: (r2 ++ tail)))]
                have hnode := (ih g (by omega)).1 x (ind + 2) fn rn
                  ((spacesL ind ++ f2) :: (r2 ++ tail))
                  hwx.1 hwfx.1 (by rw [hn]) hCONTstop
                simp only [hnode]
                have hrec := (ih g (by omega)).2.1 (y :: ys) (acc ++ [x]) ind f2 r2 tail
                  hwx.2 hwfx.2 (by simp) (by rw [h2]) hstop
                rw [hrec]
                simp
  · -- mapping entries
    intro ps acc ind f r tail hwP hwfP hne hdist hmb hstop
    obtain ⟨g, rfl⟩ : ∃ g, fuel = g + 1 := ⟨fuel - 1, by have := yweightP_pos ps; omega⟩
    cases ps with
    | nil => exact absurd rfl hne
    | cons p ps' =>
    obtain ⟨k, v⟩ := p
    have hwv : yweight v ≤ g ∧ yweightP ps' ≤ g := by
      have e : yweightP ((k, v) :: ps') = 1 + max (yweight v) (yweightP ps') := rfl
      rw [e] at hwP
      have := yweight_pos v
      have := yweightP_pos ps'
      omega
    have hwfv : jsonWf v = true ∧ jsonWfP ps' = true := by
      have e : jsonWfP ((k, v) :: ps') = (jsonWf v && jsonWfP ps') := rfl
      rw [e, Bool.and_eq_true] at hwfP
      exact hwfP
    have hins : pyInsert acc k v = acc ++ [(k, v)] := by
      refine pyInsert_append acc k v ?_
      refine fresh_key_of_distinct acc k (ps'.map Prod.fst) ?_
      simpa using hdist
    have hinsN : ∀ w : Value, pyInsert acc k w = acc ++ [(k, w)] := by
      intro w
      refine pyInsert_append acc k w ?_
      refine fresh_key_of_distinct acc k (ps'.map Prod.fst) ?_
      simpa using hdist
    have hdist' : distinctStrings ((acc ++ [(k, v)]).map Prod.fst ++ ps'.map Prod.fst) = true := by
      simp only [List.map_append, List.map_cons, List.map_nil, List.append_assoc,
        List.singleton_append]
      simpa using hdist
    cases ps' with
    | nil =>
        have hent : yamlEntryBlock k v ind = some (f, r) := by
          simpa [yamlMapBlock] using hmb
        obtain ⟨kS, hkrep, hcls⟩ := yamlEntryBlock_classify k v ind f r hent
        obtain ⟨c1, t1, hkS, hc1, hc1d, _, _⟩ := yamlStrRepr_head k kS hkrep
        rcases hcls with ⟨vS, hvrep, hfe, hre⟩ | ⟨x, xs, fs, rs, hveq, hsb, hfe, hre⟩ |
          ⟨q, qs, fm, rm, hveq, hmb2, hfe, hre⟩
        · -- inline scalar entry
          have hfc : f = c1 :: (t1 ++ (':' :: ' ' :: vS)) := by
            rw [hfe, hkS, List.cons_append]
          rw [hfc, hre, List.nil_append]
          rw [yml_step g acc ind c1 (t1 ++ (':' :: ' ' :: vS)) tail hc1]
          have hks2 : keySplit (c1 :: (t1 ++ (':' :: ' ' :: vS))) = some (k, ' ' :: vS) := by
            rw [show (c1 :: (t1 ++ (':' :: ' ' :: vS)) : List Char)
                = (c1 :: t1) ++ ':' :: (' ' :: vS) from by simp]
            rw [← hkS]
            exact keySplit_repr k kS (' ' :: vS) hkrep
          simp only [hks2]
          rw [if_pos (by trivial), parseScalarToken_repr v vS hvrep]
          show yamlMapLoop g (pyInsert acc k v) tail ind
            = Except.ok (Value.map (acc ++ [(k, v)]), tail)
          rw [hins]
          obtain ⟨g', rfl⟩ : ∃ g', g = g' + 1 := ⟨g - 1, by have := yweight_pos v; omega⟩
          rw [yamlMapLoop_stop g' (acc ++ [(k, v)]) tail ind hstop]
        · -- block sequence value
          have hfc : f = c1 :: (t1 ++ [':']) := by
            rw [hfe, hkS, List.cons_append]
          rw [hfc, hre]
          rw [show ((spacesL ind ++ fs) :: rs) ++ tail
              = (spacesL ind ++ fs) :: (rs ++ tail) from rfl]
          rw [yml_step g acc ind c1 (t1 ++ [':']) ((spacesL ind ++ fs) :: (rs ++ tail)) hc1]
          have hks2 : keySplit (c1 :: (t1 ++ [':'])) = some (k, []) := by
            rw [show (c1 :: (t1 ++ [':']) : List Char) = (c1 :: t1) ++ ':' :: [] from by simp]
            rw [← hkS]
            exact keySplit_repr k kS [] hkrep
          simp only [hks2]
          obtain ⟨ts, hfs⟩ := yamlSeqBlock_shape (x :: xs) ind fs rs hsb (by simp)
          rw [if_neg ?hbl, if_pos ?hci, if_pos ?hda]
          case hbl =>
            rw [hfs, isBlankL_spaces ind '-' (' ' :: ts) (by decide)]
            simp
          case hci =>
            rw [hfs, countIndent_spaces ind '-' (' ' :: ts) (by decide)]
          case hda =>
            rw [hfs, stripIndent_spaces ind '-' (' ' :: ts) (by decide)]
            simp [isDashC]
          have hseq := (ih g (by omega)).2.1 (x :: xs) [] ind fs rs tail
            (by rw [hveq] at hwv; have e : yweight (Value.seq (x :: xs)) = 1 + yweightL (x :: xs) := rfl
                have := hwv.1
                rw [e] at this
                omega)
            (by rw [hveq] at hwfv; simpa [jsonWf] using hwfv.1)
            (by simp) hsb (yamlStop_seqStop ind tail hstop)
          simp only [hseq, List.nil_append]
          rw [← hveq, hins]
          obtain ⟨g', rfl⟩ : ∃ g', g = g' + 1 := ⟨g - 1, by have := yweight_pos v; omega⟩
          rw [yamlMapLoop_stop g' (acc ++ [(k, v)]) tail ind hstop]
        · -- block mapping value
          have hfc : f = c1 :: (t1 ++ [':']) := by
            rw [hfe, hkS, List.cons_append]
          rw [hfc, hre]
          rw [show ((spacesL (ind + 2) ++ fm) :: rm) ++ tail
              = (spacesL (ind + 2) ++ fm) :: (rm ++ tail) from rfl]
          rw [yml_step g acc ind c1 (t1 ++ [':']) ((spacesL (ind + 2) ++ fm) :: (rm ++ tail)) hc1]
          have hks2 : keySplit (c1 :: (t1 ++ [':'])) = some (k, []) := by
            rw [show (c1 :: (t1 ++ [':']) : List Char) = (c1 :: t1) ++ ':' :: [] from by simp]
            rw [← hkS]
            exact keySplit_repr k kS [] hkrep
          simp only [hks2]
          obtain ⟨kS2, rest2, k2, hk2, hfm⟩ :=
            yamlMapBlock_shape (q :: qs) (ind + 2) fm rm hmb2 (by simp)
          obtain ⟨c2, t2, hkS2, hc2, _, _, _⟩ := yamlStrRepr_head k2 kS2 hk2
          have hfm2 : fm = c2 :: (t2 ++ rest2) := by
            rw [hfm, hkS2, List.cons_append]
          rw [if_neg ?hbl, if_neg ?hci, if_pos ?hlt]
          case hbl =>
            rw [hfm2, isBlankL_spaces (ind + 2) c2 (t2 ++ rest2) hc2]
            simp
          case hci =>
            rw [hfm2, countIndent_spaces (ind + 2) c2 (t2 ++ rest2) hc2]
            omega
          case hlt =>
            rw [hfm2, countIndent_spaces (ind + 2) c2 (t2 ++ rest2) hc2]
            omega
          rw [show countIndent ((spacesL (ind + 2) ++ fm)) = ind + 2 from by
            rw [hfm2]
            exact countIndent_spaces (ind + 2) c2 (t2 ++ rest2) hc2]
          have hnode := (ih g (by omega)).1 v (ind + 2) fm rm tail
            hwv.1 hwfv.1
            (by rw [hveq]; simpa [yamlNodeBlock] using hmb2)
            (yamlStop_mono ind (ind + 2) tail (by omega) hstop)
          simp only [hnode]
          rw [hins]
          obtain ⟨g', rfl⟩ : ∃ g', g = g' + 1 := ⟨g - 1, by have := yweight_pos v; omega⟩
          rw [yamlMapLoop_stop g' (acc ++ [(k, v)]) tail ind hstop]
    | cons p2e ps'' =>
        cases he : yamlEntryBlock k v ind with
        | none => simp [yamlMapBlock, he] at hmb
        | some pe1 =>
        obtain ⟨fe1, re1⟩ := pe1
        cases hm2 : yamlMapBlock (p2e :: ps'') ind with
        | none => simp [yamlMapBlock, he, hm2] at hmb
        | some pe2 =>
            obtain ⟨fe2, re2⟩ := pe2
            simp only [yamlMapBlock, he, hm2, Option.some.injEq, Prod.mk.injEq] at hmb
            obtain ⟨hfe0, hre0⟩ := hmb
            obtain ⟨kS, hkrep, hcls⟩ := yamlEntryBlock_classify k v ind fe1 re1 (by rw [he])
            obtain ⟨c1, t1, hkS, hc1, hc1d, _, _⟩ := yamlStrRepr_head k kS hkrep
            obtain ⟨kS2, rest2, k2, hk2, hfm⟩ :=
              yamlMapBlock_shape (p2e :: ps'') ind fe2 re2 (by rw [hm2]) (by simp)
            obtain ⟨c2, t2, hkS2, hc2, hc2d, _, _⟩ := yamlStrRepr_head k2 kS2 hk2
            have hfm2 : fe2 = c2 :: (t2 ++ rest2) := by
              rw [hfm, hkS2, List.cons_append]
            have hCONT : yamlStop ind ((spacesL ind ++ fe2) :: (re2 ++ tail)) → False := by
              intro hcon
              rcases hcon with hcon | ⟨l2, r2, heq, hl2⟩
              · exact List.noConfusion hcon
              · injection heq with he1 he2
                rcases hl2 with hb | hi
                · rw [← he1, hfm2, isBlankL_spaces ind c2 (t2 ++ rest2) hc2] at hb
                  exact Bool.noConfusion hb
                · rw [← he1, hfm2, countIndent_spaces ind c2 (t2 ++ rest2) hc2] at hi
                  omega
            have hCONTseq : yamlSeqStop ind ((spacesL ind ++ fe2) :: (re2 ++ tail)) := by
              refine Or.inr ⟨_, _, rfl, Or.inr (Or.inr ⟨?_, ?_⟩)⟩
              · rw [hfm2]
                exact countIndent_spaces ind c2 (t2 ++ rest2) hc2
              · rw [hfm2, stripIndent_spaces ind c2 (t2 ++ rest2) hc2]
                simp [isDashC, hc2d]
            have hCONTnode : yamlStop (ind + 2) ((spacesL ind ++ fe2) :: (re2 ++ tail)) := by
              refine Or.inr ⟨_, _, rfl, Or.inr ?_⟩
              rw [hfm2, countIndent_spaces ind c2 (t2 ++ rest2) hc2]
              omega
            have hrecnext := (ih g (by omega)).2.2 (p2e :: ps'') (acc ++ [(k, v)]) ind
              fe2 re2 tail hwv.2 hwfv.2 (by simp) hdist' (by rw [hm2]) hstop
            rcases hcls with ⟨vS, hvrep, hfe, hre⟩ | ⟨x, xs, fs, rs, hveq, hsb, hfe, hre⟩ |
              ⟨q, qs, fm, rm, hveq, hmb2, hfe, hre⟩
            · -- inline scalar entry, then the remaining entries
              have hfc : fe1 = c1 :: (t1 ++ (':' :: ' ' :: vS)) := by
                rw [hfe, hkS, List.cons_append]
              rw [← hfe0, ← hre0, hfc, hre, List.nil_append]
              rw [show ((spacesL ind ++ fe2) :: re2) ++ tail
                  = (spacesL ind ++ fe2) :: (re2 ++ tail) from rfl]
              rw [yml_step g acc ind c1 (t1 ++ (':' :: ' ' :: vS))
                ((spacesL ind ++ fe2) :: (re2 ++ tail)) hc1]
              have hks2 : keySplit (c1 :: (t1 ++ (':' :: ' ' :: vS))) = some (k, ' ' :: vS) := by
                rw [show (c1 :: (t1 ++ (':' :: ' ' :: vS)) : List Char)
                    = (c1 :: t1) ++ ':' :: (' ' :: vS) from by simp]
                rw [← hkS]
                exact keySplit_repr k kS (' ' :: vS) hkrep
              simp only [hks2]
              rw [if_pos (by trivial), parseScalarToken_repr v vS hvrep]
              show yamlMapLoop g (pyInsert acc k v)
                  ((spacesL ind ++ fe2) :: (re2 ++ tail)) ind
                = Except.ok (Value.map (acc ++ (k, v) :: p2e :: ps''), tail)
              rw [hins, hrecnext]
              simp
            · -- block sequence value, then the remaining entries
              have hfc : fe1 = c1 :: (t1 ++ [':']) := by
                rw [hfe, hkS, List.cons_append]
              rw [← hfe0, ← hre0, hfc, hre]
              rw [show (((spacesL ind ++ fs) :: rs) ++ (spacesL ind ++ fe2) :: re2) ++ tail
                  = (spacesL ind ++ fs) :: (rs ++ ((spacesL ind ++ fe2) :: (re2 ++ tail)))
                  from by simp [List.append_assoc]]
              rw [yml_step g acc ind c1 (t1 ++ [':'])
                ((spacesL ind ++ fs) :: (rs ++ ((spacesL ind ++ fe2) :: (re2 ++ tail)))) hc1]
              have hks2 : keySplit (c1 :: (t1 ++ [':'])) = some (k, []) := by
                rw [show (c1 :: (t1 ++ [':']) : List Char) = (c1 :: t1) ++ ':' :: [] from by simp]
                rw [← hkS]
                exact keySplit_repr k kS [] hkrep
              simp only [hks2]
              obtain ⟨ts, hfs⟩ := yamlSeqBlock_shape (x :: xs) ind fs rs hsb (by simp)
              rw [if_neg ?hbl2, if_pos ?hci2, if_pos ?hda2]
              case hbl2 =>
                rw [hfs, isBlankL_spaces ind '-' (' ' :: ts) (by decide)]
                simp
              case hci2 =>
                rw [hfs, countIndent_spaces ind '-' (' ' :: ts) (by decide)]
              case hda2 =>
                rw [hfs, stripIndent_spaces ind '-' (' ' :: ts) (by decide)]
                simp [isDashC]
              have hseq := (ih g (by omega)).2.1 (x :: xs) [] ind fs rs
                ((spacesL ind ++ fe2) :: (re2 ++ tail))
                (by rw [hveq] at hwv
                    have e : yweight (Value.seq (x :: xs)) = 1 + yweightL (x :: xs) := rfl
                    have := hwv.1
                    rw [e] at this
                    omega)
                (by rw [hveq] at hwfv; simpa [jsonWf] using hwfv.1)
                (by simp) hsb hCONTseq
              simp only [hseq, List.nil_append]
              rw [← hveq, hins, hrecnext]
              simp
            · -- block mapping value, then the remaining entries
              have hfc : fe1 = c1 :: (t1 ++ [':']) := by
                rw [hfe, hkS, List.cons_append]
              rw [← hfe0, ← hre0, hfc, hre]
              rw [show (((spacesL (ind + 2) ++ fm) :: rm) ++ (spacesL ind ++ fe2) :: re2) ++ tail
                  = (spacesL (ind + 2) ++ fm) :: (rm ++ ((spacesL ind ++ fe2) :: (re2 ++ tail)))
                  from by simp [List.append_assoc]]
              rw [yml_step g acc ind c1 (t1 ++ [':'])
                ((spacesL (ind + 2) ++ fm) :: (rm ++ ((spacesL ind ++ fe2) :: (re2 ++ tail)))) hc1]
              have hks2 : keySplit (c1 :: (t1 ++ [':'])) = some (k, []) := by
                rw [show (c1 :: (t1 ++ [':']) : List Char) = (c1 :: t1) ++ ':' :: [] from by simp]
                rw [← hkS]
                exact keySplit_repr k kS [] hkrep
              simp only [hks2]
              obtain ⟨kS3, rest3, k3, hk3, hfm3⟩ :=
                yamlMapBlock_shape (q :: qs) (ind + 2) fm rm hmb2 (by simp)
              obtain ⟨c3, t3, hkS3, hc3, _, _, _⟩ := yamlStrRepr_head k3 kS3 hk3
              have hfm4 : fm = c3 :: (t3 ++ rest3) := by
                rw [hfm3, hkS3, List.cons_append]
              rw [if_neg ?hbl3, if_neg ?hci3, if_pos ?hlt3]
              case hbl3 =>
                rw [hfm4, isBlankL_spaces (ind + 2) c3 (t3 ++ rest3) hc3]
                simp
              case hci3 =>
                rw [hfm4, countIndent_spaces (ind + 2) c3 (t3 ++ rest3) hc3]
                omega
              case hlt3 =>
                rw [hfm4, countIndent_spaces (ind + 2) c3 (t3 ++ rest3) hc3]
                omega
              rw [show countIndent ((spacesL (ind + 2) ++ fm)) = ind + 2 from by
                rw [hfm4]
                exact countIndent_spaces (ind + 2) c3 (t3 ++ rest3) hc3]
              have hnode := (ih g (by omega)).1 v (ind + 2) fm rm
                ((spacesL ind ++ fe2) :: (re2 ++ tail))
                hwv.1 hwfv.1
                (by rw [hveq]; simpa [yamlNodeBlock] using hmb2)
                hCONTnode
              simp only [hnode]
              rw [hins, hrecnext]
              simp

end DataConverter

namespace DataConverter

/-- Parser budget available for a block of emitted lines: each line's
characters plus two (its newline in the source text plus its entry in the
line count, both of which feed the loader's fuel). -/
def docCost : List (List Char) → Nat
  | [] => 0
  | l :: r => l.length + 2 + docCost r

theorem docCost_append (a b : List (List Char)) :
    docCost (a ++ b) = docCost a + docCost b := by
  induction a with
  | nil => simp [docCost]
  | cons l r ihd =>
      have e1 : docCost ((l :: r) ++ b) = l.length + 2 + docCost (r ++ b) := rfl
      have e2 : docCost (l :: r) = l.length + 2 + docCost r := rfl
      omega

theorem spacesL_length (n : Nat) : (spacesL n).length = n := by
  simp [spacesL]

/-- Scalar-rendered values weigh at most 2. -/
theorem yweight_scalarRepr (v : Value) (vS : List Char)
    (h : yamlScalarRepr v = some vS) : yweight v ≤ 2 := by
  cases v with
  | null => have e : yweight Value.null = 1 := rfl; omega
  | bool b => have e : yweight (Value.bool b) = 1 := rfl; omega
  | int n => have e : yweight (Value.int n) = 1 := rfl; omega
  | str s => have e : yweight (Value.str s) = 1 := rfl; omega
  | pyobj t a => simp [yamlScalarRepr] at h
  | seq xs =>
      cases xs with
      | nil => have e : yweight (Value.seq []) = 2 := rfl; omega
      | cons a b => simp [yamlScalarRepr] at h
  | map ps =>
      cases ps with
      | nil => have e : yweight (Value.map []) = 2 := rfl; omega
      | cons a b => simp [yamlScalarRepr] at h

/-- Emitted blocks carry at least their reparse weight in budget, by strong
induction on the weight: nodes fit their block, entries cost two beyond
their value, and sequence/mapping blocks keep one unit of slack. -/
theorem yweight_le_emit (n : Nat) :
    (∀ (v : Value) (ind : Nat) (f : List Char) (r : List (List Char)),
      yweight v ≤ n → yamlNodeBlock v ind = some (f, r) →
      yweight v ≤ docCost (f :: r)) ∧
    (∀ (k : String) (v : Value) (ind : Nat) (f : List Char) (r : List (List Char)),
      yweight v ≤ n → yamlEntryBlock k v ind = some (f, r) →
      2 + yweight v ≤ docCost (f :: r)) ∧
    (∀ (xs : List Value) (ind : Nat) (f : List Char) (r : List (List Char)),
      yweightL xs ≤ n → yamlSeqBlock xs ind = some (f, r) →
      1 + yweightL xs ≤ docCost (f :: r)) ∧
    (∀ (ps : List (String × Value)) (ind : Nat) (f : List Char) (r : List (List Char)),
      yweightP ps ≤ n → yamlMapBlock ps ind = some (f, r) →
      1 + yweightP ps ≤ docCost (f :: r)) := by
  induction n using Nat.strong_induction_on with
  | _ n ih =>
  refine ⟨?_, ?_, ?_, ?_⟩
  · -- nodes
    intro v ind f r hw hnb
    cases v with
    | null =>
        simp only [yamlNodeBlock, yamlScalarRepr, Option.map_some', Option.some.injEq,
          Prod.mk.injEq] at hnb
        obtain ⟨hf, hr⟩ := hnb
        have e : docCost (f :: r) = f.length + 2 + docCost r := rfl
        have e2 : yweight Value.null = 1 := rfl
        omega
    | bool b =>
        cases b <;>
        · simp only [yamlNodeBlock, yamlScalarRepr, Option.map_some', Option.some.injEq,
            Prod.mk.injEq] at hnb
          obtain ⟨hf, hr⟩ := hnb
          have e : docCost (f :: r) = f.length + 2 + docCost r := rfl
          first
          | (have e2 : yweight (Value.bool true) = 1 := rfl; omega)
          | (have e2 : yweight (Value.bool false) = 1 := rfl; omega)
    | int m =>
        simp only [yamlNodeBlock, yamlScalarRepr, Option.map_some', Option.some.injEq,
          Prod.mk.injEq] at hnb
        obtain ⟨hf, hr⟩ := hnb
        have e : docCost (f :: r) = f.length + 2 + docCost r := rfl
        have e2 : yweight (Value.int m) = 1 := rfl
        omega
    | str s =>
        simp only [yamlNodeBlock] at hnb
        cases hs : yamlStrRepr s with
        | none => rw [show yamlScalarRepr (Value.str s) = yamlStrRepr s from rfl, hs] at hnb
                  exact absurd hnb (by simp)
        | some vS =>
            rw [show yamlScalarRepr (Value.str s) = yamlStrRepr s from rfl, hs] at hnb
            simp only [Option.map_some', Option.some.injEq, Prod.mk.injEq] at hnb
            obtain ⟨hf, hr⟩ := hnb
            have e : docCost (f :: r) = f.length + 2 + docCost r := rfl
            have e2 : yweight (Value.str s) = 1 := rfl
            omega
    | pyobj t a => simp [yamlNodeBlock, yamlScalarRepr] at hnb
    | seq xs =>
        cases xs with
        | nil =>
            simp only [yamlNodeBlock, yamlScalarRepr, Option.map_some', Option.some.injEq,
              Prod.mk.injEq] at hnb
            obtain ⟨hf, hr⟩ := hnb
            have e : docCost (f :: r) = f.length + 2 + docCost r := rfl
            have e2 : yweight (Value.seq []) = 2 := rfl
            omega
        | cons x xs' =>
            simp only [yamlNodeBlock] at hnb
            have e : yweight (Value.seq (x :: xs')) = 1 + yweightL (x :: xs') := rfl
            have hb := (ih (n - 1) (by have := yweightL_pos (x :: xs'); omega)).2.2.1
              (x :: xs') ind f r (by omega) hnb
            omega
    | map ps =>
        cases ps with
        | nil =>
            simp only [yamlNodeBlock, yamlScalarRepr, Option.map_some', Option.some.injEq,
              Prod.mk.injEq] at hnb
            obtain ⟨hf, hr⟩ := hnb
            have e : docCost (f :: r) = f.length + 2 + docCost r := rfl
            have e2 : yweight (Value.map []) = 2 := rfl
            omega
        | cons p ps' =>
            simp only [yamlNodeBlock] at hnb
            have e : yweight (Value.map (p :: ps')) = 1 + yweightP (p :: ps') := rfl
            have hb := (ih (n - 1) (by have := yweightP_pos (p :: ps'); omega)).2.2.2
              (p :: ps') ind f r (by omega) hnb
            omega
  · -- entries
    intro k v ind f r hw heb
    obtain ⟨kS, hkrep, hcls⟩ := yamlEntryBlock_classify k v ind f r heb
    rcases hcls with ⟨vS, hvrep, hfe, hre⟩ | ⟨x, xs, fs, rs, hveq, hsb, hfe, hre⟩ |
      ⟨q, qs, fm, rm, hveq, hmb2, hfe, hre⟩
    · subst hfe; subst hre
      have hv2 := yweight_scalarRepr v vS hvrep
      have e : docCost ((kS ++ ':' :: ' ' :: vS) :: ([] : List (List Char)))
          = (kS ++ ':' :: ' ' :: vS).length + 2 + 0 := rfl
      have e2 : (kS ++ ':' :: ' ' :: vS).length = kS.length + 2 + vS.length := by
        simp
        omega
      omega
    · subst hveq; subst hfe; subst hre
      have e : yweight (Value.seq (x :: xs)) = 1 + yweightL (x :: xs) := rfl
      have hb := (ih (n - 1) (by have := yweightL_pos (x :: xs); omega)).2.2.1
        (x :: xs) ind fs rs (by omega) hsb
      have e2 : docCost ((kS ++ [':']) :: (spacesL ind ++ fs) :: rs)
          = (kS ++ [':']).length + 2 + ((spacesL ind ++ fs).length + 2 + docCost rs) := rfl
      have e3 : (spacesL ind ++ fs).length = ind + fs.length := by simp [spacesL]
      have e4 : docCost (fs :: rs) = fs.length + 2 + docCost rs := rfl
      omega
    · subst hveq; subst hfe; subst hre
      have e : yweight (Value.map (q :: qs)) = 1 + yweightP (q :: qs) := rfl
      have hb := (ih (n - 1) (by have := yweightP_pos (q :: qs); omega)).2.2.2
        (q :: qs) (ind + 2) fm rm (by omega) hmb2
      have e2 : docCost ((kS ++ [':']) :: (spacesL (ind + 2) ++ fm) :: rm)
          = (kS ++ [':']).length + 2 + ((spacesL (ind + 2) ++ fm).length + 2 + docCost rm) := rfl
      have e3 : (spacesL (ind + 2) ++ fm).length = ind + 2 + fm.length := by simp [spacesL]
      have e4 : docCost (fm :: rm) = fm.length + 2 + docCost rm := rfl
      omega
  · -- sequence blocks
    intro xs ind f r hw hsb
    cases xs with
    | nil => simp [yamlSeqBlock] at hsb
    | cons x xs' =>
    cases xs' with
    | nil =>
        have hib : yamlItemBlock x ind = some (f, r) := by
          simpa [yamlSeqBlock] using hsb
        rw [yamlItemBlock_eq_node] at hib
        cases hn : yamlNodeBlock x (ind + 2) with
        | none => rw [hn] at hib; exact absurd hib (by simp)
        | some pn =>
            obtain ⟨fn, rn⟩ := pn
            rw [hn] at hib
            simp only [Option.map_some', Option.some.injEq, Prod.mk.injEq] at hib
            obtain ⟨hf, hr⟩ := hib
            subst hf; subst hr
            have e : yweightL [x] = 1 + max (yweight x) (yweightL []) := rfl
            have e0 : yweightL ([] : List Value) = 1 := rfl
            have hb := (ih (n - 1) (by have := yweight_pos x; omega)).1
              x (ind + 2) fn rn (by omega) hn
            have e2 : docCost (fn :: rn) = fn.length + 2 + docCost rn := rfl
            have e3 : docCost (('-' :: ' ' :: fn) :: rn)
                = fn.length + 2 + 2 + docCost rn := by
              have : ('-' :: ' ' :: fn).length = fn.length + 2 := by simp
              have e5 : docCost (('-' :: ' ' :: fn) :: rn)
                  = ('-' :: ' ' :: fn).length + 2 + docCost rn := rfl
              omega
            omega
    | cons y ys =>
        cases hi : yamlItemBlock x ind with
        | none => simp [yamlSeqBlock, hi] at hsb
        | some p1 =>
        obtain ⟨f1, r1⟩ := p1
        cases h2 : yamlSeqBlock (y :: ys) ind with
        | none => simp [yamlSeqBlock, hi, h2] at hsb
        | some p2 =>
            obtain ⟨f2, r2⟩ := p2
            simp only [yamlSeqBlock, hi, h2, Option.some.injEq, Prod.mk.injEq] at hsb
            obtain ⟨hf, hr⟩ := hsb
            rw [yamlItemBlock_eq_node] at hi
            cases hn : yamlNodeBlock x (ind + 2) with
            | none => rw [hn] at hi; exact absurd hi (by simp)
            | some pn =>
                obtain ⟨fn, rn⟩ := pn
                rw [hn] at hi
                simp only [Option.map_some', Option.some.injEq, Prod.mk.injEq] at hi
                obtain ⟨hp1, hp2⟩ := hi
                have e : yweightL (x :: y :: ys)
                    = 1 + max (yweight x) (yweightL (y :: ys)) := rfl
                have hgt : 1 ≤ yweight x ∧ 1 ≤ yweightL (y :: ys) :=
                  ⟨yweight_pos x, yweightL_pos (y :: ys)⟩
                have hbx := (ih (n - 1) (by omega)).1
                  x (ind + 2) fn rn (by omega) hn
                have hby := (ih (n - 1) (by omega)).2.2.1
                  (y :: ys) ind f2 r2 (by omega) h2
                have e2 : docCost (fn :: rn) = fn.length + 2 + docCost rn := rfl
                have e3 : docCost (f2 :: r2) = f2.length + 2 + docCost r2 := rfl
                have e4 : docCost (f :: r) = f.length + 2 + docCost r := rfl
                have e5 : f.length = fn.length + 2 := by rw [← hf, ← hp1]; simp
                have e6 : docCost r
                    = docCost r1 + ((spacesL ind ++ f2).length + 2 + docCost r2) := by
                  rw [← hr, docCost_append]
                  have e7 : docCost ((spacesL ind ++ f2) :: r2)
                      = (spacesL ind ++ f2).length + 2 + docCost r2 := rfl
                  omega
                have e8 : (spacesL ind ++ f2).length = ind + f2.length := by simp [spacesL]
                have e9 : docCost rn = docCost r1 := by rw [hp2]
                omega
  · -- mapping blocks
    intro ps ind f r hw hmb
    cases ps with
    | nil => simp [yamlMapBlock] at hmb
    | cons p ps' =>
    obtain ⟨k, v⟩ := p
    cases ps' with
    | nil =>
        have heb : yamlEntryBlock k v ind = some (f, r) := by
          simpa [yamlMapBlock] using hmb
        have e : yweightP [(k, v)] = 1 + max (yweight v) (yweightP []) := rfl
        have e0 : yweightP ([] : List (String × Value)) = 1 := rfl
        have hb := (ih (n - 1) (by have := yweight_pos v; omega)).2.1
          k v ind f r (by omega) heb
        have e3 : docCost (f :: r) = f.length + 2 + docCost r := rfl
        have := yweight_pos v
        omega
    | cons q qs =>
        cases he : yamlEntryBlock k v ind with
        | none => simp [yamlMapBlock, he] at hmb
        | some p1 =>
        obtain ⟨f1, r1⟩ := p1
        cases h2 : yamlMapBlock (q :: qs) ind with
        | none => simp [yamlMapBlock, he, h2] at hmb
        | some p2 =>
            obtain ⟨f2, r2⟩ := p2
            simp only [yamlMapBlock, he, h2, Option.some.injEq, Prod.mk.injEq] at hmb
            obtain ⟨hf, hr⟩ := hmb
            have e : yweightP ((k, v) :: q :: qs)
                = 1 + max (yweight v) (yweightP (q :: qs)) := rfl
            have hgt : 1 ≤ yweight v ∧ 1 ≤ yweightP (q :: qs) :=
              ⟨yweight_pos v, yweightP_pos (q :: qs)⟩
            have hbe := (ih (n - 1) (by omega)).2.1 k v ind f1 r1 (by omega) he
            have hbm := (ih (n - 1) (by omega)).2.2.2 (q :: qs) ind f2 r2 (by omega) h2
            have e2 : docCost (f1 :: r1) = f1.length + 2 + docCost r1 := rfl
            have e3 : docCost (f2 :: r2) = f2.length + 2 + docCost r2 := rfl
            have e4 : docCost (f :: r) = f.length + 2 + docCost r := rfl
            have e5 : f.length = f1.length := by rw [← hf]
            have e6 : docCost r
                = docCost r1 + ((spacesL ind ++ f2).length + 2 + docCost r2) := by
              rw [← hr, docCost_append]
              have e7 : docCost ((spacesL ind ++ f2) :: r2)
                  = (spacesL ind ++ f2).length + 2 + docCost r2 := rfl
              omega
            have e8 : (spacesL ind ++ f2).length = ind + f2.length := by simp [spacesL]
            omega

end DataConverter

namespace DataConverter

/-- No newline appears on any of the lines. -/
def noNLs (ls : List (List Char)) : Prop := ∀ l ∈ ls, ∀ c ∈ l, c ≠ '\n'

theorem mem_sqEscape (c : Char) (l : List Char) (h : c ∈ sqEscape l) :
    c ∈ l ∨ c = '\'' := by
  induction l with
  | nil => simp [sqEscape] at h
  | cons d t ih =>
      by_cases hd : d = '\''
      · rw [show sqEscape (d :: t) = '\'' :: '\'' :: sqEscape t from by
          simp [sqEscape, hd]] at h
        rcases List.mem_cons.mp h with rfl | h2
        · exact Or.inr rfl
        · rcases List.mem_cons.mp h2 with rfl | h3
          · exact Or.inr rfl
          · rcases ih h3 with hm | hq
            · exact Or.inl (List.mem_cons_of_mem d hm)
            · exact Or.inr hq
      · rw [show sqEscape (d :: t) = d :: sqEscape t from by simp [sqEscape, hd]] at h
        rcases List.mem_cons.mp h with rfl | h2
        · exact Or.inl (List.mem_cons_self c t)
        · rcases ih h2 with hm | hq
          · exact Or.inl (List.mem_cons_of_mem d hm)
          · exact Or.inr hq

theorem isDigit_ne_nl (c : Char) (h : isDigit c = true) : c ≠ '\n' := by
  simp only [isDigit, Bool.and_eq_true, decide_eq_true_eq] at h
  exact char_ne_of_toNat _ _ (by show c.toNat ≠ 10; omega)

theorem natRepr_no_nl (m : Nat) : ∀ c ∈ natRepr m, c ≠ '\n' := by
  rcases Nat.eq_zero_or_pos m with rfl | hm
  · intro c hc
    rw [natRepr_zero] at hc
    simp at hc
    subst hc
    decide
  · obtain ⟨c0, ds, he, hd0, _, hds, _⟩ := natRepr_pos_decomp m hm
    intro c hc
    rw [he] at hc
    rcases List.mem_cons.mp hc with rfl | h2
    · exact isDigit_ne_nl c hd0
    · exact isDigit_ne_nl c (hds c h2)

theorem intRepr_no_nl (i : Int) : ∀ c ∈ intRepr i, c ≠ '\n' := by
  intro c hc
  unfold intRepr at hc
  by_cases hneg : i < 0
  · rw [if_pos hneg] at hc
    rcases List.mem_cons.mp hc with rfl | h2
    · decide
    · exact natRepr_no_nl i.natAbs c h2
  · rw [if_neg hneg] at hc
    exact natRepr_no_nl i.natAbs c hc

theorem yamlStrRepr_no_nl (s : String) (kS : List Char)
    (h : yamlStrRepr s = some kS) : ∀ c ∈ kS, c ≠ '\n' := by
  intro c hc
  rcases yamlStrRepr_cases s kS h with ⟨hp, rfl⟩ | ⟨hs, rfl⟩
  · exact (plainOk_chars s hp c hc).2.2.2
  · rcases List.mem_cons.mp hc with rfl | h2
    · decide
    · rcases List.mem_append.mp h2 with h3 | h4
      · rcases mem_sqEscape c s.data h3 with hm | rfl
        · have := singleOk_all s hs
          rw [List.all_eq_true] at this
          exact (printableNoSpace_facts c (by simpa using this c hm)).2
        · decide
      · simp at h4
        subst h4
        decide

theorem yamlScalarRepr_no_nl (v : Value) (vS : List Char)
    (h : yamlScalarRepr v = some vS) : ∀ c ∈ vS, c ≠ '\n' := by
  cases v with
  | null =>
      have : vS = "null".data := by simpa [yamlScalarRepr] using h.symm
      subst this; intro c hc; fin_cases hc <;> decide
  | bool b =>
      cases b with
      | true =>
          have : vS = "true".data := by simpa [yamlScalarRepr] using h.symm
          subst this; intro c hc; fin_cases hc <;> decide
      | false =>
          have : vS = "false".data := by simpa [yamlScalarRepr] using h.symm
          subst this; intro c hc; fin_cases hc <;> decide
  | int m =>
      have : vS = intRepr m := by simpa [yamlScalarRepr] using h.symm
      subst this; exact intRepr_no_nl m
  | str s => exact yamlStrRepr_no_nl s vS h
  | pyobj t a => simp [yamlScalarRepr] at h
  | seq xs =>
      cases xs with
      | nil =>
          have : vS = "[]".data := by simpa [yamlScalarRepr] using h.symm
          subst this; intro c hc; fin_cases hc <;> decide
      | cons a b => simp [yamlScalarRepr] at h
  | map ps =>
      cases ps with
      | nil =>
          have : vS = "{}".data := by simpa [yamlScalarRepr] using h.symm
          subst this; intro c hc; fin_cases hc <;> decide
      | cons a b => simp [yamlScalarRepr] at h

theorem spacesL_no_nl (n : Nat) : ∀ c ∈ spacesL n, c ≠ '\n' := by
  intro c hc
  rw [spacesL, List.mem_replicate] at hc
  rw [hc.2]
  decide

/-- No emitted block contains a newline character, by strong induction on the
weight. -/
theorem emit_no_nl (n : Nat) :
    (∀ (v : Value) (ind : Nat) (f : List Char) (r : List (List Char)),
      yweight v ≤ n → yamlNodeBlock v ind = some (f, r) → noNLs (f :: r)) ∧
    (∀ (k : String) (v : Value) (ind : Nat) (f : List Char) (r : List (List Char)),
      yweight v ≤ n → yamlEntryBlock k v ind = some (f, r) → noNLs (f :: r)) ∧
    (∀ (xs : List Value) (ind : Nat) (f : List Char) (r : List (List Char)),
      yweightL xs ≤ n → yamlSeqBlock xs ind = some (f, r) → noNLs (f :: r)) ∧
    (∀ (ps : List (String × Value)) (ind : Nat) (f : List Char) (r : List (List Char)),
      yweightP ps ≤ n → yamlMapBlock ps ind = some (f, r) → noNLs (f :: r)) := by
  induction n using Nat.strong_induction_on with
  | _ n ih =>
  refine ⟨?_, ?_, ?_, ?_⟩
  · -- nodes
    intro v ind f r hw hnb
    cases hveq : v with
    | seq xs =>
        cases xs with
        | cons x xs' =>
            subst hveq
            simp only [yamlNodeBlock] at hnb
            have e : yweight (Value.seq (x :: xs')) = 1 + yweightL (x :: xs') := rfl
            exact (ih (n - 1) (by have := yweightL_pos (x :: xs'); omega)).2.2.1
              (x :: xs') ind f r (by omega) hnb
        | nil =>
            subst hveq
            simp only [yamlNodeBlock, yamlScalarRepr, Option.map_some', Option.some.injEq,
              Prod.mk.injEq] at hnb
            intro l hl c hc
            rw [← hnb.1, ← hnb.2] at hl
            rcases List.mem_cons.mp hl with rfl | h2
            · fin_cases hc <;> decide
            · simp at h2
    | map ps =>
        cases ps with
        | cons p ps' =>
            subst hveq
            simp only [yamlNodeBlock] at hnb
            have e : yweight (Value.map (p :: ps')) = 1 + yweightP (p :: ps') := rfl
            exact (ih (n - 1) (by have := yweightP_pos (p :: ps'); omega)).2.2.2
              (p :: ps') ind f r (by omega) hnb
        | nil =>
            subst hveq
            simp only [yamlNodeBlock, yamlScalarRepr, Option.map_some', Option.some.injEq,
              Prod.mk.injEq] at hnb
            intro l hl c hc
            rw [← hnb.1, ← hnb.2] at hl
            rcases List.mem_cons.mp hl with rfl | h2
            · fin_cases hc <;> decide
            · simp at h2
    | null =>
        subst hveq
        simp only [yamlNodeBlock, yamlScalarRepr, Option.map_some', Option.some.injEq,
          Prod.mk.injEq] at hnb
        intro l hl c hc
        rw [← hnb.1, ← hnb.2] at hl
        rcases List.mem_cons.mp hl with rfl | h2
        · fin_cases hc <;> decide
        · simp at h2
    | bool b =>
        subst hveq
        cases hs : yamlScalarRepr (Value.bool b) with
        | none => simp [yamlNodeBlock, hs] at hnb
        | some vS =>
            simp only [yamlNodeBlock, hs, Option.map_some', Option.some.injEq,
              Prod.mk.injEq] at hnb
            intro l hl c hc
            rw [← hnb.1, ← hnb.2] at hl
            rcases List.mem_cons.mp hl with rfl | h2
            · exact yamlScalarRepr_no_nl (Value.bool b) _ hs c hc
            · simp at h2
    | int m =>
        subst hveq
        cases hs : yamlScalarRepr (Value.int m) with
        | none => simp [yamlNodeBlock, hs] at hnb
        | some vS =>
            simp only [yamlNodeBlock, hs, Option.map_some', Option.some.injEq,
              Prod.mk.injEq] at hnb
            intro l hl c hc
            rw [← hnb.1, ← hnb.2] at hl
            rcases List.mem_cons.mp hl with rfl | h2
            · exact yamlScalarRepr_no_nl (Value.int m) _ hs c hc
            · simp at h2
    | str s =>
        subst hveq
        cases hs : yamlScalarRepr (Value.str s) with
        | none => simp [yamlNodeBlock, hs] at hnb
        | some vS =>
            simp only [yamlNodeBlock, hs, Option.map_some', Option.some.injEq,
              Prod.mk.injEq] at hnb
            intro l hl c hc
            rw [← hnb.1, ← hnb.2] at hl
            rcases List.mem_cons.mp hl with rfl | h2
            · exact yamlScalarRepr_no_nl (Value.str s) _ hs c hc
            · simp at h2
    | pyobj t a =>
        subst hveq
        simp [yamlNodeBlock, yamlScalarRepr] at hnb
  · -- entries
    intro k v ind f r hw heb
    obtain ⟨kS, hkrep, hcls⟩ := yamlEntryBlock_classify k v ind f r heb
    have hkno := yamlStrRepr_no_nl k kS hkrep
    rcases hcls with ⟨vS, hvrep, hfe, hre⟩ | ⟨x, xs, fs, rs, hveq, hsb, hfe, hre⟩ |
      ⟨q, qs, fm, rm, hveq, hmb2, hfe, hre⟩
    · subst hfe; subst hre
      have hvno := yamlScalarRepr_no_nl v vS hvrep
      intro l hl c hc
      rcases List.mem_cons.mp hl with rfl | h2
      · rcases List.mem_append.mp hc with h3 | h4
        · exact hkno c h3
        · rcases List.mem_cons.mp h4 with rfl | h5
          · decide
          · rcases List.mem_cons.mp h5 with rfl | h6
            · decide
            · exact hvno c h6
      · simp at h2
    · subst hveq; subst hfe; subst hre
      have e : yweight (Value.seq (x :: xs)) = 1 + yweightL (x :: xs) := rfl
      have hrec := (ih (n - 1) (by have := yweightL_pos (x :: xs); omega)).2.2.1
        (x :: xs) ind fs rs (by omega) hsb
      intro l hl c hc
      rcases List.mem_cons.mp hl with rfl | h2
      · rcases List.mem_append.mp hc with h3 | h4
        · exact hkno c h3
        · simp at h4; subst h4; decide
      · rcases List.mem_cons.mp h2 with rfl | h5
        · rcases List.mem_append.mp hc with h3 | h4
          · exact spacesL_no_nl ind c h3
          · exact hrec fs (List.mem_cons_self fs rs) c h4
        · exact hrec l (List.mem_cons_of_mem fs h5) c hc
    · subst hveq; subst hfe; subst hre
      have e : yweight (Value.map (q :: qs)) = 1 + yweightP (q :: qs) := rfl
      have hrec := (ih (n - 1) (by have := yweightP_pos (q :: qs); omega)).2.2.2
        (q :: qs) (ind + 2) fm rm (by omega) hmb2
      intro l hl c hc
      rcases List.mem_cons.mp hl with rfl | h2
      · rcases List.mem_append.mp hc with h3 | h4
        · exact hkno c h3
        · simp at h4; subst h4; decide
      · rcases List.mem_cons.mp h2 with rfl | h5
        · rcases List.mem_append.mp hc with h3 | h4
          · exact spacesL_no_nl (ind + 2) c h3
          · exact hrec fm (List.mem_cons_self fm rm) c h4
        · exact hrec l (List.mem_cons_of_mem fm h5) c hc
  · -- sequence blocks
    intro xs ind f r hw hsb
    cases xs with
    | nil => simp [yamlSeqBlock] at hsb
    | cons x xs' =>
    cases xs' with
    | nil =>
        have hib : yamlItemBlock x ind = some (f, r) := by
          simpa [yamlSeqBlock] using hsb
        rw [yamlItemBlock_eq_node] at hib
        cases hn : yamlNodeBlock x (ind + 2) with
        | none => rw [hn] at hib; exact absurd hib (by simp)
        | some pn =>
            obtain ⟨fn, rn⟩ := pn
            rw [hn] at hib
            simp only [Option.map_some', Option.some.injEq, Prod.mk.injEq] at hib
            obtain ⟨hf, hr⟩ := hib
            subst hf; subst hr
            have e : yweightL [x] = 1 + max (yweight x) (yweightL []) := rfl
            have hrec := (ih (n - 1) (by have := yweight_pos x; omega)).1
              x (ind + 2) fn rn (by omega) hn
            intro l hl c hc
            rcases List.mem_cons.mp hl with rfl | h2
            · rcases List.mem_cons.mp hc with rfl | h3
              · decide
              · rcases List.mem_cons.mp h3 with rfl | h4
                · decide
                · exact hrec fn (List.mem_cons_self fn rn) c h4
            · exact hrec l (List.mem_cons_of_mem fn h2) c hc
    | cons y ys =>
        cases hi : yamlItemBlock x ind with
        | none => simp [yamlSeqBlock, hi] at hsb
        | some p1 =>
        obtain ⟨f1, r1⟩ := p1
        cases h2 : yamlSeqBlock (y :: ys) ind with
        | none => simp [yamlSeqBlock, hi, h2] at hsb
        | some p2 =>
            obtain ⟨f2, r2⟩ := p2
            simp only [yamlSeqBlock, hi, h2, Option.some.injEq, Prod.mk.injEq] at hsb
            obtain ⟨hf, hr⟩ := hsb
            subst hf; subst hr
            have e : yweightL (x :: y :: ys)
                = 1 + max (yweight x) (yweightL (y :: ys)) := rfl
            have hgt : 1 ≤ yweight x ∧ 1 ≤ yweightL (y :: ys) :=
              ⟨yweight_pos x, yweightL_pos (y :: ys)⟩
            have hx1 : noNLs (f1 :: r1) := by
              rw [yamlItemBlock_eq_node] at hi
              cases hn : yamlNodeBlock x (ind + 2) with
              | none => rw [hn] at hi; exact absurd hi (by simp)
              | some pn =>
                  obtain ⟨fn, rn⟩ := pn
                  rw [hn] at hi
                  simp only [Option.map_some', Option.some.injEq, Prod.mk.injEq] at hi
                  obtain ⟨hp1, hp2⟩ := hi
                  have hnode := (ih (n - 1) (by omega)).1 x (ind + 2) fn rn (by omega) hn
                  intro l hl c hc
                  rw [← hp1, ← hp2] at hl
                  rcases List.mem_cons.mp hl with rfl | h6
                  · rcases List.mem_cons.mp hc with rfl | h7
                    · decide
                    · rcases List.mem_cons.mp h7 with rfl | h8
                      · decide
                      · exact hnode fn (List.mem_cons_self fn rn) c h8
                  · exact hnode l (List.mem_cons_of_mem fn h6) c hc
            have hx2 := (ih (n - 1) (by omega)).2.2.1 (y :: ys) ind f2 r2 (by omega) h2
            intro l hl c hc
            rcases List.mem_cons.mp hl with rfl | h5
            · exact hx1 l (List.mem_cons_self l r1) c hc
            · rcases List.mem_append.mp h5 with h6 | h7
              · exact hx1 l (List.mem_cons_of_mem f1 h6) c hc
              · rcases List.mem_cons.mp h7 with rfl | h8
                · rcases List.mem_append.mp hc with h9 | h10
                  · exact spacesL_no_nl ind c h9
                  · exact hx2 f2 (List.mem_cons_self f2 r2) c h10
                · exact hx2 l (List.mem_cons_of_mem f2 h8) c hc
  · -- mapping blocks
    intro ps ind f r hw hmb
    cases ps with
    | nil => simp [yamlMapBlock] at hmb
    | cons p ps' =>
    obtain ⟨k, v⟩ := p
    cases ps' with
    | nil =>
        have heb : yamlEntryBlock k v ind = some (f, r) := by
          simpa [yamlMapBlock] using hmb
        have e : yweightP [(k, v)] = 1 + max (yweight v) (yweightP []) := rfl
        have e0 : yweightP ([] : List (String × Value)) = 1 := rfl
        exact (ih (n - 1) (by have := yweight_pos v; omega)).2.1
          k v ind f r (by omega) heb
    | cons q qs =>
        cases he : yamlEntryBlock k v ind with
        | none => simp [yamlMapBlock, he] at hmb
        | some p1 =>
        obtain ⟨f1, r1⟩ := p1
        cases h2 : yamlMapBlock (q :: qs) ind with
        | none => simp [yamlMapBlock, he, h2] at hmb
        | some p2 =>
            obtain ⟨f2, r2⟩ := p2
            simp only [yamlMapBlock, he, h2, Option.some.injEq, Prod.mk.injEq] at hmb
            obtain ⟨hf, hr⟩ := hmb
            subst hf; subst hr
            have e : yweightP ((k, v) :: q :: qs)
                = 1 + max (yweight v) (yweightP (q :: qs)) := rfl
            have hgt : 1 ≤ yweight v ∧ 1 ≤ yweightP (q :: qs) :=
              ⟨yweight_pos v, yweightP_pos (q :: qs)⟩
            have hx1 := (ih (n - 1) (by omega)).2.1 k v ind f1 r1 (by omega) he
            have hx2 := (ih (n - 1) (by omega)).2.2.2 (q :: qs) ind f2 r2 (by omega) h2
            intro l hl c hc
            rcases List.mem_cons.mp hl with rfl | h5
            · exact hx1 l (List.mem_cons_self l r1) c hc
            · rcases List.mem_append.mp h5 with h6 | h7
              · exact hx1 l (List.mem_cons_of_mem f1 h6) c hc
              · rcases List.mem_cons.mp h7 with rfl | h8
                · rcases List.mem_append.mp hc with h9 | h10
                  · exact spacesL_no_nl ind c h9
                  · exact hx2 f2 (List.mem_cons_self f2 r2) c h10
                · exact hx2 l (List.mem_cons_of_mem f2 h8) c hc

/-- Splitting after one newline-terminated newline-free line peels it off. -/
theorem splitOnChar_line (l rest : List Char) (h : '\n' ∉ l) :
    splitOnChar '\n' (l ++ '\n' :: rest) = l :: splitOnChar '\n' rest := by
  induction l with
  | nil => simp [splitOnChar]
  | cons c t ih =>
      have hc : c ≠ '\n' := fun hcn => h (hcn ▸ List.mem_cons_self c t)
      have ht : '\n' ∉ t := fun htm => h (List.mem_cons_of_mem c htm)
      rw [show ((c :: t) ++ '\n' :: rest : List Char) = c :: (t ++ '\n' :: rest) from rfl]
      rw [show splitOnChar '\n' (c :: (t ++ '\n' :: rest))
          = if c = '\n' then [] :: splitOnChar '\n' (t ++ '\n' :: rest)
            else match splitOnChar '\n' (t ++ '\n' :: rest) with
              | [] => [[c]]
              | h :: r => (c :: h) :: r from rfl]
      rw [if_neg hc, ih ht]

/-- Splitting the materialised document text recovers the lines, plus the
empty piece after the final newline. -/
theorem splitOnChar_linesText (ls : List (List Char)) (h : noNLs ls) :
    splitOnChar '\n' (linesText ls) = ls ++ [[]] := by
  induction ls with
  | nil => simp [linesText, splitOnChar]
  | cons l r ih =>
      rw [show linesText (l :: r) = l ++ '\n' :: linesText r from rfl]
      rw [splitOnChar_line l (linesText r) (fun hm => h l (List.mem_cons_self l r) '\n' hm rfl)]
      rw [ih (fun l2 hl2 => h l2 (List.mem_cons_of_mem l hl2))]
      rfl

/-- Character count of the materialised document, line count included, equals
the block budget. -/
theorem linesText_length (ls : List (List Char)) :
    (linesText ls).length + ls.length = docCost ls := by
  induction ls with
  | nil => simp [linesText, docCost]
  | cons l r ih =>
      have e1 : linesText (l :: r) = l ++ '\n' :: linesText r := rfl
      have e2 : docCost (l :: r) = l.length + 2 + docCost r := rfl
      rw [e1, e2]
      simp only [List.length_append, List.length_cons]
      omega

end DataConverter

namespace DataConverter

theorem distinctStrings_iff (l : List String) : distinctStrings l = true ↔ l.Nodup := by
  induction l with
  | nil => simp [distinctStrings]
  | cons s r ih =>
      rw [show distinctStrings (s :: r)
          = (!(r.any (fun t => t = s)) && distinctStrings r) from rfl]
      rw [Bool.and_eq_true, ih, List.nodup_cons]
      have hmem : (!(r.any (fun t => t = s))) = true ↔ s ∉ r := by
        rw [Bool.not_eq_true', ← Bool.not_eq_true, List.any_eq_true]
        simp [eq_comm]
      rw [hmem]

theorem jsonWfP_all (ps : List (String × Value)) :
    jsonWfP ps = true ↔ ∀ p ∈ ps, jsonWf p.2 = true := by
  induction ps with
  | nil => simp [jsonWfP]
  | cons p r ih =>
      obtain ⟨k, v⟩ := p
      rw [show jsonWfP ((k, v) :: r) = (jsonWf v && jsonWfP r) from rfl,
        Bool.and_eq_true, ih]
      constructor
      · rintro ⟨h1, h2⟩ q hq
        rcases List.mem_cons.mp hq with rfl | hq2
        · exact h1
        · exact h2 q hq2
      · intro h
        exact ⟨h (k, v) (List.mem_cons_self _ r), fun q hq => h q (List.mem_cons_of_mem _ hq)⟩

theorem sortMapsP_fst (ps : List (String × Value)) :
    (sortMapsP ps).map Prod.fst = ps.map Prod.fst := by
  induction ps with
  | nil => rfl
  | cons p r ih =>
      obtain ⟨k, v⟩ := p
      rw [show sortMapsP ((k, v) :: r) = (k, sortMapsRec v) :: sortMapsP r from rfl]
      simp [ih]

/-- Key sorting preserves the JSON-faithful invariant, by strong induction on
the weight. -/
theorem sortMapsRec_wf_rec (n : Nat) :
    (∀ v, jweight v ≤ n → jsonWf v = true → jsonWf (sortMapsRec v) = true) ∧
    (∀ xs, jweightL xs ≤ n → jsonWfL xs = true → jsonWfL (sortMapsL xs) = true) ∧
    (∀ ps, jweightP ps ≤ n → jsonWfP ps = true → jsonWfP (sortMapsP ps) = true) := by
  induction n using Nat.strong_induction_on with
  | _ n ih =>
  refine ⟨?_, ?_, ?_⟩
  · intro v hw hwf
    cases v with
    | null => exact hwf
    | bool b => exact hwf
    | int m => exact hwf
    | str s => exact hwf
    | pyobj t a => exact absurd hwf (by simp [jsonWf])
    | seq xs =>
        have e : jweight (Value.seq xs) = 1 + jweightL xs := rfl
        have hl : jsonWfL xs = true := hwf
        have hres := (ih (n - 1) (by have := jweightL_pos xs; omega)).2.1 xs (by omega) hl
        exact hres
    | map ps =>
        have e : jweight (Value.map ps) = 1 + jweightP ps := rfl
        rw [show jsonWf (Value.map ps)
            = (distinctStrings (List.map Prod.fst ps) && jsonWfP ps) from rfl,
          Bool.and_eq_true] at hwf
        obtain ⟨hd, hp⟩ := hwf
        have hwfP2 := (ih (n - 1) (by have := jweightP_pos ps; omega)).2.2 ps (by omega) hp
        have hperm : List.Perm (sortPairs (sortMapsP ps)) (sortMapsP ps) :=
          List.perm_insertionSort _ _
        show jsonWf (Value.map (sortPairs (sortMapsP ps))) = true
        rw [show jsonWf (Value.map (sortPairs (sortMapsP ps)))
            = (distinctStrings (List.map Prod.fst (sortPairs (sortMapsP ps))) &&
               jsonWfP (sortPairs (sortMapsP ps))) from rfl,
          Bool.and_eq_true]
        constructor
        · rw [distinctStrings_iff]
          have hpermf := hperm.map Prod.fst
          rw [hpermf.nodup_iff, sortMapsP_fst]
          exact (distinctStrings_iff _).mp hd
        · rw [jsonWfP_all]
          intro q hq
          exact (jsonWfP_all _).mp hwfP2 q (hperm.mem_iff.mp hq)
  · intro xs hw hwf
    cases xs with
    | nil => exact hwf
    | cons x r =>
        have e : jweightL (x :: r) = 1 + jweight x + jweightL r := rfl
        rw [show jsonWfL (x :: r) = (jsonWf x && jsonWfL r) from rfl,
          Bool.and_eq_true] at hwf
        have hps : 1 ≤ jweight x ∧ 1 ≤ jweightL r := ⟨jweight_pos x, jweightL_pos r⟩
        have hx := (ih (n - 1) (by omega)).1 x (by omega) hwf.1
        have hr := (ih (n - 1) (by omega)).2.1 r (by omega) hwf.2
        show jsonWfL (sortMapsRec x :: sortMapsL r) = true
        rw [show jsonWfL (sortMapsRec x :: sortMapsL r)
            = (jsonWf (sortMapsRec x) && jsonWfL (sortMapsL r)) from rfl,
          Bool.and_eq_true]
        exact ⟨hx, hr⟩
  · intro ps hw hwf
    cases ps with
    | nil => exact hwf
    | cons p r =>
        obtain ⟨k, v⟩ := p
        have e : jweightP ((k, v) :: r) = 1 + jweight v + jweightP r := rfl
        rw [show jsonWfP ((k, v) :: r) = (jsonWf v && jsonWfP r) from rfl,
          Bool.and_eq_true] at hwf
        have hps : 1 ≤ jweight v ∧ 1 ≤ jweightP r := ⟨jweight_pos v, jweightP_pos r⟩
        have hx := (ih (n - 1) (by omega)).1 v (by omega) hwf.1
        have hr := (ih (n - 1) (by omega)).2.2 r (by omega) hwf.2
        show jsonWfP ((k, sortMapsRec v) :: sortMapsP r) = true
        rw [show jsonWfP ((k, sortMapsRec v) :: sortMapsP r)
            = (jsonWf (sortMapsRec v) && jsonWfP (sortMapsP r)) from rfl,
          Bool.and_eq_true]
        exact ⟨hx, hr⟩

theorem jsonWf_sortMapsRec (v : Value) (h : jsonWf v = true) :
    jsonWf (sortMapsRec v) = true :=
  (sortMapsRec_wf_rec (jweight v)).1 v le_rfl h

end DataConverter

namespace DataConverter

theorem stripPrefixChars_head (a : Char) (p : List Char) (c : Char) (t : List Char)
    (h : c ≠ a) : stripPrefixChars (a :: p) (c :: t) = none := by
  simp [stripPrefixChars, h]

theorem hasPythonTag_head (c : Char) (t : List Char) (h : c ≠ '!') :
    hasPythonTag (c :: t) = false := by
  unfold hasPythonTag
  have e : "!!python/".data = '!' :: "!python/".data := by decide
  rw [e, stripPrefixChars_head '!' ("!python/".data) c t h]

theorem cons_ne_of_head (c d : Char) (t r : List Char) (h : c ≠ d) : c :: t ≠ d :: r := by
  intro he
  injection he with h1 _
  exact h h1

/-- Loading the materialised text of a well-shaped line block runs the node
parser on the lines and accepts its trailing lines. -/
theorem yaml_load_lines (w : Value) (f : List Char) (r rest3 : List (List Char))
    (c0 : Char) (t0 : List Char) (fuel : Nat)
    (hf : f = c0 :: t0) (hc0 : c0 ≠ ' ') (hc0d : c0 ≠ '.') (hc0e : c0 ≠ '!')
    (hnonl : noNLs (f :: r))
    (hfuel : fuel = (linesText (f :: r)).length + (r.length + 2) + 1)
    (hparse : yamlParseNode fuel (f :: (r ++ [[]])) 0 = .ok (w, rest3))
    (htrail : yamlTrailOk rest3 = true) :
    yaml_load_model false (String.mk (linesText (f :: r))) = .ok w := by
  subst hf
  have hsplit : splitOnChar '\n' (linesText ((c0 :: t0) :: r)) = ((c0 :: t0) :: r) ++ [[]] :=
    splitOnChar_linesText ((c0 :: t0) :: r) hnonl
  have hblank : isBlankL (c0 :: t0) = false := isBlankL_spaces 0 c0 t0 hc0
  have hind : countIndent (c0 :: t0) = 0 := countIndent_spaces 0 c0 t0 hc0
  have hstrip : stripIndent (c0 :: t0) = c0 :: t0 := stripIndent_spaces 0 c0 t0 hc0
  unfold yaml_load_model
  rw [show (String.mk (linesText ((c0 :: t0) :: r))).data
      = linesText ((c0 :: t0) :: r) from rfl]
  rw [hsplit]
  rw [show (((c0 :: t0) :: r) ++ [[]] : List (List Char))
      = (c0 :: t0) :: (r ++ [[]]) from rfl]
  simp only [List.dropWhile_cons, hblank, Bool.false_eq_true, if_false, hstrip, hind,
    List.length_cons, List.length_append, List.length_nil, Nat.zero_add]
  rw [if_neg (cons_ne_of_head c0 '.' t0 ("..".data) hc0d)]
  rw [hasPythonTag_head c0 t0 hc0e]
  simp only [Bool.false_eq_true, if_false]
  have hfe : (linesText ((c0 :: t0) :: r)).length + (r.length + 1 + 1) + 1 = fuel := by
    omega
  rw [hfe]
  simp only [hparse]
  simp [htrail]

/-- The lines emitted for a JSON-faithful value load back to that value. -/
theorem yamlDocLines_load (w : Value) (ls : List (List Char))
    (hwf : jsonWf w = true) (hls : yamlDocLines w = some ls) :
    yaml_load_model false (String.mk (linesText ls)) = .ok w := by
  have hstop : yamlStop 0 ([[]] : List (List Char)) :=
    Or.inr ⟨[], [], rfl, Or.inl (by decide)⟩
  cases w with
  | pyobj t a => exact absurd hwf (by simp [jsonWf])
  | seq xs =>
      cases xs with
      | cons x xs' =>
          simp only [yamlDocLines] at hls
          cases hsb : yamlSeqBlock (x :: xs') 0 with
          | none => rw [hsb] at hls; exact absurd hls (by simp)
          | some p =>
              obtain ⟨f, r⟩ := p
              rw [hsb] at hls
              simp only [Option.some.injEq] at hls
              subst hls
              obtain ⟨t1, hft⟩ := yamlSeqBlock_shape (x :: xs') 0 f r hsb (by simp)
              have hnb : yamlNodeBlock (Value.seq (x :: xs')) 0 = some (f, r) := hsb
              have hnonl := (emit_no_nl (yweight (Value.seq (x :: xs')))).1
                (Value.seq (x :: xs')) 0 f r le_rfl hnb
              have hcost := (yweight_le_emit (yweight (Value.seq (x :: xs')))).1
                (Value.seq (x :: xs')) 0 f r le_rfl hnb
              have hlen := linesText_length (f :: r)
              have hdc : docCost (f :: r) = f.length + 2 + docCost r := rfl
              have hRT := (yamlRT (docCost (f :: r) + 2)).1 (Value.seq (x :: xs')) 0 f r
                [[]] (by omega) hwf hnb hstop
              refine yaml_load_lines (Value.seq (x :: xs')) f r [[]] '-' (' ' :: t1)
                (docCost (f :: r) + 2) hft (by decide) (by decide) (by decide)
                hnonl (by have e2 : (f :: r).length = r.length + 1 := by simp
                          omega) ?_ (by decide)
              exact hRT
      | nil =>
          simp only [yamlDocLines, yamlScalarRepr, yamlRootPlain, Option.some.injEq] at hls
          rw [if_neg (by simp)] at hls
          subst hls
          have hnonl : noNLs ["[]".data] := by
            intro l hl c hc
            rcases List.mem_cons.mp hl with rfl | h2
            · fin_cases hc <;> decide
            · simp at h2
          have hparse := yamlRT_scalar_node (docCost (["[]".data] : List (List Char)) + 1)
            (Value.seq []) 0 ("[]".data) [[]] (by rfl)
          have hlen := linesText_length (["[]".data] : List (List Char))
          refine yaml_load_lines (Value.seq []) ("[]".data) [] [[]] '[' (']' :: [])
            (docCost (["[]".data] : List (List Char)) + 2) (by decide) (by decide)
            (by decide) (by decide) hnonl (by simp at hlen ⊢; omega) ?_ (by decide)
          exact hparse
  | map ps =>
      cases ps with
      | cons p ps' =>
          simp only [yamlDocLines] at hls
          cases hmb : yamlMapBlock (p :: ps') 0 with
          | none => rw [hmb] at hls; exact absurd hls (by simp)
          | some pr =>
              obtain ⟨f, r⟩ := pr
              rw [hmb] at hls
              simp only [Option.some.injEq] at hls
              subst hls
              obtain ⟨kS, rest, k, hkrep, hft⟩ := yamlMapBlock_shape (p :: ps') 0 f r hmb
                (by simp)
              obtain ⟨c1, t1, hkS, hc1, hc1d, hc1dot, hc1x⟩ := yamlStrRepr_head k kS hkrep
              have hfc : f = c1 :: (t1 ++ rest) := by rw [hft, hkS, List.cons_append]
              have hnb : yamlNodeBlock (Value.map (p :: ps')) 0 = some (f, r) := hmb
              have hnonl := (emit_no_nl (yweight (Value.map (p :: ps')))).1
                (Value.map (p :: ps')) 0 f r le_rfl hnb
              have hcost := (yweight_le_emit (yweight (Value.map (p :: ps')))).1
                (Value.map (p :: ps')) 0 f r le_rfl hnb
              have hlen := linesText_length (f :: r)
              have hdc : docCost (f :: r) = f.length + 2 + docCost r := rfl
              have hRT := (yamlRT (docCost (f :: r) + 2)).1 (Value.map (p :: ps')) 0 f r
                [[]] (by omega) hwf hnb hstop
              refine yaml_load_lines (Value.map (p :: ps')) f r [[]] c1 (t1 ++ rest)
                (docCost (f :: r) + 2) hfc hc1 hc1dot hc1x
                hnonl (by have e2 : (f :: r).length = r.length + 1 := by simp
                          omega) ?_ (by decide)
              exact hRT
      | nil =>
          simp only [yamlDocLines, yamlScalarRepr, yamlRootPlain, Option.some.injEq] at hls
          rw [if_neg (by simp)] at hls
          subst hls
          have hnonl : noNLs ["{}".data] := by
            intro l hl c hc
            rcases List.mem_cons.mp hl with rfl | h2
            · fin_cases hc <;> decide
            · simp at h2
          have hparse := yamlRT_scalar_node (docCost (["{}".data] : List (List Char)) + 1)
            (Value.map []) 0 ("{}".data) [[]] (by rfl)
          have hlen := linesText_length (["{}".data] : List (List Char))
          refine yaml_load_lines (Value.map []) ("{}".data) [] [[]] '{' ('}' :: [])
            (docCost (["{}".data] : List (List Char)) + 2) (by decide) (by decide)
            (by decide) (by decide) hnonl (by simp at hlen ⊢; omega) ?_ (by decide)
          exact hparse
  | null =>
      simp only [yamlDocLines, yamlScalarRepr, yamlRootPlain, Option.some.injEq] at hls
      rw [if_pos (by trivial)] at hls
      subst hls
      have hnonl : noNLs ["null".data, "...".data] := by
        intro l hl c hc
        rcases List.mem_cons.mp hl with rfl | h2
        · fin_cases hc <;> decide
        · rcases List.mem_cons.mp h2 with rfl | h3
          · fin_cases hc <;> decide
          · simp at h3
      have hparse := yamlRT_scalar_node
        (docCost (["null".data, "...".data] : List (List Char)) + 1)
        Value.null 0 ("null".data) ("...".data :: [[]]) (by rfl)
      have hlen := linesText_length (["null".data, "...".data] : List (List Char))
      refine yaml_load_lines Value.null ("null".data) ["...".data] ("...".data :: [[]])
        'n' ("ull".data)
        (docCost (["null".data, "...".data] : List (List Char)) + 2) (by decide)
        (by decide) (by decide) (by decide) hnonl (by simp at hlen ⊢; omega) ?_ (by decide)
      exact hparse
  | bool b =>
      cases b with
      | true =>
          simp only [yamlDocLines, yamlScalarRepr, yamlRootPlain, Option.some.injEq] at hls
          rw [if_pos (by trivial)] at hls
          subst hls
          have hnonl : noNLs ["true".data, "...".data] := by
            intro l hl c hc
            rcases List.mem_cons.mp hl with rfl | h2
            · fin_cases hc <;> decide
            · rcases List.mem_cons.mp h2 with rfl | h3
              · fin_cases hc <;> decide
              · simp at h3
          have hparse := yamlRT_scalar_node
            (docCost (["true".data, "...".data] : List (List Char)) + 1)
            (Value.bool true) 0 ("true".data) ("...".data :: [[]]) (by rfl)
          have hlen := linesText_length (["true".data, "...".data] : List (List Char))
          refine yaml_load_lines (Value.bool true) ("true".data) ["...".data]
            ("...".data :: [[]]) 't' ("rue".data)
            (docCost (["true".data, "...".data] : List (List Char)) + 2) (by decide)
            (by decide) (by decide) (by decide) hnonl (by simp at hlen ⊢; omega) ?_
            (by decide)
          exact hparse
      | false =>
          simp only [yamlDocLines, yamlScalarRepr, yamlRootPlain, Option.some.injEq] at hls
          rw [if_pos (by trivial)] at hls
          subst hls
          have hnonl : noNLs ["false".data, "...".data] := by
            intro l hl c hc
            rcases List.mem_cons.mp hl with rfl | h2
            · fin_cases hc <;> decide
            · rcases List.mem_cons.mp h2 with rfl | h3
              · fin_cases hc <;> decide
              · simp at h3
          have hparse := yamlRT_scalar_node
            (docCost (["false".data, "...".data] : List (List Char)) + 1)
            (Value.bool false) 0 ("false".data) ("...".data :: [[]]) (by rfl)
          have hlen := linesText_length (["false".data, "...".data] : List (List Char))
          refine yaml_load_lines (Value.bool false) ("false".data) ["...".data]
            ("...".data :: [[]]) 'f' ("alse".data)
            (docCost (["false".data, "...".data] : List (List Char)) + 2) (by decide)
            (by decide) (by decide) (by decide) hnonl (by simp at hlen ⊢; omega) ?_
            (by decide)
          exact hparse
  | int m =>
      simp only [yamlDocLines, yamlScalarRepr, yamlRootPlain, Option.some.injEq] at hls
      rw [if_pos (by trivial)] at hls
      subst hls
      obtain ⟨c0, t0, hvS, hc0, hc0dot, hc0x, _⟩ :=
        yamlScalarRepr_head (Value.int m) (intRepr m) (by rfl)
      have hnonl : noNLs [intRepr m, "...".data] := by
        intro l hl c hc
        rcases List.mem_cons.mp hl with rfl | h2
        · exact intRepr_no_nl m c hc
        · rcases List.mem_cons.mp h2 with rfl | h3
          · fin_cases hc <;> decide
          · simp at h3
      have hparse := yamlRT_scalar_node
        (docCost ([intRepr m, "...".data] : List (List Char)) + 1)
        (Value.int m) 0 (intRepr m) ("...".data :: [[]]) (by rfl)
      have hlen := linesText_length ([intRepr m, "...".data] : List (List Char))
      refine yaml_load_lines (Value.int m) (intRepr m) ["...".data]
        ("...".data :: [[]]) c0 t0
        (docCost ([intRepr m, "...".data] : List (List Char)) + 2) hvS
        hc0 hc0dot hc0x hnonl (by simp at hlen ⊢; omega) ?_ (by decide)
      exact hparse
  | str s =>
      simp only [yamlDocLines] at hls
      cases hsr : yamlStrRepr s with
      | none =>
          rw [show yamlScalarRepr (Value.str s) = yamlStrRepr s from rfl, hsr] at hls
          exact absurd hls (by simp)
      | some vS =>
          rw [show yamlScalarRepr (Value.str s) = yamlStrRepr s from rfl, hsr] at hls
          simp only [Option.some.injEq] at hls
          obtain ⟨c0, t0, hvS, hc0, hc0d, hc0dot, hc0x⟩ := yamlStrRepr_head s vS hsr
          have hvno := yamlStrRepr_no_nl s vS hsr
          rw [show yamlRootPlain (Value.str s) = plainOk s from rfl] at hls
          by_cases hp : plainOk s = true
          · rw [if_pos hp] at hls
            subst hls
            have hnonl : noNLs [vS, "...".data] := by
              intro l hl c hc
              rcases List.mem_cons.mp hl with rfl | h2
              · exact hvno c hc
              · rcases List.mem_cons.mp h2 with rfl | h3
                · fin_cases hc <;> decide
                · simp at h3
            have hparse := yamlRT_scalar_node
              (docCost ([vS, "...".data] : List (List Char)) + 1)
              (Value.str s) 0 vS ("...".data :: [[]]) hsr
            have hlen := linesText_length ([vS, "...".data] : List (List Char))
            refine yaml_load_lines (Value.str s) vS ["...".data]
              ("...".data :: [[]]) c0 t0
              (docCost ([vS, "...".data] : List (List Char)) + 2) hvS
              hc0 hc0dot hc0x hnonl (by simp at hlen ⊢; omega) ?_ (by decide)
            exact hparse
          · rw [if_neg hp] at hls
            subst hls
            have hnonl : noNLs [vS] := by
              intro l hl c hc
              rcases List.mem_cons.mp hl with rfl | h2
              · exact hvno c hc
              · simp at h2
            have hparse := yamlRT_scalar_node
              (docCost ([vS] : List (List Char)) + 1)
              (Value.str s) 0 vS [[]] hsr
            have hlen := linesText_length ([vS] : List (List Char))
            refine yaml_load_lines (Value.str s) vS [] [[]] c0 t0
              (docCost ([vS] : List (List Char)) + 2) hvS
              hc0 hc0dot hc0x hnonl (by simp at hlen ⊢; omega) ?_ (by decide)
            exact hparse

/-- `yaml.safe_load (yaml.dump v)` recovers `v` up to the dumper's recursive
key sorting, for every JSON-faithful value the modelled emitter covers. -/
theorem yaml_dump_safe_load (v : Value) (out : String)
    (hwf : jsonWf v = true) (hd : yaml_dump v = some out) :
    yaml_safe_load out = .ok (sortMapsRec v) := by
  have hwfw : jsonWf (sortMapsRec v) = true := jsonWf_sortMapsRec v hwf
  unfold yaml_dump at hd
  cases hls : yamlDocLines (sortMapsRec v) with
  | none => rw [hls] at hd; exact absurd hd (by simp)
  | some ls =>
      rw [hls] at hd
      simp only [Option.map_some', Option.some.injEq] at hd
      rw [← hd]
      exact yamlDocLines_load (sortMapsRec v) ls hwfw hls

end DataConverter
